import Mathlib

/-!
# go-sendtext: a shallow embedding of `sendtext.go`

The client of `sendtext.go` is four methods, each of which marshals a request to JSON,
builds an HTTP request, sets three headers, performs one exchange through the client's
`httpClient` and decodes the JSON response body. The file models

* Go strings and byte slices as lists of bytes (`Bytes`),
* the parts of Go's `unicode/utf8`, `encoding/json`, `net/textproto` and `net/http` that the
  four methods run through (they are library code, translated here from their documented
  behaviour: Go 1.22 on a target whose `int` is 64 bits wide),
* the types and the four methods of `sendtext.go` themselves.

An exchange through `httpClient` is the boundary of the model: `HTTPClient.roundTrip` is an
arbitrary function of the requests made so far and of the current request.
-/

namespace Sendtext

/-! ## Bytes and UTF-8 -/

/-- A Go `string` or `[]byte`: its sequence of bytes. Go bytes are below 256; every function
here treats a larger number like a byte that cannot occur in UTF-8. -/
abbrev Bytes := List Nat

/-- Go constant `utf8.RuneError` (U+FFFD). -/
def RuneError : Nat := 0xFFFD

/-- Go `utf8.DecodeRune`: the rune at the head of `p` and its width in bytes. Malformed input
gives `(RuneError, 1)`, empty input `(RuneError, 0)`. Masks and shifts of the original are
written as `%` and `*`. -/
def decodeRune : Bytes → Nat × Nat
  | [] => (RuneError, 0)
  | p0 :: rest =>
    if p0 < 0x80 then (p0, 1)
    else if p0 < 0xC2 then (RuneError, 1)
    else if p0 < 0xE0 then
      match rest with
      | b1 :: _ =>
        if 0x80 ≤ b1 ∧ b1 ≤ 0xBF then (p0 % 32 * 64 + b1 % 64, 2) else (RuneError, 1)
      | [] => (RuneError, 1)
    else if p0 < 0xF0 then
      match rest with
      | b1 :: b2 :: _ =>
        if (if p0 = 0xE0 then 0xA0 else 0x80) ≤ b1 ∧ b1 ≤ (if p0 = 0xED then 0x9F else 0xBF)
            ∧ 0x80 ≤ b2 ∧ b2 ≤ 0xBF then
          (p0 % 16 * 4096 + b1 % 64 * 64 + b2 % 64, 3)
        else (RuneError, 1)
      | _ => (RuneError, 1)
    else if p0 < 0xF5 then
      match rest with
      | b1 :: b2 :: b3 :: _ =>
        if (if p0 = 0xF0 then 0x90 else 0x80) ≤ b1 ∧ b1 ≤ (if p0 = 0xF4 then 0x8F else 0xBF)
            ∧ 0x80 ≤ b2 ∧ b2 ≤ 0xBF ∧ 0x80 ≤ b3 ∧ b3 ≤ 0xBF then
          (p0 % 8 * 262144 + b1 % 64 * 4096 + b2 % 64 * 64 + b3 % 64, 4)
        else (RuneError, 1)
      | _ => (RuneError, 1)
    else (RuneError, 1)

/-- Go `utf8.EncodeRune` (as `utf8.AppendRune` on an empty slice): surrogates and values past
U+10FFFF are written as U+FFFD. -/
def encodeRune (r : Nat) : Bytes :=
  if r ≤ 0x7F then [r]
  else if r ≤ 0x7FF then [0xC0 + r / 64, 0x80 + r % 64]
  else if 0x10FFFF < r ∨ (0xD800 ≤ r ∧ r ≤ 0xDFFF) then [0xEF, 0xBF, 0xBD]
  else if r ≤ 0xFFFF then [0xE0 + r / 4096, 0x80 + r / 64 % 64, 0x80 + r % 64]
  else [0xF0 + r / 262144, 0x80 + r / 4096 % 64, 0x80 + r / 64 % 64, 0x80 + r % 64]

/-- The bytes of a Go string literal, given as Lean text: its UTF-8 encoding. -/
def str (s : String) : Bytes := s.toList.flatMap (fun c => encodeRune c.toNat)

/-- Loop of `utf8.Valid`, one byte per step: `skip` counts the bytes still to pass of a rune
already decoded. -/
def validFrom : Nat → Bytes → Bool
  | _, [] => true
  | skip + 1, _ :: rest => validFrom skip rest
  | 0, b :: rest =>
    if (decodeRune (b :: rest)).1 = RuneError ∧ (decodeRune (b :: rest)).2 = 1 then false
    else validFrom ((decodeRune (b :: rest)).2 - 1) rest

/-- Go `utf8.Valid`: `s` is made of well-formed UTF-8 sequences only. -/
def utf8Valid (s : Bytes) : Bool := validFrom 0 s

/-- Loop of `toValidUTF8`. -/
def toValidFrom : Nat → Bytes → Bytes
  | _, [] => []
  | skip + 1, _ :: rest => toValidFrom skip rest
  | 0, b :: rest =>
    if (decodeRune (b :: rest)).1 = RuneError ∧ (decodeRune (b :: rest)).2 = 1 then
      [0xEF, 0xBF, 0xBD] ++ toValidFrom 0 rest
    else (b :: rest).take (decodeRune (b :: rest)).2
      ++ toValidFrom ((decodeRune (b :: rest)).2 - 1) rest

/-- The string `s` with each byte that is not part of a well-formed UTF-8 sequence replaced
by the encoding of U+FFFD: the coercion that `encoding/json` documents for string values. -/
def toValidUTF8 (s : Bytes) : Bytes := toValidFrom 0 s

/-! ## `encoding/json`: encoding -/

/-- Table `hex` of `encoding/json`: the lower-case hexadecimal digit of `n < 16`. -/
def hexDigit (n : Nat) : Nat := if n < 10 then 48 + n else 87 + n

/-- Table `htmlSafeSet` of `encoding/json`: the ASCII bytes written without escaping. -/
def htmlSafe (b : Nat) : Bool :=
  decide (0x20 ≤ b) && decide (b < 0x80) && b != 34 && b != 92 && b != 60 && b != 62 && b != 38

/-- The escape that `appendString` writes for an ASCII byte outside `htmlSafeSet`. -/
def escapeByte (b : Nat) : Bytes :=
  if b = 92 ∨ b = 34 then [92, b]
  else if b = 8 then [92, 98]
  else if b = 12 then [92, 102]
  else if b = 10 then [92, 110]
  else if b = 13 then [92, 114]
  else if b = 9 then [92, 116]
  else [92, 117, 48, 48, hexDigit (b / 16), hexDigit (b % 16)]

/-- Loop of `appendString` (with `escapeHTML` set, as `json.Marshal` does), one byte per
step; `skip` counts the bytes still to pass of a rune already handled. -/
def appendStringFrom : Nat → Bytes → Bytes
  | _, [] => []
  | skip + 1, _ :: rest => appendStringFrom skip rest
  | 0, b :: rest =>
    if b < 0x80 then
      (if htmlSafe b then [b] else escapeByte b) ++ appendStringFrom 0 rest
    else if (decodeRune (b :: rest)).1 = RuneError ∧ (decodeRune (b :: rest)).2 = 1 then
      [92, 117, 102, 102, 102, 100] ++ appendStringFrom 0 rest
    else if (decodeRune (b :: rest)).1 = 0x2028 ∨ (decodeRune (b :: rest)).1 = 0x2029 then
      [92, 117, 50, 48, 50, hexDigit ((decodeRune (b :: rest)).1 % 16)]
        ++ appendStringFrom ((decodeRune (b :: rest)).2 - 1) rest
    else (b :: rest).take (decodeRune (b :: rest)).2
      ++ appendStringFrom ((decodeRune (b :: rest)).2 - 1) rest

/-- The JSON string literal `encoding/json` writes for a Go string: `appendString`. -/
def appendString (s : Bytes) : Bytes := [34] ++ appendStringFrom 0 s ++ [34]

/-- Members of a JSON object as the struct encoder writes them: `"name":value`, separated by
commas. The names are the tag names, which need no escaping. -/
def encodeMembers : List (Bytes × Bytes) → Bytes
  | [] => []
  | [(k, v)] => [34] ++ k ++ [34, 58] ++ v
  | (k, v) :: m :: ms => [34] ++ k ++ [34, 58] ++ v ++ [44] ++ encodeMembers (m :: ms)

/-- The struct encoder: the emitted fields between braces. -/
def encodeObject (members : List (Bytes × Bytes)) : Bytes :=
  [123] ++ encodeMembers members ++ [125]

/-- Elements of a JSON array as the slice encoder writes them, separated by commas. -/
def encodeElements : List Bytes → Bytes
  | [] => []
  | [v] => v
  | v :: w :: vs => v ++ [44] ++ encodeElements (w :: vs)

/-- The slice encoder for a slice that is not nil: the elements between brackets. -/
def encodeArray (elems : List Bytes) : Bytes := [91] ++ encodeElements elems ++ [93]

/-! ## `encoding/json`: decoding -/

/-- A JSON value as the decoder reads it. A number keeps its literal: the decoder converts it
only when it stores it into a field. -/
inductive JVal where
  | null : JVal
  | bool : Bool → JVal
  | number : Bytes → JVal
  | string : Bytes → JVal
  | array : List JVal → JVal
  | object : List (Bytes × JVal) → JVal

/-- Why the scanner stops without a value: the input ended inside the value, or a byte cannot
continue a JSON value (the scanner's `scanError`). -/
inductive ScanFail where
  | eof : ScanFail
  | invalid : ScanFail
deriving DecidableEq, Repr

/-- Result of scanning: what was read and the input that follows it. -/
abbrev Scan (α : Type) := Except ScanFail (α × Bytes)

/-- Function `isSpace` of the scanner: space, tab, carriage return, line feed. -/
def isSpace (c : Nat) : Bool := c == 32 || c == 9 || c == 13 || c == 10

/-- The input after its leading white space. -/
def skipSpace : Bytes → Bytes
  | [] => []
  | c :: cs => if isSpace c then skipSpace cs else c :: cs

/-- Hexadecimal digits, either case. -/
def isHex (c : Nat) : Bool :=
  (decide (48 ≤ c) && decide (c ≤ 57)) || (decide (97 ≤ c) && decide (c ≤ 102))
    || (decide (65 ≤ c) && decide (c ≤ 70))

/-- The scanner's states inside a string literal. -/
inductive StrStep where
  | inString | inStringEsc | inStringEscU | inStringEscU1 | inStringEscU12 | inStringEscU123
deriving DecidableEq, Repr

/-- Add a byte in front of what a scan returns. -/
def Scan.cons (c : Nat) : Scan Bytes → Scan Bytes
  | .ok (raw, rest) => .ok (c :: raw, rest)
  | .error e => .error e

/-- The scanner inside a string literal (`stateInString` and the escape states): the bytes up
to the closing quote, and the input after that quote. -/
def scanString : StrStep → Bytes → Scan Bytes
  | _, [] => .error .eof
  | .inString, c :: cs =>
    if c = 34 then .ok ([], cs)
    else if c = 92 then Scan.cons c (scanString .inStringEsc cs)
    else if c < 0x20 then .error .invalid
    else Scan.cons c (scanString .inString cs)
  | .inStringEsc, c :: cs =>
    if c = 98 ∨ c = 102 ∨ c = 110 ∨ c = 114 ∨ c = 116 ∨ c = 92 ∨ c = 47 ∨ c = 34 then
      Scan.cons c (scanString .inString cs)
    else if c = 117 then Scan.cons c (scanString .inStringEscU cs)
    else .error .invalid
  | .inStringEscU, c :: cs =>
    if isHex c then Scan.cons c (scanString .inStringEscU1 cs) else .error .invalid
  | .inStringEscU1, c :: cs =>
    if isHex c then Scan.cons c (scanString .inStringEscU12 cs) else .error .invalid
  | .inStringEscU12, c :: cs =>
    if isHex c then Scan.cons c (scanString .inStringEscU123 cs) else .error .invalid
  | .inStringEscU123, c :: cs =>
    if isHex c then Scan.cons c (scanString .inString cs) else .error .invalid

/-- Value of a hexadecimal digit, as in `getu4`. -/
def hexVal (c : Nat) : Option Nat :=
  if 48 ≤ c ∧ c ≤ 57 then some (c - 48)
  else if 97 ≤ c ∧ c ≤ 102 then some (c - 97 + 10)
  else if 65 ≤ c ∧ c ≤ 70 then some (c - 65 + 10)
  else none

/-- Function `getu4` of the decoder: the number written by a `\uXXXX` at the head of `s`. -/
def getu4 : Bytes → Option Nat
  | 92 :: 117 :: a :: b :: c :: d :: _ =>
    match hexVal a, hexVal b, hexVal c, hexVal d with
    | some x, some y, some z, some w => some (((x * 16 + y) * 16 + z) * 16 + w)
    | _, _, _, _ => none
  | _ => none

/-- Go `utf16.DecodeRune`, with `none` for the `-1` that `getu4` returns on failure. -/
def utf16DecodeRune (r1 : Nat) (r2 : Option Nat) : Nat :=
  match r2 with
  | some r2 =>
    if 0xD800 ≤ r1 ∧ r1 < 0xDC00 ∧ 0xDC00 ≤ r2 ∧ r2 < 0xE000 then
      (r1 - 0xD800) * 1024 + (r2 - 0xDC00) + 0x10000
    else RuneError
  | none => RuneError

/-- Loop of `unquoteBytes` over the bytes between the quotes, one byte per step; `skip`
counts the bytes still to pass of an escape or rune already handled. `none` is the
original's `ok = false`. -/
def unquoteFrom : Nat → Bytes → Option Bytes
  | _, [] => some []
  | skip + 1, _ :: rest => unquoteFrom skip rest
  | 0, c :: rest =>
    if c = 92 then
      match rest with
      | [] => none
      | e :: _ =>
        if e = 34 ∨ e = 92 ∨ e = 47 ∨ e = 39 then (unquoteFrom 1 rest).map (e :: ·)
        else if e = 98 then (unquoteFrom 1 rest).map (8 :: ·)
        else if e = 102 then (unquoteFrom 1 rest).map (12 :: ·)
        else if e = 110 then (unquoteFrom 1 rest).map (10 :: ·)
        else if e = 114 then (unquoteFrom 1 rest).map (13 :: ·)
        else if e = 116 then (unquoteFrom 1 rest).map (9 :: ·)
        else if e = 117 then
          match getu4 (c :: rest) with
          | none => none
          | some rr =>
            if 0xD800 ≤ rr ∧ rr < 0xE000 then
              if utf16DecodeRune rr (getu4 (rest.drop 5)) ≠ RuneError then
                (unquoteFrom 11 rest).map
                  (encodeRune (utf16DecodeRune rr (getu4 (rest.drop 5))) ++ ·)
              else (unquoteFrom 5 rest).map (encodeRune RuneError ++ ·)
            else (unquoteFrom 5 rest).map (encodeRune rr ++ ·)
        else none
    else if c = 34 ∨ c < 0x20 then none
    else if c < 0x80 then (unquoteFrom 0 rest).map (c :: ·)
    else (unquoteFrom ((decodeRune (c :: rest)).2 - 1) rest).map
      (encodeRune (decodeRune (c :: rest)).1 ++ ·)

/-- Function `unquoteBytes` of the decoder on the contents of a string literal: escapes are
resolved and the result is coerced to well-formed UTF-8. -/
def unquote (raw : Bytes) : Option Bytes := unquoteFrom 0 raw

/-- The scanner's states inside a number. -/
inductive NumStep where
  | neg | zero | int | dot | dot0 | exp | expSign | exp0
deriving DecidableEq, Repr

/-- Decimal digits. -/
def isDigit (c : Nat) : Bool := decide (48 ≤ c) && decide (c ≤ 57)

/-- The scanner inside a number (`stateNeg`, `state0`, `state1`, `stateDot`, `stateDot0`,
`stateE`, `stateESign`, `stateE0`): the remaining bytes of the literal and the input from
the first byte that does not belong to it. -/
def scanNumber : NumStep → Bytes → Scan Bytes
  | .neg, [] => .error .eof
  | .dot, [] => .error .eof
  | .exp, [] => .error .eof
  | .expSign, [] => .error .eof
  | _, [] => .ok ([], [])
  | .neg, c :: cs =>
    if c = 48 then Scan.cons c (scanNumber .zero cs)
    else if 49 ≤ c ∧ c ≤ 57 then Scan.cons c (scanNumber .int cs)
    else .error .invalid
  | .int, c :: cs =>
    if isDigit c then Scan.cons c (scanNumber .int cs)
    else if c = 46 then Scan.cons c (scanNumber .dot cs)
    else if c = 101 ∨ c = 69 then Scan.cons c (scanNumber .exp cs)
    else .ok ([], c :: cs)
  | .zero, c :: cs =>
    if c = 46 then Scan.cons c (scanNumber .dot cs)
    else if c = 101 ∨ c = 69 then Scan.cons c (scanNumber .exp cs)
    else .ok ([], c :: cs)
  | .dot, c :: cs =>
    if isDigit c then Scan.cons c (scanNumber .dot0 cs) else .error .invalid
  | .dot0, c :: cs =>
    if isDigit c then Scan.cons c (scanNumber .dot0 cs)
    else if c = 101 ∨ c = 69 then Scan.cons c (scanNumber .exp cs)
    else .ok ([], c :: cs)
  | .exp, c :: cs =>
    if c = 43 ∨ c = 45 then Scan.cons c (scanNumber .expSign cs)
    else if isDigit c then Scan.cons c (scanNumber .exp0 cs)
    else .error .invalid
  | .expSign, c :: cs =>
    if isDigit c then Scan.cons c (scanNumber .exp0 cs) else .error .invalid
  | .exp0, c :: cs =>
    if isDigit c then Scan.cons c (scanNumber .exp0 cs) else .ok ([], c :: cs)

/-- The scanner inside `true`, `false` or `null`: `expected` are the bytes still to come. -/
def scanLiteral : Bytes → Bytes → Except ScanFail Bytes
  | [], inp => .ok inp
  | _ :: _, [] => .error .eof
  | e :: es, c :: cs => if c = e then scanLiteral es cs else .error .invalid

/-- A value that starts with the byte `c` and is not an object or an array; `rest` follows
`c`. -/
def parseScalar (c : Nat) (rest : Bytes) : Scan JVal :=
  if c = 34 then
    match scanString .inString rest with
    | .error e => .error e
    | .ok (raw, rest2) =>
      match unquote raw with
      | some s => .ok (.string s, rest2)
      | none => .error .invalid
  else if c = 45 then
    match scanNumber .neg rest with
    | .error e => .error e
    | .ok (lit, rest2) => .ok (.number (c :: lit), rest2)
  else if c = 48 then
    match scanNumber .zero rest with
    | .error e => .error e
    | .ok (lit, rest2) => .ok (.number (c :: lit), rest2)
  else if 49 ≤ c ∧ c ≤ 57 then
    match scanNumber .int rest with
    | .error e => .error e
    | .ok (lit, rest2) => .ok (.number (c :: lit), rest2)
  else if c = 116 then
    match scanLiteral [114, 117, 101] rest with
    | .error e => .error e
    | .ok rest2 => .ok (.bool true, rest2)
  else if c = 102 then
    match scanLiteral [97, 108, 115, 101] rest with
    | .error e => .error e
    | .ok rest2 => .ok (.bool false, rest2)
  else if c = 110 then
    match scanLiteral [117, 108, 108] rest with
    | .error e => .error e
    | .ok rest2 => .ok (.null, rest2)
  else .error .invalid

/-- The elements of an array from the first byte of an element on, up to and including the
closing bracket. `pv` reads one value; `fuel` bounds the number of elements and is the length
of the input wherever this is called, so it does not run out before the input does. -/
def parseElements (pv : Bytes → Scan JVal) : Nat → Bytes → Scan (List JVal)
  | 0, _ => .error .eof
  | fuel + 1, inp =>
    match pv inp with
    | .error e => .error e
    | .ok (v, rest) =>
      match skipSpace rest with
      | [] => .error .eof
      | c :: rest2 =>
        if c = 44 then
          match parseElements pv fuel rest2 with
          | .error e => .error e
          | .ok (vs, rest3) => .ok (v :: vs, rest3)
        else if c = 93 then .ok ([v], rest2)
        else .error .invalid

/-- The members of an object from the place where a key has to start, up to and including
the closing brace. `pv` reads one value; `fuel` is as in `parseElements`. -/
def parseMembers (pv : Bytes → Scan JVal) : Nat → Bytes → Scan (List (Bytes × JVal))
  | 0, _ => .error .eof
  | fuel + 1, inp =>
    match skipSpace inp with
    | [] => .error .eof
    | q :: afterQuote =>
      if q = 34 then
        match scanString .inString afterQuote with
        | .error e => .error e
        | .ok (raw, rest) =>
          match unquote raw with
          | none => .error .invalid
          | some key =>
            match skipSpace rest with
            | [] => .error .eof
            | colon :: rest2 =>
              if colon = 58 then
                match pv rest2 with
                | .error e => .error e
                | .ok (v, rest3) =>
                  match skipSpace rest3 with
                  | [] => .error .eof
                  | c :: rest4 =>
                    if c = 44 then
                      match parseMembers pv fuel rest4 with
                      | .error e => .error e
                      | .ok (ms, rest5) => .ok ((key, v) :: ms, rest5)
                    else if c = 125 then .ok ([(key, v)], rest4)
                    else .error .invalid
              else .error .invalid
      else .error .invalid

/-- An array after its opening bracket. -/
def parseArray (pv : Bytes → Scan JVal) (rest : Bytes) : Scan JVal :=
  match skipSpace rest with
  | [] => .error .eof
  | c :: rest2 =>
    if c = 93 then .ok (.array [], rest2)
    else
      match parseElements pv rest.length (c :: rest2) with
      | .error e => .error e
      | .ok (vs, rest3) => .ok (.array vs, rest3)

/-- An object after its opening brace. -/
def parseObject (pv : Bytes → Scan JVal) (rest : Bytes) : Scan JVal :=
  match skipSpace rest with
  | [] => .error .eof
  | c :: rest2 =>
    if c = 125 then .ok (.object [], rest2)
    else
      match parseMembers pv rest.length (c :: rest2) with
      | .error e => .error e
      | .ok (ms, rest3) => .ok (.object ms, rest3)

/-- The scanner from `stateBeginValue`: the first JSON value of the input and the input that
follows it. The first argument is the number of nested arrays and objects that may still be
opened. -/
def parseValue : Nat → Bytes → Scan JVal
  | 0, inp =>
    match skipSpace inp with
    | [] => .error .eof
    | c :: rest => if c = 123 ∨ c = 91 then .error .invalid else parseScalar c rest
  | depth + 1, inp =>
    match skipSpace inp with
    | [] => .error .eof
    | c :: rest =>
      if c = 123 then parseObject (parseValue depth) rest
      else if c = 91 then parseArray (parseValue depth) rest
      else parseScalar c rest

/-- Constant `maxNestingDepth` of the scanner. -/
def maxNestingDepth : Nat := 10000

/-- Go `json.Valid`: the whole of `data` is one JSON value, white space around it allowed. -/
def jsonValid (data : Bytes) : Bool :=
  match parseValue maxNestingDepth data with
  | .ok (_, rest) => rest.all isSpace
  | .error _ => false

/-- Digits of `strconv.ParseUint` in base 10; `none` is its error for a byte that is not a
digit or for no digits at all. The range is checked by `parseInt64`. -/
def parseUint (s : Bytes) : Option Nat :=
  if s ≠ [] ∧ s.all isDigit = true then some (s.foldl (fun acc c => acc * 10 + (c - 48)) 0)
  else none

/-- Go `strconv.ParseInt(s, 10, 64)`; `none` is any of its errors (not a decimal integer,
or outside the signed 64-bit range). -/
def parseInt64 (s : Bytes) : Option Int :=
  match s with
  | [] => none
  | c :: cs =>
    if c = 45 then
      match parseUint cs with
      | some n => if n ≤ 2 ^ 63 then some (-(n : Int)) else none
      | none => none
    else
      match parseUint (if c = 43 then cs else c :: cs) with
      | some n => if n < 2 ^ 63 then some (n : Int) else none
      | none => none

/-- How the decoder stores a JSON value into a Go variable that holds `old`: the new content
of the variable, and whether an `UnmarshalTypeError` was saved. -/
abbrev Store (α : Type) := JVal → α → α × Bool

/-- Function `literalStore` and its siblings for a Go `string`: a JSON string is stored,
`null` leaves the variable alone, anything else is a type error. -/
def storeString : Store Bytes
  | .string s, _ => (s, false)
  | .null, old => (old, false)
  | _, old => (old, true)

/-- Width in bits of the Go type `int` (`strconv.IntSize`): 64, as on every 64-bit target. -/
def intSize : Nat := 64

/-- Go `reflect.Value.OverflowInt` for a variable of type `int`. -/
def overflowInt (n : Int) : Bool :=
  decide (n < -(2 : Int) ^ (intSize - 1)) || decide ((2 : Int) ^ (intSize - 1) ≤ n)

/-- Function `literalStore` and its siblings for a Go `int`: a JSON number is stored when
`strconv.ParseInt` accepts its literal and the value fits the type, `null` leaves the variable
alone, anything else is a type error. -/
def storeInt : Store Int
  | .number lit, old =>
    match parseInt64 lit with
    | some n => if overflowInt n then (old, true) else (n, false)
    | none => (old, true)
  | .null, old => (old, false)
  | _, old => (old, true)

/-- Function `foldName` of the decoder, as far as it matters for names made of ASCII letters
and underscores: ASCII letters are folded to upper case, and so are the two other runes that
fold to an ASCII letter, U+017F to `S` and U+212A to `K`. -/
def foldName : Bytes → Bytes
  | [] => []
  | 0xC5 :: 0xBF :: rest => 83 :: foldName rest
  | 0xE2 :: 0x84 :: 0xAA :: rest => 75 :: foldName rest
  | c :: rest => (if 97 ≤ c ∧ c ≤ 122 then c - 32 else c) :: foldName rest

/-- Index of the first name for which `p` holds. -/
def findIndex (p : Bytes → Bool) : List Bytes → Option Nat
  | [] => none
  | n :: ns => if p n then some 0 else (findIndex p ns).map (· + 1)

/-- The struct field a key of a JSON object is stored into: the field with exactly this
name, or else the first field whose name differs only by case folding. -/
def fieldIndex (names : List Bytes) (key : Bytes) : Option Nat :=
  match findIndex (fun n => n = key) names with
  | some i => some i
  | none => findIndex (fun n => foldName n = foldName key) names

/-- Method `object` of the decoder for a struct: the members are stored in the order of the
input by `setField`; `null` leaves the struct alone; any other value is a type error. -/
def storeStruct {α : Type} (setField : Bytes → Store α) : Store α
  | .object ms, old =>
    ms.foldl (fun acc m => ((setField m.1 m.2 acc.1).1, acc.2 || (setField m.1 m.2 acc.1).2))
      (old, false)
  | .null, old => (old, false)
  | _, old => (old, true)

/-- A Go slice: `nil`, or its elements together with the slots of its backing array past its
length that still hold values of an earlier decoding (`spare`). -/
inductive Slice (α : Type) where
  | nil : Slice α
  | mk (elems : List α) (spare : List α) : Slice α
deriving DecidableEq, Repr

/-- The elements of a slice. -/
def Slice.toList {α : Type} : Slice α → List α
  | .nil => []
  | .mk elems _ => elems

/-- All slots of the backing array that hold a value. -/
def Slice.backing {α : Type} : Slice α → List α
  | .nil => []
  | .mk elems spare => elems ++ spare

/-- Loop of method `array` of the decoder: element `i` of the input is stored into slot `i`,
which holds its earlier value or else the zero value. -/
def storeElements {α : Type} (store : Store α) (zero : α) : List JVal → List α → List α × Bool
  | [], _ => ([], false)
  | v :: vs, slots =>
    ((store v (slots.headD zero)).1 :: (storeElements store zero vs slots.tail).1,
      (store v (slots.headD zero)).2 || (storeElements store zero vs slots.tail).2)

/-- Method `array` of the decoder for a slice: an empty array gives a new empty slice, `null`
gives nil, a value that is not an array is a type error. -/
def storeSlice {α : Type} (store : Store α) (zero : α) : Store (Slice α)
  | .array [], _ => (.mk [] [], false)
  | .array (v :: vs), old =>
    (.mk (storeElements store zero (v :: vs) old.backing).1 (old.backing.drop (vs.length + 1)),
      (storeElements store zero (v :: vs) old.backing).2)
  | .null, _ => (.nil, false)
  | _, old => (old, true)

/-- A Go `error` value: the errors the JSON decoder returns, and any other error. -/
inductive Error where
  | EOF : Error
  | ErrUnexpectedEOF : Error
  | SyntaxError : Error
  | UnmarshalTypeError : Error
  | other : Nat → Error
deriving DecidableEq, Repr

/-- A response body as an `io.Reader`: the bytes it delivers, and the error with which
reading ends when that is not `io.EOF`. -/
structure Body where
  data : Bytes
  readErr : Option Error
deriving DecidableEq, Repr

/-- The error that ends the body, when it is not the plain end of input. -/
def Body.failure (body : Body) : Option Error :=
  match body.readErr with
  | some e => if e = .EOF then none else some e
  | none => none

/-- Whether a value is an array or an object: the scanner reports the end of these with
their closing byte, the end of any other value only with the byte after it. -/
def JVal.isContainer : JVal → Bool
  | .array _ => true
  | .object _ => true
  | _ => false

/-- Method `readValue` of `json.Decoder` on a fresh decoder: the first JSON value of the
body. What follows that value is not looked at. -/
def readValue (body : Body) : Except Error JVal :=
  match parseValue maxNestingDepth body.data with
  | .ok (v, rest) =>
    if rest = [] ∧ v.isContainer = false then
      match body.failure with
      | some e => .error e
      | none => .ok v
    else .ok v
  | .error .invalid => .error .SyntaxError
  | .error .eof =>
    match body.failure with
    | some e => .error e
    | none => if body.data.all isSpace then .error .EOF else .error .ErrUnexpectedEOF

/-- Go `json.NewDecoder(body).Decode(&v)` for a variable that holds `v`: the content of
the variable afterwards and the error returned. -/
def decode {α : Type} (store : Store α) (body : Body) (v : α) : α × Option Error :=
  match readValue body with
  | .error e => (v, some e)
  | .ok j => ((store j v).1, if (store j v).2 then some .UnmarshalTypeError else none)

/-- Go `json.Unmarshal(data, &v)` for a variable that holds `v`: the whole of `data` has to
be one JSON value. -/
def unmarshal {α : Type} (store : Store α) (data : Bytes) (v : α) : α × Option Error :=
  match parseValue maxNestingDepth data with
  | .ok (j, rest) =>
    if rest.all isSpace then
      ((store j v).1, if (store j v).2 then some .UnmarshalTypeError else none)
    else (v, some .SyntaxError)
  | .error _ => (v, some .SyntaxError)

/-- The member of a JSON object with the given name (the first one). -/
def JVal.member (j : JVal) (name : Bytes) : Option JVal :=
  match j with
  | .object ms => (ms.find? (fun m => m.1 = name)).map (fun m => m.2)
  | _ => none

/-- The value under a name in the top-level object of a JSON text; `none` when the text is
not valid JSON, is not an object or has no member of that name. -/
def jsonMember (data name : Bytes) : Option JVal :=
  match parseValue maxNestingDepth data with
  | .ok (j, rest) => if rest.all isSpace then j.member name else none
  | .error _ => none

/-- Loop of `strconv.FormatInt` in base 10: the decimal digits of `n`, most significant
first, in front of `acc`. `fuel` bounds the number of digits. -/
def formatDigits : Nat → Nat → Bytes → Bytes
  | 0, _, acc => acc
  | fuel + 1, n, acc =>
    if n < 10 then (48 + n) :: acc else formatDigits fuel (n / 10) ((48 + n % 10) :: acc)

/-- Go `strconv.FormatInt(b, 10)`: the decimal representation of an integer, which is how a
JSON text writes an integer. -/
def formatInt (b : Int) : Bytes :=
  if b < 0 then 45 :: formatDigits (b.natAbs + 1) b.natAbs []
  else formatDigits (b.natAbs + 1) b.natAbs []

/-- The number that four hexadecimal digits, of either case, write. -/
def hex4 (a b c d : Nat) : Option Nat :=
  match hexVal a, hexVal b, hexVal c, hexVal d with
  | some x, some y, some z, some w => some (((x * 16 + y) * 16 + z) * 16 + w)
  | _, _, _, _ => none

/-- The two-character escapes of JSON, each as the byte after the backslash and the character
it stands for: the quote, the backslash, the slash, backspace, form feed, line feed, carriage
return and tab. -/
def shortEscapes : List (Nat × Nat) :=
  [(34, 34), (92, 92), (47, 47), (98, 8), (102, 12), (110, 10), (114, 13), (116, 9)]

/-- A Unicode scalar value: a code point up to U+10FFFF that is not a surrogate. -/
def isScalar (n : Nat) : Prop := n < 0xD800 ∨ (0xDFFF < n ∧ n < 0x110000)

instance (n : Nat) : Decidable (isScalar n) := by
  unfold isScalar
  infer_instance

/-- JSON escaping, by the grammar of strings in RFC 8259, section 7: `Escaped raw s` says that
`raw`, put between quotes, is a JSON string literal of the text whose UTF-8 bytes are `s`.
A character other than the quote, the backslash and the control characters below U+0020 may
stand for itself; each two-character escape stands for its character; `\uXXXX` stands for the
character of that number; and a character past U+FFFF may be written as the two `\uXXXX` of
its UTF-16 surrogate pair. -/
inductive Escaped : Bytes → Bytes → Prop where
  | nil : Escaped [] []
  | char (n : Nat) (raw s : Bytes) :
      isScalar n → 0x20 ≤ n → n ≠ 34 → n ≠ 92 → Escaped raw s →
      Escaped (encodeRune n ++ raw) (encodeRune n ++ s)
  | short (e c : Nat) (raw s : Bytes) :
      (e, c) ∈ shortEscapes → Escaped raw s → Escaped (92 :: e :: raw) (c :: s)
  | unicode (a b c d n : Nat) (raw s : Bytes) :
      hex4 a b c d = some n → isScalar n → Escaped raw s →
      Escaped (92 :: 117 :: a :: b :: c :: d :: raw) (encodeRune n ++ s)
  | pair (a b c d a2 b2 c2 d2 hi lo : Nat) (raw s : Bytes) :
      hex4 a b c d = some hi → hex4 a2 b2 c2 d2 = some lo →
      0xD800 ≤ hi → hi < 0xDC00 → 0xDC00 ≤ lo → lo < 0xE000 → Escaped raw s →
      Escaped (92 :: 117 :: a :: b :: c :: d :: 92 :: 117 :: a2 :: b2 :: c2 :: d2 :: raw)
        (encodeRune (0x10000 + (hi - 0xD800) * 1024 + (lo - 0xDC00)) ++ s)

/-- The JSON text `{"balance":b,"expires_at":"e","updated_at":"u"}`: `b` in decimal, and
between the quotes the two strings as they are spelled in the text, escapes included. -/
def balanceBody (b : Int) (e u : Bytes) : Bytes :=
  encodeObject [(str "balance", formatInt b), (str "expires_at", [34] ++ e ++ [34]),
    (str "updated_at", [34] ++ u ++ [34])]

/-! ## `net/textproto` and `net/http` -/

/-- Function `validHeaderFieldByte` of `net/textproto`, which is also the token table of
`net/http`: letters, digits and the punctuation allowed in a token. -/
def validHeaderFieldByte (c : Nat) : Bool :=
  (decide (48 ≤ c) && decide (c ≤ 57)) || (decide (97 ≤ c) && decide (c ≤ 122))
    || (decide (65 ≤ c) && decide (c ≤ 90))
    || [33, 35, 36, 37, 38, 39, 42, 43, 45, 46, 94, 95, 96, 124, 126].contains c

/-- Second loop of `canonicalMIMEHeaderKey`: upper case for the first letter and for a
letter after a hyphen, lower case for the others. -/
def canonicalize : Bool → Bytes → Bytes
  | _, [] => []
  | upper, c :: cs =>
    (if upper = true ∧ 97 ≤ c ∧ c ≤ 122 then c - 32
     else if upper = false ∧ 65 ≤ c ∧ c ≤ 90 then c + 32 else c)
      :: canonicalize
        ((if upper = true ∧ 97 ≤ c ∧ c ≤ 122 then c - 32
          else if upper = false ∧ 65 ≤ c ∧ c ≤ 90 then c + 32 else c) == 45) cs

/-- Go `textproto.CanonicalMIMEHeaderKey`: a key with a byte that is not allowed in a header
name is returned as it is. -/
def CanonicalMIMEHeaderKey (key : Bytes) : Bytes :=
  if key.all validHeaderFieldByte then canonicalize true key else key

/-- Go `http.Header`: a map from canonical keys to lists of values, kept as an association
list with one entry per key. -/
abbrev Header := List (Bytes × List Bytes)

/-- Go `Header.Set`: the key is made canonical and its values are replaced by `value`. -/
def Header.Set (h : Header) (key value : Bytes) : Header :=
  (CanonicalMIMEHeaderKey key, [value])
    :: h.filter (fun kv => kv.1 ≠ CanonicalMIMEHeaderKey key)

/-- All values stored under a key, after the key is made canonical. -/
def Header.Values (h : Header) (key : Bytes) : List Bytes :=
  match h.find? (fun kv => kv.1 = CanonicalMIMEHeaderKey key) with
  | some kv => kv.2
  | none => []

/-- Go `Header.Get`: the first value stored under the key, or the empty string. -/
def Header.Get (h : Header) (key : Bytes) : Bytes :=
  (Header.Values h key).headD []

/-- Go `http.Request`, as far as the client fills it: a nil `Body` is `none`. -/
structure Request where
  Method : Bytes
  URL : Bytes
  Header : Header
  Body : Option Bytes
deriving DecidableEq, Repr

/-- Go `http.Response`, as far as a caller can read it. -/
structure Response where
  StatusCode : Nat
  Header : Header
  Body : Body
deriving DecidableEq, Repr

/-- Go `http.NewRequest`. It fails for a method that is not a token and for a URL that
`url.Parse` rejects; of the latter only the check for ASCII control bytes is modelled, the
URLs of this client being constants that parse. The header map is empty. -/
def NewRequest (method url : Bytes) (body : Option Bytes) : Except Error Request :=
  if ((if method = [] then str "GET" else method).all validHeaderFieldByte) = false then
    .error (.other 1)
  else if url.any (fun c => decide (c < 0x20) || c == 0x7F) then .error (.other 2)
  else .ok ⟨if method = [] then str "GET" else method, url, [], body⟩

/-- Go `*http.Client` seen from its caller: what `Do` answers to a request, given the
requests made before it. -/
structure HTTPClient where
  roundTrip : List Request → Request → Except Error Response

/-- Go `(*http.Client).Do`: one exchange. `sent` are the requests made so far; the request
is added to them. -/
def HTTPClient.Do (h : HTTPClient) (req : Request) (sent : List Request) :
    Except Error Response × List Request :=
  (h.roundTrip sent req, sent ++ [req])

/-! ## `sendtext.go` -/

/-- Constant `baseURL`. -/
def baseURL : Bytes := str "https://api.sendtext.sn/v1"

/-- Type `Client`: the API credentials and the HTTP client used for making requests. The
field `httpClient` is a `*http.Client` in the source; it is the one `NewClient` stores, and
the model has no nil value for it. -/
structure Client where
  APIKey : Bytes
  APISecret : Bytes
  httpClient : HTTPClient

/-- Type `SMSRequest`: the payload for sending a single SMS. -/
structure SMSRequest where
  SenderName : Bytes
  SMSType : Bytes
  Phone : Bytes
  ScheduledAt : Bytes
  Text : Bytes
deriving DecidableEq, Repr

/-- Type `SMSResponse`. The field `Type` of the source is `Type_` here. -/
structure SMSResponse where
  Type_ : Bytes
  Text : Bytes
  Phone : Bytes
  SenderName : Bytes
  MessageID : Bytes
  ScheduledAt : Bytes
  SendtextSmsCount : Int
  StatusID : Int
  StatusDescription : Bytes
deriving DecidableEq, Repr

/-- The anonymous element type of `CampaignRequest.CampaignLines`. -/
structure CampaignLine where
  Phone : Bytes
  Text : Bytes
deriving DecidableEq, Repr

/-- Type `CampaignRequest`: the payload for sending a bulk SMS campaign. -/
structure CampaignRequest where
  SenderName : Bytes
  SMSType : Bytes
  ScheduledAt : Bytes
  CampaignName : Bytes
  CampaignLines : Slice CampaignLine
deriving DecidableEq, Repr

/-- The anonymous element type of `CampaignResponse.CampaignLines`. -/
structure CampaignResultLine where
  Text : Bytes
  Phone : Bytes
  MessageID : Bytes
  SendtextSmsCount : Int
  StatusId : Int
  StatusDescription : Bytes
deriving DecidableEq, Repr

/-- Type `CampaignResponse`. The field `Type` of the source is `Type_` here. -/
structure CampaignResponse where
  Type_ : Bytes
  SenderName : Bytes
  ScheduledAt : Bytes
  CampaignId : Int
  CampaignLines : Slice CampaignResultLine
deriving DecidableEq, Repr

/-- Type `BalanceResponse`. -/
structure BalanceResponse where
  Balance : Int
  ExpiresAt : Bytes
  UpdatedAt : Bytes
deriving DecidableEq, Repr

/-- Type `HistoryItem`: a single SMS transaction in the history. The field `Type` of the
source is `Type_` here. -/
structure HistoryItem where
  Type_ : Bytes
  SenderName : Bytes
  MessageID : Bytes
  SendtextSmsCount : Int
  Phone : Bytes
  CreatedAt : Bytes
  ScheduledAt : Bytes
  Text : Bytes
  StatusId : Int
  StatusDescription : Bytes
deriving DecidableEq, Repr

/-- Type `HistoryResponse`: a list of `HistoryItem`. -/
abbrev HistoryResponse := Slice HistoryItem

/-- The struct encoder of `encoding/json` for an `SMSRequest`, by its field tags:
`scheduled_at` has `omitempty` and is left out when the string is empty. -/
def SMSRequest.encode (r : SMSRequest) : Bytes :=
  encodeObject
    ([(str "sender_name", appendString r.SenderName),
      (str "sms_type", appendString r.SMSType),
      (str "phone", appendString r.Phone)]
      ++ (if r.ScheduledAt = [] then [] else [(str "scheduled_at", appendString r.ScheduledAt)])
      ++ [(str "text", appendString r.Text)])

/-- Go `json.Marshal` for an `SMSRequest`. Encoding a struct of strings cannot fail. -/
def marshalSMSRequest (r : SMSRequest) : Except Error Bytes := .ok r.encode

/-- The struct encoder for an element of `CampaignLines`. -/
def encodeCampaignLine (l : CampaignLine) : Bytes :=
  encodeObject [(str "phone", appendString l.Phone), (str "text", appendString l.Text)]

/-- The slice encoder for the field `CampaignLines`: a nil slice is written as `null`. -/
def encodeCampaignLines : Slice CampaignLine → Bytes
  | .nil => str "null"
  | .mk elems _ => encodeArray (elems.map encodeCampaignLine)

/-- The struct encoder for a `CampaignRequest`, by its field tags. -/
def CampaignRequest.encode (r : CampaignRequest) : Bytes :=
  encodeObject
    ([(str "sender_name", appendString r.SenderName),
      (str "sms_type", appendString r.SMSType)]
      ++ (if r.ScheduledAt = [] then [] else [(str "scheduled_at", appendString r.ScheduledAt)])
      ++ [(str "campaign_name", appendString r.CampaignName),
          (str "campaign_lines", encodeCampaignLines r.CampaignLines)])

/-- Go `json.Marshal` for a `CampaignRequest`. Encoding strings and slices of structs of
strings cannot fail. -/
def marshalCampaignRequest (r : CampaignRequest) : Except Error Bytes := .ok r.encode

/-- Storing the member `key` of a JSON object into an `SMSRequest`, by its field tags. -/
def SMSRequest.setField (key : Bytes) : Store SMSRequest := fun v r =>
  match fieldIndex
    [str "sender_name", str "sms_type", str "phone", str "scheduled_at", str "text"] key with
  | some 0 => ({ r with SenderName := (storeString v r.SenderName).1 },
      (storeString v r.SenderName).2)
  | some 1 => ({ r with SMSType := (storeString v r.SMSType).1 }, (storeString v r.SMSType).2)
  | some 2 => ({ r with Phone := (storeString v r.Phone).1 }, (storeString v r.Phone).2)
  | some 3 => ({ r with ScheduledAt := (storeString v r.ScheduledAt).1 },
      (storeString v r.ScheduledAt).2)
  | some 4 => ({ r with Text := (storeString v r.Text).1 }, (storeString v r.Text).2)
  | _ => (r, false)

/-- Storing the member `key` of a JSON object into an `SMSResponse`, by its field tags. -/
def SMSResponse.setField (key : Bytes) : Store SMSResponse := fun v r =>
  match fieldIndex
    [str "type", str "text", str "phone", str "senderName", str "messageId",
      str "scheduledAt", str "sendtextSmsCount", str "statusId", str "statusDescription"]
    key with
  | some 0 => ({ r with Type_ := (storeString v r.Type_).1 }, (storeString v r.Type_).2)
  | some 1 => ({ r with Text := (storeString v r.Text).1 }, (storeString v r.Text).2)
  | some 2 => ({ r with Phone := (storeString v r.Phone).1 }, (storeString v r.Phone).2)
  | some 3 => ({ r with SenderName := (storeString v r.SenderName).1 },
      (storeString v r.SenderName).2)
  | some 4 => ({ r with MessageID := (storeString v r.MessageID).1 },
      (storeString v r.MessageID).2)
  | some 5 => ({ r with ScheduledAt := (storeString v r.ScheduledAt).1 },
      (storeString v r.ScheduledAt).2)
  | some 6 => ({ r with SendtextSmsCount := (storeInt v r.SendtextSmsCount).1 },
      (storeInt v r.SendtextSmsCount).2)
  | some 7 => ({ r with StatusID := (storeInt v r.StatusID).1 }, (storeInt v r.StatusID).2)
  | some 8 => ({ r with StatusDescription := (storeString v r.StatusDescription).1 },
      (storeString v r.StatusDescription).2)
  | _ => (r, false)

/-- Storing the member `key` of a JSON object into an element of
`CampaignResponse.CampaignLines`, by its field tags. -/
def CampaignResultLine.setField (key : Bytes) : Store CampaignResultLine := fun v r =>
  match fieldIndex
    [str "text", str "phone", str "messageId", str "sendtextSmsCount", str "statusId",
      str "statusDescription"] key with
  | some 0 => ({ r with Text := (storeString v r.Text).1 }, (storeString v r.Text).2)
  | some 1 => ({ r with Phone := (storeString v r.Phone).1 }, (storeString v r.Phone).2)
  | some 2 => ({ r with MessageID := (storeString v r.MessageID).1 },
      (storeString v r.MessageID).2)
  | some 3 => ({ r with SendtextSmsCount := (storeInt v r.SendtextSmsCount).1 },
      (storeInt v r.SendtextSmsCount).2)
  | some 4 => ({ r with StatusId := (storeInt v r.StatusId).1 }, (storeInt v r.StatusId).2)
  | some 5 => ({ r with StatusDescription := (storeString v r.StatusDescription).1 },
      (storeString v r.StatusDescription).2)
  | _ => (r, false)

/-- Storing the member `key` of a JSON object into a `CampaignResponse`, by its field
tags. -/
def CampaignResponse.setField (key : Bytes) : Store CampaignResponse := fun v r =>
  match fieldIndex
    [str "type", str "senderName", str "scheduledAt", str "campaignId", str "campaignLines"]
    key with
  | some 0 => ({ r with Type_ := (storeString v r.Type_).1 }, (storeString v r.Type_).2)
  | some 1 => ({ r with SenderName := (storeString v r.SenderName).1 },
      (storeString v r.SenderName).2)
  | some 2 => ({ r with ScheduledAt := (storeString v r.ScheduledAt).1 },
      (storeString v r.ScheduledAt).2)
  | some 3 => ({ r with CampaignId := (storeInt v r.CampaignId).1 },
      (storeInt v r.CampaignId).2)
  | some 4 =>
    ({ r with CampaignLines :=
        (storeSlice (storeStruct CampaignResultLine.setField) ⟨[], [], [], 0, 0, []⟩ v
          r.CampaignLines).1 },
      (storeSlice (storeStruct CampaignResultLine.setField) ⟨[], [], [], 0, 0, []⟩ v
        r.CampaignLines).2)
  | _ => (r, false)

/-- Storing the member `key` of a JSON object into a `BalanceResponse`, by its field
tags. -/
def BalanceResponse.setField (key : Bytes) : Store BalanceResponse := fun v r =>
  match fieldIndex [str "balance", str "expires_at", str "updated_at"] key with
  | some 0 => ({ r with Balance := (storeInt v r.Balance).1 }, (storeInt v r.Balance).2)
  | some 1 => ({ r with ExpiresAt := (storeString v r.ExpiresAt).1 },
      (storeString v r.ExpiresAt).2)
  | some 2 => ({ r with UpdatedAt := (storeString v r.UpdatedAt).1 },
      (storeString v r.UpdatedAt).2)
  | _ => (r, false)

/-- Storing the member `key` of a JSON object into a `HistoryItem`, by its field tags. -/
def HistoryItem.setField (key : Bytes) : Store HistoryItem := fun v r =>
  match fieldIndex
    [str "type", str "sendername", str "messageId", str "sendtextSmsCount", str "phone",
      str "createdAt", str "scheduledAt", str "text", str "statusId", str "statusDescription"]
    key with
  | some 0 => ({ r with Type_ := (storeString v r.Type_).1 }, (storeString v r.Type_).2)
  | some 1 => ({ r with SenderName := (storeString v r.SenderName).1 },
      (storeString v r.SenderName).2)
  | some 2 => ({ r with MessageID := (storeString v r.MessageID).1 },
      (storeString v r.MessageID).2)
  | some 3 => ({ r with SendtextSmsCount := (storeInt v r.SendtextSmsCount).1 },
      (storeInt v r.SendtextSmsCount).2)
  | some 4 => ({ r with Phone := (storeString v r.Phone).1 }, (storeString v r.Phone).2)
  | some 5 => ({ r with CreatedAt := (storeString v r.CreatedAt).1 },
      (storeString v r.CreatedAt).2)
  | some 6 => ({ r with ScheduledAt := (storeString v r.ScheduledAt).1 },
      (storeString v r.ScheduledAt).2)
  | some 7 => ({ r with Text := (storeString v r.Text).1 }, (storeString v r.Text).2)
  | some 8 => ({ r with StatusId := (storeInt v r.StatusId).1 }, (storeInt v r.StatusId).2)
  | some 9 => ({ r with StatusDescription := (storeString v r.StatusDescription).1 },
      (storeString v r.StatusDescription).2)
  | _ => (r, false)

/-- Function `NewClient`: a new client with the provided API key and secret. The third field
of the source is a fresh `&http.Client{}`; its behaviour towards the network is the
argument `net`. -/
def NewClient (net : HTTPClient) (apiKey apiSecret : Bytes) : Client :=
  { APIKey := apiKey, APISecret := apiSecret, httpClient := net }

/-- The three `request.Header.Set` calls that every method makes. -/
def setHeaders (c : Client) (request : Request) : Request :=
  { request with
    Header :=
      Header.Set
        (Header.Set (Header.Set request.Header (str "Content-Type") (str "application/json"))
          (str "SNT-API-KEY") c.APIKey)
        (str "SNT-API-SECRET") c.APISecret }

/-- Method `Client.SendSMS`: the two results of the Go method (`none` for `nil`), and the
requests made so far, to which `sent` is the input. -/
def SendSMS (c : Client) (req : SMSRequest) (sent : List Request) :
    (Option SMSResponse × Option Error) × List Request :=
  match marshalSMSRequest req with
  | .error err => ((none, some err), sent)
  | .ok reqBody =>
    match NewRequest (str "POST") (baseURL ++ str "/sms") (some reqBody) with
    | .error err => ((none, some err), sent)
    | .ok request =>
      match c.httpClient.Do (setHeaders c request) sent with
      | (.error err, sent1) => ((none, some err), sent1)
      | (.ok resp, sent1) =>
        match decode (storeStruct SMSResponse.setField) resp.Body
            ⟨[], [], [], [], [], [], 0, 0, []⟩ with
        | (_, some err) => ((none, some err), sent1)
        | (smsResp, none) => ((some smsResp, none), sent1)

/-- Method `Client.SendCampaign`. -/
def SendCampaign (c : Client) (req : CampaignRequest) (sent : List Request) :
    (Option CampaignResponse × Option Error) × List Request :=
  match marshalCampaignRequest req with
  | .error err => ((none, some err), sent)
  | .ok reqBody =>
    match NewRequest (str "POST") (baseURL ++ str "/bulk_sms") (some reqBody) with
    | .error err => ((none, some err), sent)
    | .ok request =>
      match c.httpClient.Do (setHeaders c request) sent with
      | (.error err, sent1) => ((none, some err), sent1)
      | (.ok resp, sent1) =>
        match decode (storeStruct CampaignResponse.setField) resp.Body
            ⟨[], [], [], 0, .nil⟩ with
        | (_, some err) => ((none, some err), sent1)
        | (campaignResp, none) => ((some campaignResp, none), sent1)

/-- Method `Client.CheckBalance`. -/
def CheckBalance (c : Client) (sent : List Request) :
    (Option BalanceResponse × Option Error) × List Request :=
  match NewRequest (str "GET") (baseURL ++ str "/balance") none with
  | .error err => ((none, some err), sent)
  | .ok request =>
    match c.httpClient.Do (setHeaders c request) sent with
    | (.error err, sent1) => ((none, some err), sent1)
    | (.ok resp, sent1) =>
      match decode (storeStruct BalanceResponse.setField) resp.Body ⟨0, [], []⟩ with
      | (_, some err) => ((none, some err), sent1)
      | (balanceResp, none) => ((some balanceResp, none), sent1)

/-- Method `Client.GetSMSHistory`. -/
def GetSMSHistory (c : Client) (sent : List Request) :
    (Option HistoryResponse × Option Error) × List Request :=
  match NewRequest (str "GET") (baseURL ++ str "/history") none with
  | .error err => ((none, some err), sent)
  | .ok request =>
    match c.httpClient.Do (setHeaders c request) sent with
    | (.error err, sent1) => ((none, some err), sent1)
    | (.ok resp, sent1) =>
      match decode
          (storeSlice (storeStruct HistoryItem.setField) ⟨[], [], [], 0, [], [], [], [], 0, []⟩)
          resp.Body .nil with
      | (_, some err) => ((none, some err), sent1)
      | (historyResp, none) => ((some historyResp, none), sent1)

/-! ## Auxiliary definitions for the statements -/

/-- What each of the four methods returns once its exchange is over: the error of the
exchange, or else the error of decoding the body, or else the decoded value. -/
def outcome {α : Type} (store : Store α) (zero : α) (out : Except Error Response) :
    Option α × Option Error :=
  match out with
  | .error err => (none, some err)
  | .ok resp =>
    match decode store resp.Body zero with
    | (_, some err) => (none, some err)
    | (v, none) => (some v, none)

/-- The HTTP client that answers like `net`, with every status code `n` replaced by `f n`. -/
def HTTPClient.mapStatus (net : HTTPClient) (f : Nat → Nat) : HTTPClient :=
  ⟨fun sent req =>
    match net.roundTrip sent req with
    | .error e => .error e
    | .ok resp => .ok { resp with StatusCode := f resp.StatusCode }⟩

/-- The HTTP client that answers every request with the same response. -/
def HTTPClient.always (resp : Response) : HTTPClient := ⟨fun _ _ => .ok resp⟩

/-- The HTTP client every exchange of which fails with the same error. -/
def HTTPClient.failing (e : Error) : HTTPClient := ⟨fun _ _ => .error e⟩

/-! ## UTF-8 -/

theorem decodeRune_cons_cases (b : Nat) (rest : Bytes) :
    (b < 0x80 ∧ decodeRune (b :: rest) = (b, 1)) ∨
    (0x80 ≤ b ∧ decodeRune (b :: rest) = (RuneError, 1)) ∨
    (∃ b1 t, rest = b1 :: t ∧ 0xC2 ≤ b ∧ b < 0xE0 ∧ 0x80 ≤ b1 ∧ b1 ≤ 0xBF ∧
      decodeRune (b :: rest) = (b % 32 * 64 + b1 % 64, 2)) ∨
    (∃ b1 b2 t, rest = b1 :: b2 :: t ∧ 0xE0 ≤ b ∧ b < 0xF0 ∧
      (if b = 0xE0 then 0xA0 else 0x80) ≤ b1 ∧ b1 ≤ (if b = 0xED then 0x9F else 0xBF) ∧
      0x80 ≤ b2 ∧ b2 ≤ 0xBF ∧
      decodeRune (b :: rest) = (b % 16 * 4096 + b1 % 64 * 64 + b2 % 64, 3)) ∨
    (∃ b1 b2 b3 t, rest = b1 :: b2 :: b3 :: t ∧ 0xF0 ≤ b ∧ b < 0xF5 ∧
      (if b = 0xF0 then 0x90 else 0x80) ≤ b1 ∧ b1 ≤ (if b = 0xF4 then 0x8F else 0xBF) ∧
      0x80 ≤ b2 ∧ b2 ≤ 0xBF ∧ 0x80 ≤ b3 ∧ b3 ≤ 0xBF ∧
      decodeRune (b :: rest)
        = (b % 8 * 262144 + b1 % 64 * 4096 + b2 % 64 * 64 + b3 % 64, 4)) := by
  unfold decodeRune
  by_cases h1 : b < 0x80
  · left; simp [h1]
  right
  by_cases h2 : b < 0xC2
  · left; simp [h1, h2]; omega
  by_cases h3 : b < 0xE0
  · cases rest with
    | nil => left; simp [h1, h2, h3]; omega
    | cons b1 t =>
      by_cases hc : 0x80 ≤ b1 ∧ b1 ≤ 0xBF
      · right; left
        exact ⟨b1, t, rfl, by omega, h3, hc.1, hc.2, by simp [h1, h2, h3, hc]⟩
      · left; simp [h1, h2, h3, hc]; omega
  by_cases h4 : b < 0xF0
  · rcases rest with _ | ⟨b1, _ | ⟨b2, t⟩⟩
    · left; simp [h1, h2, h3, h4]; omega
    · left; simp [h1, h2, h3, h4]; omega
    · by_cases hc : (if b = 0xE0 then 0xA0 else 0x80) ≤ b1 ∧
          b1 ≤ (if b = 0xED then 0x9F else 0xBF) ∧ 0x80 ≤ b2 ∧ b2 ≤ 0xBF
      · right; right; left
        exact ⟨b1, b2, t, rfl, by omega, h4, hc.1, hc.2.1, hc.2.2.1, hc.2.2.2,
          by simp only [h1, h2, h3, h4, hc, if_true, if_false, and_self]⟩
      · left; simp only [h1, h2, h3, h4, hc, if_false]; exact ⟨by omega, by simp⟩
  by_cases h5 : b < 0xF5
  · rcases rest with _ | ⟨b1, _ | ⟨b2, _ | ⟨b3, t⟩⟩⟩
    · left; simp [h1, h2, h3, h4, h5]; omega
    · left; simp [h1, h2, h3, h4, h5]; omega
    · left; simp [h1, h2, h3, h4, h5]; omega
    · by_cases hc : (if b = 0xF0 then 0x90 else 0x80) ≤ b1 ∧
          b1 ≤ (if b = 0xF4 then 0x8F else 0xBF) ∧ 0x80 ≤ b2 ∧ b2 ≤ 0xBF ∧
          0x80 ≤ b3 ∧ b3 ≤ 0xBF
      · right; right; right
        exact ⟨b1, b2, b3, t, rfl, by omega, h5, hc.1, hc.2.1, hc.2.2.1, hc.2.2.2.1,
          hc.2.2.2.2.1, hc.2.2.2.2.2,
          by simp only [h1, h2, h3, h4, h5, hc, if_true, if_false, and_self]⟩
      · left; simp only [h1, h2, h3, h4, h5, hc, if_false]; exact ⟨by omega, by simp⟩
  · left; simp [h1, h2, h3, h4, h5]; omega

theorem encodeRune_two (b b1 : Nat) (h1 : 0xC2 ≤ b) (h2 : b < 0xE0) (h3 : 0x80 ≤ b1)
    (h4 : b1 ≤ 0xBF) : encodeRune (b % 32 * 64 + b1 % 64) = [b, b1] := by
  have e1 : ¬ (b % 32 * 64 + b1 % 64 ≤ 0x7F) := by omega
  have e2 : b % 32 * 64 + b1 % 64 ≤ 0x7FF := by omega
  have e3 : 0xC0 + (b % 32 * 64 + b1 % 64) / 64 = b := by omega
  have e4 : 0x80 + (b % 32 * 64 + b1 % 64) % 64 = b1 := by omega
  simp only [encodeRune, e1, e2, e3, e4, if_true, if_false]

theorem encodeRune_three (b b1 b2 : Nat) (h1 : 0xE0 ≤ b) (h2 : b < 0xF0)
    (h3 : (if b = 0xE0 then 0xA0 else 0x80) ≤ b1)
    (h4 : b1 ≤ (if b = 0xED then 0x9F else 0xBF)) (h5 : 0x80 ≤ b2) (h6 : b2 ≤ 0xBF) :
    encodeRune (b % 16 * 4096 + b1 % 64 * 64 + b2 % 64) = [b, b1, b2] := by
  have h3a : 0x80 ≤ b1 := by split_ifs at h3 <;> omega
  have h4a : b1 ≤ 0xBF := by split_ifs at h4 <;> omega
  have h3b : b = 0xE0 → 0xA0 ≤ b1 := by intro hb; simpa [hb] using h3
  have h4b : b = 0xED → b1 ≤ 0x9F := by intro hb; simpa [hb] using h4
  have e1 : ¬ (b % 16 * 4096 + b1 % 64 * 64 + b2 % 64 ≤ 0x7F) := by omega
  have e2 : ¬ (b % 16 * 4096 + b1 % 64 * 64 + b2 % 64 ≤ 0x7FF) := by omega
  have e3 : ¬ (0x10FFFF < b % 16 * 4096 + b1 % 64 * 64 + b2 % 64 ∨
      (0xD800 ≤ b % 16 * 4096 + b1 % 64 * 64 + b2 % 64 ∧
        b % 16 * 4096 + b1 % 64 * 64 + b2 % 64 ≤ 0xDFFF)) := by omega
  have e4 : b % 16 * 4096 + b1 % 64 * 64 + b2 % 64 ≤ 0xFFFF := by omega
  have e5 : 0xE0 + (b % 16 * 4096 + b1 % 64 * 64 + b2 % 64) / 4096 = b := by omega
  have e6 : 0x80 + (b % 16 * 4096 + b1 % 64 * 64 + b2 % 64) / 64 % 64 = b1 := by omega
  have e7 : 0x80 + (b % 16 * 4096 + b1 % 64 * 64 + b2 % 64) % 64 = b2 := by omega
  simp only [encodeRune, e1, e2, e3, e4, e5, e6, e7, if_true, if_false]

theorem encodeRune_four (b b1 b2 b3 : Nat) (h1 : 0xF0 ≤ b) (h2 : b < 0xF5)
    (h3 : (if b = 0xF0 then 0x90 else 0x80) ≤ b1)
    (h4 : b1 ≤ (if b = 0xF4 then 0x8F else 0xBF)) (h5 : 0x80 ≤ b2) (h6 : b2 ≤ 0xBF)
    (h7 : 0x80 ≤ b3) (h8 : b3 ≤ 0xBF) :
    encodeRune (b % 8 * 262144 + b1 % 64 * 4096 + b2 % 64 * 64 + b3 % 64)
      = [b, b1, b2, b3] := by
  have h3a : 0x80 ≤ b1 := by split_ifs at h3 <;> omega
  have h4a : b1 ≤ 0xBF := by split_ifs at h4 <;> omega
  have h3b : b = 0xF0 → 0x90 ≤ b1 := by intro hb; simpa [hb] using h3
  have h4b : b = 0xF4 → b1 ≤ 0x8F := by intro hb; simpa [hb] using h4
  have e1 : ¬ (b % 8 * 262144 + b1 % 64 * 4096 + b2 % 64 * 64 + b3 % 64 ≤ 0x7F) := by omega
  have e2 : ¬ (b % 8 * 262144 + b1 % 64 * 4096 + b2 % 64 * 64 + b3 % 64 ≤ 0x7FF) := by omega
  have e3 : ¬ (0x10FFFF < b % 8 * 262144 + b1 % 64 * 4096 + b2 % 64 * 64 + b3 % 64 ∨
      (0xD800 ≤ b % 8 * 262144 + b1 % 64 * 4096 + b2 % 64 * 64 + b3 % 64 ∧
        b % 8 * 262144 + b1 % 64 * 4096 + b2 % 64 * 64 + b3 % 64 ≤ 0xDFFF)) := by omega
  have e4 : ¬ (b % 8 * 262144 + b1 % 64 * 4096 + b2 % 64 * 64 + b3 % 64 ≤ 0xFFFF) := by
    omega
  have e5 : 0xF0 + (b % 8 * 262144 + b1 % 64 * 4096 + b2 % 64 * 64 + b3 % 64) / 262144 = b :=
    by omega
  have e6 : 0x80 + (b % 8 * 262144 + b1 % 64 * 4096 + b2 % 64 * 64 + b3 % 64) / 4096 % 64
      = b1 := by omega
  have e7 : 0x80 + (b % 8 * 262144 + b1 % 64 * 4096 + b2 % 64 * 64 + b3 % 64) / 64 % 64
      = b2 := by omega
  have e8 : 0x80 + (b % 8 * 262144 + b1 % 64 * 4096 + b2 % 64 * 64 + b3 % 64) % 64 = b3 := by
    omega
  simp only [encodeRune, e1, e2, e3, e4, e5, e6, e7, e8, if_true, if_false]

/-- A byte of 0x80 or more starts either a malformed sequence or a well-formed one of two to
four bytes, which `decodeRune` reads whatever follows it and `encodeRune` writes back. -/
theorem rune_cases (b : Nat) (rest : Bytes) (hb : 0x80 ≤ b) :
    decodeRune (b :: rest) = (RuneError, 1) ∨
    ∃ chunk t, rest = chunk ++ t ∧ 1 ≤ chunk.length ∧
      (decodeRune (b :: rest)).2 = chunk.length + 1 ∧
      (∀ X, decodeRune (b :: (chunk ++ X)) = decodeRune (b :: rest)) ∧
      encodeRune (decodeRune (b :: rest)).1 = b :: chunk ∧
      (∀ c ∈ chunk, 0x80 ≤ c) := by
  rcases decodeRune_cons_cases b rest with h | h | h | h | h
  · omega
  · exact Or.inl h.2
  · obtain ⟨b1, t, hr, h1, h2, h3, h4, hd⟩ := h
    refine Or.inr ⟨[b1], t, by simp [hr], by simp, by simp [hd], ?_, ?_, ?_⟩
    · intro X
      rcases decodeRune_cons_cases b ([b1] ++ X) with g | g | g | g | g
      · omega
      · have : ¬ (b < 0x80) := by omega
        have : ¬ (b < 0xC2) := by omega
        simp [decodeRune, *] at g
      · obtain ⟨c1, u, hu, -, -, -, -, gd⟩ := g
        simp at hu
        rw [gd, hd, hu.1]
      · omega
      · omega
    · rw [hd]; exact encodeRune_two b b1 h1 h2 h3 h4
    · intro c hc; simp at hc; omega
  · obtain ⟨b1, b2, t, hr, h1, h2, h3, h4, h5, h6, hd⟩ := h
    refine Or.inr ⟨[b1, b2], t, by simp [hr], by simp, by simp [hd], ?_, ?_, ?_⟩
    · intro X
      rcases decodeRune_cons_cases b ([b1, b2] ++ X) with g | g | g | g | g
      · omega
      · have e1 : ¬ (b < 0x80) := by omega
        have e2 : ¬ (b < 0xC2) := by omega
        have e3 : ¬ (b < 0xE0) := by omega
        simp [decodeRune, e1, e2, e3, h2, h3, h4, h5, h6] at g
      · omega
      · obtain ⟨c1, c2, u, hu, -, -, -, -, -, -, gd⟩ := g
        simp at hu
        rw [gd, hd, hu.1, hu.2.1]
      · omega
    · rw [hd]; exact encodeRune_three b b1 b2 h1 h2 h3 h4 h5 h6
    · intro c hc
      have h3a : 0x80 ≤ b1 := by split_ifs at h3 <;> omega
      simp at hc; omega
  · obtain ⟨b1, b2, b3, t, hr, h1, h2, h3, h4, h5, h6, h7, h8, hd⟩ := h
    refine Or.inr ⟨[b1, b2, b3], t, by simp [hr], by simp, by simp [hd], ?_, ?_, ?_⟩
    · intro X
      rcases decodeRune_cons_cases b ([b1, b2, b3] ++ X) with g | g | g | g | g
      · omega
      · have e1 : ¬ (b < 0x80) := by omega
        have e2 : ¬ (b < 0xC2) := by omega
        have e3 : ¬ (b < 0xE0) := by omega
        have e4 : ¬ (b < 0xF0) := by omega
        simp [decodeRune, e1, e2, e3, e4, h2, h3, h4, h5, h6, h7, h8] at g
      · omega
      · omega
      · obtain ⟨c1, c2, c3, u, hu, -, -, -, -, -, -, -, -, gd⟩ := g
        simp at hu
        rw [gd, hd, hu.1, hu.2.1, hu.2.2.1]
    · rw [hd]; exact encodeRune_four b b1 b2 b3 h1 h2 h3 h4 h5 h6 h7 h8
    · intro c hc
      have h3a : 0x80 ≤ b1 := by split_ifs at h3 <;> omega
      simp at hc; omega

theorem decodeRune_ascii (b : Nat) (rest : Bytes) (hb : b < 0x80) :
    decodeRune (b :: rest) = (b, 1) := by
  simp [decodeRune, hb]

/-! ### Steps over bytes already handled -/

theorem unquoteFrom_skip (p X : Bytes) : unquoteFrom p.length (p ++ X) = unquoteFrom 0 X := by
  induction p with
  | nil => rfl
  | cons c p ih => simpa [unquoteFrom] using ih

theorem validFrom_skip (p X : Bytes) : validFrom p.length (p ++ X) = validFrom 0 X := by
  induction p with
  | nil => rfl
  | cons c p ih => simpa [validFrom] using ih

/-! ### One step of `unquoteFrom` and of `scanString` over what `appendStringFrom` writes -/

theorem hexVal_hexDigit (n : Nat) (h : n < 16) : hexVal (hexDigit n) = some n := by
  interval_cases n <;> rfl

theorem isHex_hexDigit (n : Nat) (h : n < 16) : isHex (hexDigit n) = true := by
  interval_cases n <;> rfl

theorem htmlSafe_iff (b : Nat) :
    htmlSafe b = true ↔ 0x20 ≤ b ∧ b < 0x80 ∧ b ≠ 34 ∧ b ≠ 92 ∧ b ≠ 60 ∧ b ≠ 62 ∧ b ≠ 38 := by
  simp [htmlSafe, and_assoc]

theorem unquoteFrom_plain (c : Nat) (X : Bytes) (h1 : 0x20 ≤ c) (h2 : c < 0x80) (h3 : c ≠ 34)
    (h4 : c ≠ 92) : unquoteFrom 0 (c :: X) = (unquoteFrom 0 X).map (c :: ·) := by
  have e1 : ¬ (c = 34 ∨ c < 0x20) := by omega
  simp only [unquoteFrom, h4, e1, h2, if_true, if_false]

theorem unquoteFrom_u4 (a b c d n : Nat) (X : Bytes)
    (hn : getu4 (92 :: 117 :: a :: b :: c :: d :: X) = some n)
    (hs : ¬ (0xD800 ≤ n ∧ n < 0xE000)) :
    unquoteFrom 0 (92 :: 117 :: a :: b :: c :: d :: X)
      = (unquoteFrom 0 X).map (encodeRune n ++ ·) := by
  rw [unquoteFrom]
  simp only [if_true]
  simp only [hn, hs, if_false]
  simp [unquoteFrom]

theorem getu4_00 (b : Nat) (X : Bytes) (hb : b < 0x80) :
    getu4 (92 :: 117 :: 48 :: 48 :: hexDigit (b / 16) :: hexDigit (b % 16) :: X) = some b := by
  have h1 := hexVal_hexDigit (b / 16) (by omega)
  have h2 := hexVal_hexDigit (b % 16) (by omega)
  have h0 : hexVal 48 = some 0 := rfl
  simp only [getu4, h0, h1, h2]
  congr 1
  omega

theorem unquoteFrom_escapeByte (b : Nat) (X : Bytes) (hb : b < 0x80) (hs : htmlSafe b = false) :
    unquoteFrom 0 (escapeByte b ++ X) = (unquoteFrom 0 X).map (b :: ·) := by
  unfold escapeByte
  by_cases h1 : b = 92 ∨ b = 34
  · rcases h1 with h | h <;> subst h <;> simp [unquoteFrom]
  by_cases h2 : b = 8
  · subst h2; simp [unquoteFrom]
  by_cases h3 : b = 12
  · subst h3; simp [unquoteFrom]
  by_cases h4 : b = 10
  · subst h4; simp [unquoteFrom]
  by_cases h5 : b = 13
  · subst h5; simp [unquoteFrom]
  by_cases h6 : b = 9
  · subst h6; simp [unquoteFrom]
  simp only [h1, h2, h3, h4, h5, h6, if_false]
  have := unquoteFrom_u4 48 48 (hexDigit (b / 16)) (hexDigit (b % 16)) b X (getu4_00 b X hb)
    (by omega)
  have e : encodeRune b = [b] := by simp [encodeRune]; omega
  simpa [e] using this

theorem unquoteFrom_fffd (X : Bytes) :
    unquoteFrom 0 ([92, 117, 102, 102, 102, 100] ++ X)
      = (unquoteFrom 0 X).map ([0xEF, 0xBF, 0xBD] ++ ·) := by
  have := unquoteFrom_u4 102 102 102 100 0xFFFD X rfl (by decide)
  simpa [encodeRune] using this

theorem unquoteFrom_202x (r : Nat) (X : Bytes) (hr : r = 0x2028 ∨ r = 0x2029) :
    unquoteFrom 0 ([92, 117, 50, 48, 50, hexDigit (r % 16)] ++ X)
      = (unquoteFrom 0 X).map (encodeRune r ++ ·) := by
  rcases hr with h | h <;> subst h
  · exact unquoteFrom_u4 50 48 50 _ 0x2028 X rfl (by decide)
  · exact unquoteFrom_u4 50 48 50 _ 0x2029 X rfl (by decide)

theorem unquoteFrom_rune (b : Nat) (chunk X : Bytes) (r : Nat) (hb : 0x80 ≤ b)
    (hd : decodeRune (b :: (chunk ++ X)) = (r, chunk.length + 1)) :
    unquoteFrom 0 (b :: (chunk ++ X)) = (unquoteFrom 0 X).map (encodeRune r ++ ·) := by
  have e1 : ¬ (b = 92) := by omega
  have e2 : ¬ (b = 34 ∨ b < 0x20) := by omega
  have e3 : ¬ (b < 0x80) := by omega
  simp only [unquoteFrom, e1, e2, e3, if_false, hd, Nat.add_sub_cancel, unquoteFrom_skip]

/-- The unquoting of what `appendString` writes between the quotes is the string coerced to
well-formed UTF-8. -/
theorem unquoteFrom_appendStringFrom (s : Bytes) :
    ∀ k, unquoteFrom 0 (appendStringFrom k s) = some (toValidFrom k s) := by
  induction s with
  | nil => intro k; cases k <;> rfl
  | cons b rest ih =>
    intro k
    cases k with
    | succ k => simpa [appendStringFrom, toValidFrom] using ih k
    | zero =>
      by_cases hb : b < 0x80
      · have hd := decodeRune_ascii b rest hb
        have hne : ¬ (b = RuneError) := by simp [RuneError]; omega
        simp only [appendStringFrom, toValidFrom, hb, hd, if_true, hne, false_and, if_false,
          List.take_succ_cons, List.take_zero, Nat.sub_self]
        by_cases hs : htmlSafe b = true
        · have hs2 := (htmlSafe_iff b).1 hs
          simp only [hs, if_true, List.singleton_append]
          rw [unquoteFrom_plain b _ hs2.1 hb hs2.2.2.1 hs2.2.2.2.1, ih 0]
          rfl
        · have hs3 : htmlSafe b = false := by simpa using hs
          simp only [hs3, Bool.false_eq_true, if_false]
          rw [unquoteFrom_escapeByte b _ hb hs3, ih 0]
          rfl
      · have hb2 : 0x80 ≤ b := by omega
        rcases rune_cases b rest hb2 with hd | ⟨chunk, t, hrest, hlen, hsize, hX, henc, -⟩
        · simp only [appendStringFrom, toValidFrom, hb, hd, if_false, and_self, if_true]
          rw [unquoteFrom_fffd, ih 0]
          rfl
        · have hne : ¬ ((decodeRune (b :: rest)).1 = RuneError ∧ (decodeRune (b :: rest)).2 = 1)
              := by omega
          have htake : (b :: rest).take (chunk.length + 1) = b :: chunk := by
            simp [hrest]
          simp only [appendStringFrom, toValidFrom, hb, hne, if_false]
          simp only [hsize, Nat.add_sub_cancel, htake]
          by_cases h2 : (decodeRune (b :: rest)).1 = 0x2028 ∨ (decodeRune (b :: rest)).1 = 0x2029
          · simp only [h2, if_true]
            rw [unquoteFrom_202x _ _ h2, ih chunk.length, henc]
            rfl
          · simp only [h2, if_false]
            have hd : decodeRune (b :: (chunk ++ appendStringFrom chunk.length rest))
                = ((decodeRune (b :: rest)).1, chunk.length + 1) := by
              rw [hX, ← hsize]
            have := unquoteFrom_rune b chunk (appendStringFrom chunk.length rest) _ hb2 hd
            rw [List.cons_append, this, ih chunk.length, henc]
            rfl

theorem scanString_plain (p Y raw X : Bytes) (hp : ∀ c ∈ p, 0x20 ≤ c ∧ c ≠ 34 ∧ c ≠ 92)
    (h : scanString .inString Y = .ok (raw, X)) :
    scanString .inString (p ++ Y) = .ok (p ++ raw, X) := by
  induction p with
  | nil => simpa using h
  | cons c p ih =>
    have hc := hp c (by simp)
    have e1 : ¬ (c < 0x20) := by omega
    have := ih (fun d hd => hp d (by simp [hd]))
    simp [scanString, hc.2.1, hc.2.2, e1, this, Scan.cons]

theorem scanString_u4 (a b c d : Nat) (Y raw X : Bytes) (ha : isHex a = true)
    (hb : isHex b = true) (hc : isHex c = true) (hd : isHex d = true)
    (h : scanString .inString Y = .ok (raw, X)) :
    scanString .inString ([92, 117, a, b, c, d] ++ Y) = .ok ([92, 117, a, b, c, d] ++ raw, X)
    := by
  simp [scanString, ha, hb, hc, hd, h, Scan.cons]

theorem scanString_escapeByte (b : Nat) (Y raw X : Bytes) (hb : b < 0x80)
    (h : scanString .inString Y = .ok (raw, X)) :
    scanString .inString (escapeByte b ++ Y) = .ok (escapeByte b ++ raw, X) := by
  unfold escapeByte
  by_cases h1 : b = 92 ∨ b = 34
  · rcases h1 with h1 | h1 <;> subst h1 <;> simp [scanString, h, Scan.cons]
  by_cases h2 : b = 8
  · subst h2; simp [scanString, h, Scan.cons]
  by_cases h3 : b = 12
  · subst h3; simp [scanString, h, Scan.cons]
  by_cases h4 : b = 10
  · subst h4; simp [scanString, h, Scan.cons]
  by_cases h5 : b = 13
  · subst h5; simp [scanString, h, Scan.cons]
  by_cases h6 : b = 9
  · subst h6; simp [scanString, h, Scan.cons]
  simp only [h1, h2, h3, h4, h5, h6, if_false]
  exact scanString_u4 48 48 _ _ Y raw X rfl rfl (isHex_hexDigit _ (by omega))
    (isHex_hexDigit _ (by omega)) h

/-- The scanner reads what `appendString` writes between the quotes up to the closing
quote. -/
theorem scanString_appendStringFrom (s X : Bytes) :
    ∀ k, scanString .inString (appendStringFrom k s ++ 34 :: X)
      = .ok (appendStringFrom k s, X) := by
  induction s with
  | nil => intro k; cases k <;> simp [appendStringFrom, scanString]
  | cons b rest ih =>
    intro k
    cases k with
    | succ k => simpa [appendStringFrom] using ih k
    | zero =>
      by_cases hb : b < 0x80
      · simp only [appendStringFrom, hb, if_true, List.append_assoc]
        by_cases hs : htmlSafe b = true
        · have hs2 := (htmlSafe_iff b).1 hs
          simp only [hs, if_true]
          exact scanString_plain [b] _ _ _ (by intro c hc; simp at hc; subst hc; omega) (ih 0)
        · have hs3 : htmlSafe b = false := by simpa using hs
          simp only [hs3, Bool.false_eq_true, if_false]
          exact scanString_escapeByte b _ _ _ hb (ih 0)
      · have hb2 : 0x80 ≤ b := by omega
        rcases rune_cases b rest hb2 with hd | ⟨chunk, t, hrest, hlen, hsize, hX, henc, hhi⟩
        · simp only [appendStringFrom, hb, hd, if_false, and_self, if_true, List.append_assoc]
          exact scanString_u4 102 102 102 100 _ _ _ rfl rfl rfl rfl (ih 0)
        · have hne : ¬ ((decodeRune (b :: rest)).1 = RuneError ∧ (decodeRune (b :: rest)).2 = 1)
              := by omega
          have htake : (b :: rest).take (chunk.length + 1) = b :: chunk := by
            simp [hrest]
          simp only [appendStringFrom, hb, hne, if_false]
          simp only [hsize, Nat.add_sub_cancel, htake]
          by_cases h2 : (decodeRune (b :: rest)).1 = 0x2028 ∨ (decodeRune (b :: rest)).1 = 0x2029
          · simp only [h2, if_true, List.append_assoc]
            exact scanString_u4 50 48 50 _ _ _ _ rfl rfl rfl
              (isHex_hexDigit _ (by omega)) (ih chunk.length)
          · simp only [h2, if_false, List.append_assoc]
            refine scanString_plain (b :: chunk) _ _ _ ?_ (ih chunk.length)
            intro c hc
            rcases List.mem_cons.1 hc with hc | hc
            · omega
            · have := hhi c hc; omega

/-- Coercion to well-formed UTF-8 leaves well-formed UTF-8 as it is. -/
theorem toValidFrom_of_valid (s : Bytes) :
    ∀ k, validFrom k s = true → toValidFrom k s = s.drop k := by
  induction s with
  | nil => intro k _; cases k <;> rfl
  | cons b rest ih =>
    intro k hv
    cases k with
    | succ k => simpa [toValidFrom] using ih k (by simpa [validFrom] using hv)
    | zero =>
      by_cases hne : (decodeRune (b :: rest)).1 = RuneError ∧ (decodeRune (b :: rest)).2 = 1
      · simp [validFrom, hne] at hv
      · simp only [validFrom, hne, if_false] at hv
        simp only [toValidFrom, hne, if_false, List.drop_zero]
        rw [ih _ hv]
        have h1 : 1 ≤ (decodeRune (b :: rest)).2 := by
          rcases decodeRune_cons_cases b rest with g | g | g | g | g
          · rw [g.2]
          · rw [g.2]
          · obtain ⟨_, _, _, _, _, _, _, g⟩ := g; rw [g]; simp
          · obtain ⟨_, _, _, _, _, _, _, _, _, _, g⟩ := g; rw [g]; simp
          · obtain ⟨_, _, _, _, _, _, _, _, _, _, _, _, _, g⟩ := g; rw [g]; simp
        obtain ⟨n, hn⟩ : ∃ n, (decodeRune (b :: rest)).2 = n + 1 := ⟨_, (Nat.sub_add_cancel h1).symm⟩
        rw [hn]
        simp

theorem toValidUTF8_of_valid (s : Bytes) (h : utf8Valid s = true) : toValidUTF8 s = s := by
  simpa [toValidUTF8] using toValidFrom_of_valid s 0 h

/-- A JSON string value written by `appendString` is read back by the scanner, coerced to
well-formed UTF-8, at any nesting depth and whatever follows it. -/
theorem parseValue_appendString (d : Nat) (s rest : Bytes) :
    parseValue d (appendString s ++ rest) = .ok (.string (toValidUTF8 s), rest) := by
  have h1 : appendString s ++ rest = 34 :: (appendStringFrom 0 s ++ 34 :: rest) := by
    simp [appendString]
  have h2 := scanString_appendStringFrom s rest 0
  have h3 := unquoteFrom_appendStringFrom s 0
  cases d <;>
    simp [parseValue, h1, skipSpace, isSpace, parseScalar, h2, unquote, h3, toValidUTF8]

/-! ### Objects and arrays -/

theorem unquoteFrom_plainKey (k : Bytes) (hk : ∀ c ∈ k, 0x20 ≤ c ∧ c < 0x80 ∧ c ≠ 34 ∧ c ≠ 92) :
    unquoteFrom 0 k = some k := by
  induction k with
  | nil => rfl
  | cons c k ih =>
    have hc := hk c (by simp)
    rw [unquoteFrom_plain c k hc.1 hc.2.1 hc.2.2.1 hc.2.2.2, ih (fun d hd => hk d (by simp [hd]))]
    rfl

theorem scanString_plainKey (k Y : Bytes) (hk : ∀ c ∈ k, 0x20 ≤ c ∧ c < 0x80 ∧ c ≠ 34 ∧ c ≠ 92) :
    scanString .inString (k ++ 34 :: Y) = .ok (k, Y) := by
  have := scanString_plain k (34 :: Y) [] Y
    (fun c hc => ⟨(hk c hc).1, (hk c hc).2.2.1, (hk c hc).2.2.2⟩) (by simp [scanString])
  simpa using this

/-- The last member `"key":value` of an object: the steps of `parseMembers`. -/
theorem parseMembers_last (pv : Bytes → Scan JVal) (fuel : Nat) (k v : Bytes) (j : JVal)
    (rest : Bytes) (hk : ∀ c ∈ k, 0x20 ≤ c ∧ c < 0x80 ∧ c ≠ 34 ∧ c ≠ 92)
    (hv : pv (v ++ 125 :: rest) = .ok (j, 125 :: rest)) :
    parseMembers pv (fuel + 1) (34 :: (k ++ 34 :: 58 :: (v ++ 125 :: rest)))
      = .ok ([(k, j)], rest) := by
  have hs := scanString_plainKey k (58 :: (v ++ 125 :: rest)) hk
  have hu := unquoteFrom_plainKey k hk
  simp [parseMembers, skipSpace, isSpace, hs, unquote, hu, hv]

/-- A member `"key":value` followed by a comma: the steps of `parseMembers`. -/
theorem parseMembers_more (pv : Bytes → Scan JVal) (fuel : Nat) (k v : Bytes) (j : JVal)
    (rest : Bytes) (ms : List (Bytes × JVal)) (rest5 : Bytes)
    (hk : ∀ c ∈ k, 0x20 ≤ c ∧ c < 0x80 ∧ c ≠ 34 ∧ c ≠ 92)
    (hv : pv (v ++ 44 :: rest) = .ok (j, 44 :: rest))
    (hrec : parseMembers pv fuel rest = .ok (ms, rest5)) :
    parseMembers pv (fuel + 1) (34 :: (k ++ 34 :: 58 :: (v ++ 44 :: rest)))
      = .ok ((k, j) :: ms, rest5) := by
  have hs := scanString_plainKey k (58 :: (v ++ 44 :: rest)) hk
  have hu := unquoteFrom_plainKey k hk
  simp [parseMembers, skipSpace, isSpace, hs, unquote, hu, hv, hrec]

theorem parseMembers_encodeMembers (pv : Bytes → Scan JVal) (rest : Bytes)
    (ms : List (Bytes × Bytes × JVal)) :
    (∀ m ∈ ms, ∀ c ∈ m.1, 0x20 ≤ c ∧ c < 0x80 ∧ c ≠ 34 ∧ c ≠ 92) →
    (∀ m ∈ ms, ∀ c X, c = 44 ∨ c = 125 → pv (m.2.1 ++ c :: X) = .ok (m.2.2, c :: X)) →
    ms ≠ [] → ∀ fuel, ms.length ≤ fuel →
    parseMembers pv fuel (encodeMembers (ms.map (fun m => (m.1, m.2.1))) ++ 125 :: rest)
      = .ok (ms.map (fun m => (m.1, m.2.2)), rest) := by
  induction ms with
  | nil => intro _ _ h; exact absurd rfl h
  | cons m ms ih =>
    intro hk hv _ fuel hfuel
    obtain ⟨k, v, j⟩ := m
    cases fuel with
    | zero => simp at hfuel
    | succ fuel =>
      cases ms with
      | nil =>
        have := parseMembers_last pv fuel k v j rest (hk (k, v, j) (by simp))
          (hv (k, v, j) (by simp) 125 rest (Or.inr rfl))
        simpa [encodeMembers] using this
      | cons m2 ms =>
        have hrec := ih (fun m hm => hk m (by simp [hm])) (fun m hm => hv m (by simp [hm]))
          (by simp) fuel (by simpa using hfuel)
        have := parseMembers_more pv fuel k v j _ _ _
          (hk (k, v, j) (by simp)) (hv (k, v, j) (by simp) 44 _ (Or.inl rfl)) hrec
        simpa [encodeMembers] using this

theorem length_le_encodeMembers (ms : List (Bytes × Bytes)) :
    ms.length ≤ (encodeMembers ms).length := by
  induction ms with
  | nil => simp
  | cons m ms ih =>
    obtain ⟨k, v⟩ := m
    cases ms with
    | nil => simp [encodeMembers]
    | cons m2 ms => simp [encodeMembers] at ih ⊢; omega

/-- An object written by the struct encoder is read back by the scanner as the object of its
members, when each member value is. -/
theorem parseValue_encodeObject (d : Nat) (rest : Bytes) (ms : List (Bytes × Bytes × JVal))
    (hk : ∀ m ∈ ms, ∀ c ∈ m.1, 0x20 ≤ c ∧ c < 0x80 ∧ c ≠ 34 ∧ c ≠ 92)
    (hv : ∀ m ∈ ms, ∀ c X, c = 44 ∨ c = 125 →
      parseValue d (m.2.1 ++ c :: X) = .ok (m.2.2, c :: X)) :
    parseValue (d + 1) (encodeObject (ms.map (fun m => (m.1, m.2.1))) ++ rest)
      = .ok (.object (ms.map (fun m => (m.1, m.2.2))), rest) := by
  cases ms with
  | nil => simp [encodeObject, encodeMembers, parseValue, skipSpace, isSpace, parseObject]
  | cons m ms =>
    have hlen := length_le_encodeMembers ((m :: ms).map (fun m => (m.1, m.2.1)))
    have := parseMembers_encodeMembers (parseValue d) rest (m :: ms) hk hv (by simp)
      ((encodeMembers ((m :: ms).map (fun m => (m.1, m.2.1))) ++ 125 :: rest).length)
      (by simp at hlen ⊢; omega)
    obtain ⟨k, v, j⟩ := m
    have hhead : ∃ tl, encodeMembers (((k, v, j) :: ms).map (fun m => (m.1, m.2.1)))
        = 34 :: tl := by
      cases ms <;> simp [encodeMembers]
    obtain ⟨tl, htl⟩ := hhead
    rw [htl] at this
    simp only [encodeObject, parseValue, List.append_assoc, List.singleton_append,
      List.cons_append, skipSpace, isSpace, htl, parseObject]
    simp [skipSpace, isSpace]
    simp at this
    rw [this]

theorem parseElements_last (pv : Bytes → Scan JVal) (fuel : Nat) (v : Bytes) (j : JVal)
    (rest : Bytes) (hv : pv (v ++ 93 :: rest) = .ok (j, 93 :: rest)) :
    parseElements pv (fuel + 1) (v ++ 93 :: rest) = .ok ([j], rest) := by
  simp [parseElements, skipSpace, isSpace, hv]

theorem parseElements_more (pv : Bytes → Scan JVal) (fuel : Nat) (v : Bytes) (j : JVal)
    (rest : Bytes) (js : List JVal) (rest3 : Bytes)
    (hv : pv (v ++ 44 :: rest) = .ok (j, 44 :: rest))
    (hrec : parseElements pv fuel rest = .ok (js, rest3)) :
    parseElements pv (fuel + 1) (v ++ 44 :: rest) = .ok (j :: js, rest3) := by
  simp [parseElements, skipSpace, isSpace, hv, hrec]

theorem parseElements_encodeElements (pv : Bytes → Scan JVal) (rest : Bytes)
    (es : List (Bytes × JVal)) :
    (∀ e ∈ es, ∀ c X, c = 44 ∨ c = 93 → pv (e.1 ++ c :: X) = .ok (e.2, c :: X)) →
    es ≠ [] → ∀ fuel, es.length ≤ fuel →
    parseElements pv fuel (encodeElements (es.map (fun e => e.1)) ++ 93 :: rest)
      = .ok (es.map (fun e => e.2), rest) := by
  induction es with
  | nil => intro _ h; exact absurd rfl h
  | cons e es ih =>
    intro hv _ fuel hfuel
    obtain ⟨v, j⟩ := e
    cases fuel with
    | zero => simp at hfuel
    | succ fuel =>
      cases es with
      | nil =>
        have := parseElements_last pv fuel v j rest (hv (v, j) (by simp) 93 rest (Or.inr rfl))
        simpa [encodeElements] using this
      | cons e2 es =>
        have hrec := ih (fun e he => hv e (by simp [he])) (by simp) fuel (by simpa using hfuel)
        have := parseElements_more pv fuel v j _ _ _ (hv (v, j) (by simp) 44 _ (Or.inl rfl)) hrec
        simpa [encodeElements] using this

theorem length_le_encodeElements (es : List Bytes) (hne : ∀ e ∈ es, e ≠ []) :
    es.length ≤ (encodeElements es).length := by
  induction es with
  | nil => simp
  | cons e es ih =>
    have he : 1 ≤ e.length := by
      have := hne e (by simp)
      cases e with
      | nil => exact absurd rfl this
      | cons _ _ => simp
    cases es with
    | nil => simpa [encodeElements] using he
    | cons e2 es =>
      have := ih (fun x hx => hne x (by simp [hx]))
      simp [encodeElements] at this ⊢
      omega

/-- An array written by the slice encoder is read back by the scanner as the array of its
elements, when each element is and each element starts with an opening brace. -/
theorem parseValue_encodeArray (d : Nat) (rest : Bytes) (es : List (Bytes × JVal))
    (hv : ∀ e ∈ es, ∀ c X, c = 44 ∨ c = 93 →
      parseValue d (e.1 ++ c :: X) = .ok (e.2, c :: X))
    (hb : ∀ e ∈ es, ∃ tl, e.1 = 123 :: tl) :
    parseValue (d + 1) (encodeArray (es.map (fun e => e.1)) ++ rest)
      = .ok (.array (es.map (fun e => e.2)), rest) := by
  cases es with
  | nil => simp [encodeArray, encodeElements, parseValue, skipSpace, isSpace, parseArray]
  | cons e es =>
    have hlen := length_le_encodeElements ((e :: es).map (fun e => e.1)) (by
      intro x hx
      obtain ⟨y, hy, rfl⟩ := List.mem_map.1 hx
      obtain ⟨tl, htl⟩ := hb y hy
      simp [htl])
    have := parseElements_encodeElements (parseValue d) rest (e :: es) hv (by simp)
      ((encodeElements ((e :: es).map (fun e => e.1)) ++ 93 :: rest).length)
      (by simp at hlen ⊢; omega)
    obtain ⟨tl, htl⟩ := hb e (by simp)
    have hhead : ∃ tl2, encodeElements ((e :: es).map (fun e => e.1)) = 123 :: tl2 := by
      cases es <;> simp [encodeElements, htl]
    obtain ⟨tl2, htl2⟩ := hhead
    rw [htl2] at this
    simp only [encodeArray, parseValue, List.append_assoc, List.singleton_append,
      List.cons_append, skipSpace, isSpace, htl2, parseArray]
    simp [skipSpace, isSpace]
    simp at this
    rw [this]

/-! ### The wire schema of `SMSRequest` -/

theorem plain_sender_name : ∀ c ∈ str "sender_name", 0x20 ≤ c ∧ c < 0x80 ∧ c ≠ 34 ∧ c ≠ 92 := by
  decide
theorem plain_sms_type : ∀ c ∈ str "sms_type", 0x20 ≤ c ∧ c < 0x80 ∧ c ≠ 34 ∧ c ≠ 92 := by
  decide
theorem plain_phone : ∀ c ∈ str "phone", 0x20 ≤ c ∧ c < 0x80 ∧ c ≠ 34 ∧ c ≠ 92 := by decide
theorem plain_scheduled_at : ∀ c ∈ str "scheduled_at", 0x20 ≤ c ∧ c < 0x80 ∧ c ≠ 34 ∧ c ≠ 92 := by
  decide
theorem plain_text : ∀ c ∈ str "text", 0x20 ≤ c ∧ c < 0x80 ∧ c ≠ 34 ∧ c ≠ 92 := by decide
theorem plain_campaign_name :
    ∀ c ∈ str "campaign_name", 0x20 ≤ c ∧ c < 0x80 ∧ c ≠ 34 ∧ c ≠ 92 := by decide
theorem plain_campaign_lines :
    ∀ c ∈ str "campaign_lines", 0x20 ≤ c ∧ c < 0x80 ∧ c ≠ 34 ∧ c ≠ 92 := by decide

/-- What the scanner reads from the JSON of an `SMSRequest`. -/
theorem parse_marshalSMSRequest (r : SMSRequest) (d : Nat) (rest : Bytes) :
    ∃ body, marshalSMSRequest r = .ok body ∧
      parseValue (d + 1) (body ++ rest) = .ok (.object
        ([(str "sender_name", .string (toValidUTF8 r.SenderName)),
          (str "sms_type", .string (toValidUTF8 r.SMSType)),
          (str "phone", .string (toValidUTF8 r.Phone))]
          ++ (if r.ScheduledAt = [] then []
              else [(str "scheduled_at", .string (toValidUTF8 r.ScheduledAt))])
          ++ [(str "text", .string (toValidUTF8 r.Text))]), rest) := by
  refine ⟨_, rfl, ?_⟩
  show parseValue (d + 1) (SMSRequest.encode r ++ rest) = _
  unfold SMSRequest.encode
  have key := parseValue_encodeObject d rest
    ([(str "sender_name", appendString r.SenderName, .string (toValidUTF8 r.SenderName)),
      (str "sms_type", appendString r.SMSType, .string (toValidUTF8 r.SMSType)),
      (str "phone", appendString r.Phone, .string (toValidUTF8 r.Phone))]
      ++ (if r.ScheduledAt = [] then []
          else [(str "scheduled_at", appendString r.ScheduledAt,
            JVal.string (toValidUTF8 r.ScheduledAt))])
      ++ [(str "text", appendString r.Text, .string (toValidUTF8 r.Text))])
    (by
      intro m hm
      by_cases h : r.ScheduledAt = [] <;> simp [h] at hm <;>
        rcases hm with rfl | rfl | rfl | rfl | rfl <;>
        first
        | exact plain_sender_name | exact plain_sms_type | exact plain_phone
        | exact plain_scheduled_at | exact plain_text)
    (by
      intro m hm c X _
      by_cases h : r.ScheduledAt = [] <;> simp [h] at hm <;>
        rcases hm with rfl | rfl | rfl | rfl | rfl <;>
        exact parseValue_appendString d _ _)
  by_cases h : r.ScheduledAt = [] <;> simpa [h] using key

theorem setField_sender_name (v : JVal) (r : SMSRequest) :
    SMSRequest.setField (str "sender_name") v r
      = ({ r with SenderName := (storeString v r.SenderName).1 },
          (storeString v r.SenderName).2) := rfl
theorem setField_sms_type (v : JVal) (r : SMSRequest) :
    SMSRequest.setField (str "sms_type") v r
      = ({ r with SMSType := (storeString v r.SMSType).1 }, (storeString v r.SMSType).2) := rfl
theorem setField_phone (v : JVal) (r : SMSRequest) :
    SMSRequest.setField (str "phone") v r
      = ({ r with Phone := (storeString v r.Phone).1 }, (storeString v r.Phone).2) := rfl
theorem setField_scheduled_at (v : JVal) (r : SMSRequest) :
    SMSRequest.setField (str "scheduled_at") v r
      = ({ r with ScheduledAt := (storeString v r.ScheduledAt).1 },
          (storeString v r.ScheduledAt).2) := rfl
theorem setField_text (v : JVal) (r : SMSRequest) :
    SMSRequest.setField (str "text") v r
      = ({ r with Text := (storeString v r.Text).1 }, (storeString v r.Text).2) := rfl

/-- Decoding the JSON of an `SMSRequest` by its own field tags gives the request with every
field coerced to well-formed UTF-8. -/
theorem unmarshal_marshalSMSRequest (r : SMSRequest) :
    ∃ body, marshalSMSRequest r = .ok body ∧
      unmarshal (storeStruct SMSRequest.setField) body ⟨[], [], [], [], []⟩
        = (⟨toValidUTF8 r.SenderName, toValidUTF8 r.SMSType, toValidUTF8 r.Phone,
            toValidUTF8 r.ScheduledAt, toValidUTF8 r.Text⟩, none) := by
  obtain ⟨body, hb, hp⟩ := parse_marshalSMSRequest r 9999 []
  refine ⟨body, hb, ?_⟩
  have hd : maxNestingDepth = 9999 + 1 := rfl
  rw [List.append_nil] at hp
  unfold unmarshal
  rw [hd, hp]
  by_cases h : r.ScheduledAt = []
  · simp [h, storeStruct, setField_sender_name, setField_sms_type, setField_phone,
      setField_text, storeString, toValidUTF8, toValidFrom]
  · simp [h, storeStruct, setField_sender_name, setField_sms_type, setField_phone,
      setField_scheduled_at, setField_text, storeString]

theorem roundtrip_smsRequest (r : SMSRequest) (h1 : utf8Valid r.SenderName = true)
    (h2 : utf8Valid r.SMSType = true) (h3 : utf8Valid r.Phone = true)
    (h4 : utf8Valid r.ScheduledAt = true) (h5 : utf8Valid r.Text = true) :
    ∃ body, marshalSMSRequest r = .ok body ∧
      unmarshal (storeStruct SMSRequest.setField) body ⟨[], [], [], [], []⟩ = (r, none) := by
  obtain ⟨body, hb, hu⟩ := unmarshal_marshalSMSRequest r
  refine ⟨body, hb, ?_⟩
  rw [hu, toValidUTF8_of_valid _ h1, toValidUTF8_of_valid _ h2, toValidUTF8_of_valid _ h3,
    toValidUTF8_of_valid _ h4, toValidUTF8_of_valid _ h5]

/-! ### The wire schema of `CampaignRequest` -/

theorem parse_encodeCampaignLine (l : CampaignLine) (d : Nat) (rest : Bytes) :
    parseValue (d + 1) (encodeCampaignLine l ++ rest)
      = .ok (.object [(str "phone", .string (toValidUTF8 l.Phone)),
          (str "text", .string (toValidUTF8 l.Text))], rest) := by
  have key := parseValue_encodeObject d rest
    [(str "phone", appendString l.Phone, .string (toValidUTF8 l.Phone)),
      (str "text", appendString l.Text, .string (toValidUTF8 l.Text))]
    (by
      intro m hm
      simp at hm
      rcases hm with rfl | rfl
      · exact plain_phone
      · exact plain_text)
    (by
      intro m hm c X _
      simp at hm
      rcases hm with rfl | rfl <;> exact parseValue_appendString d _ _)
  simpa [encodeCampaignLine] using key

theorem parse_encodeCampaignLines (s : Slice CampaignLine) (d : Nat) (rest : Bytes) :
    parseValue (d + 2) (encodeCampaignLines s ++ rest)
      = .ok ((match s with
          | .nil => JVal.null
          | .mk elems _ => JVal.array (elems.map (fun l =>
              JVal.object [(str "phone", .string (toValidUTF8 l.Phone)),
                (str "text", .string (toValidUTF8 l.Text))]))), rest) := by
  cases s with
  | nil => rfl
  | mk elems spare =>
    have key := parseValue_encodeArray (d + 1) rest
      (elems.map (fun l => (encodeCampaignLine l,
        JVal.object [(str "phone", .string (toValidUTF8 l.Phone)),
          (str "text", .string (toValidUTF8 l.Text))])))
      (by
        intro e he c X _
        obtain ⟨l, -, rfl⟩ := List.mem_map.1 he
        exact parse_encodeCampaignLine l d _)
      (by
        intro e he
        obtain ⟨l, -, rfl⟩ := List.mem_map.1 he
        exact ⟨_, rfl⟩)
    simpa [encodeCampaignLines, List.map_map, Function.comp_def] using key

/-- What the scanner reads from the JSON of a `CampaignRequest`. -/
theorem parse_marshalCampaignRequest (r : CampaignRequest) (d : Nat) (rest : Bytes) :
    ∃ body, marshalCampaignRequest r = .ok body ∧
      parseValue (d + 3) (body ++ rest) = .ok (.object
        ([(str "sender_name", .string (toValidUTF8 r.SenderName)),
          (str "sms_type", .string (toValidUTF8 r.SMSType))]
          ++ (if r.ScheduledAt = [] then []
              else [(str "scheduled_at", .string (toValidUTF8 r.ScheduledAt))])
          ++ [(str "campaign_name", .string (toValidUTF8 r.CampaignName)),
              (str "campaign_lines",
                (match r.CampaignLines with
                  | .nil => JVal.null
                  | .mk elems _ => JVal.array (elems.map (fun l =>
                      JVal.object [(str "phone", .string (toValidUTF8 l.Phone)),
                        (str "text", .string (toValidUTF8 l.Text))]))))]), rest) := by
  refine ⟨_, rfl, ?_⟩
  show parseValue (d + 3) (CampaignRequest.encode r ++ rest) = _
  unfold CampaignRequest.encode
  have key := parseValue_encodeObject (d + 2) rest
    ([(str "sender_name", appendString r.SenderName, .string (toValidUTF8 r.SenderName)),
      (str "sms_type", appendString r.SMSType, .string (toValidUTF8 r.SMSType))]
      ++ (if r.ScheduledAt = [] then []
          else [(str "scheduled_at", appendString r.ScheduledAt,
            JVal.string (toValidUTF8 r.ScheduledAt))])
      ++ [(str "campaign_name", appendString r.CampaignName,
            .string (toValidUTF8 r.CampaignName)),
          (str "campaign_lines", encodeCampaignLines r.CampaignLines,
            (match r.CampaignLines with
              | .nil => JVal.null
              | .mk elems _ => JVal.array (elems.map (fun l =>
                  JVal.object [(str "phone", .string (toValidUTF8 l.Phone)),
                    (str "text", .string (toValidUTF8 l.Text))]))))])
    (by
      intro m hm
      by_cases h : r.ScheduledAt = [] <;> simp [h] at hm <;>
        rcases hm with rfl | rfl | rfl | rfl | rfl <;>
        first
        | exact plain_sender_name | exact plain_sms_type | exact plain_campaign_name
        | exact plain_scheduled_at | exact plain_campaign_lines)
    (by
      intro m hm c X hc
      by_cases h : r.ScheduledAt = [] <;> simp [h] at hm <;>
        rcases hm with rfl | rfl | rfl | rfl | rfl <;>
        first
        | exact parseValue_appendString (d + 2) _ _
        | exact parse_encodeCampaignLines _ d _)
  by_cases h : r.ScheduledAt = [] <;> simpa [h] using key

/-! ### Integers in JSON -/

theorem formatDigits_spec (fuel : Nat) :
    ∀ n acc, n < 10 ^ fuel → 0 < fuel →
      ∃ ds, formatDigits fuel n acc = ds ++ acc ∧ ds ≠ [] ∧ (∀ c ∈ ds, 48 ≤ c ∧ c ≤ 57) ∧
        (n ≠ 0 → ∃ c tl, ds = c :: tl ∧ 49 ≤ c) ∧ (n = 0 → ds = [48]) ∧
        ∀ x, ds.foldl (fun a c => a * 10 + (c - 48)) x = x * 10 ^ ds.length + n := by
  induction fuel with
  | zero => intro n acc _ h; omega
  | succ fuel ih =>
    intro n acc hn _
    by_cases h : n < 10
    · refine ⟨[48 + n], by simp [formatDigits, h], by simp, ?_, ?_, ?_, ?_⟩
      · intro c hc; simp at hc; omega
      · intro h0; exact ⟨48 + n, [], rfl, by omega⟩
      · intro h0; simp [h0]
      · intro x; simp
    · have hfuel : 0 < fuel := by
        rcases Nat.eq_zero_or_pos fuel with h0 | h0
        · subst h0; simp at hn; omega
        · exact h0
      have hdiv : n / 10 < 10 ^ fuel := by
        rw [Nat.div_lt_iff_lt_mul (by norm_num)]
        rw [pow_succ] at hn
        exact hn
      obtain ⟨ds, h1, h2, h3, h4, -, h6⟩ := ih (n / 10) ((48 + n % 10) :: acc) hdiv hfuel
      refine ⟨ds ++ [48 + n % 10], by simp [formatDigits, h, h1], by simp, ?_, ?_, ?_, ?_⟩
      · intro c hc
        rcases List.mem_append.1 hc with hc | hc
        · exact h3 c hc
        · simp at hc; omega
      · intro _
        obtain ⟨c, tl, hds, hc⟩ := h4 (by omega)
        exact ⟨c, tl ++ [48 + n % 10], by simp [hds], hc⟩
      · intro h0; omega
      · intro x
        rw [List.foldl_append, h6]
        simp [pow_succ]
        have := Nat.div_add_mod n 10
        nlinarith [this]

theorem lt_ten_pow_succ (n : Nat) : n < 10 ^ (n + 1) := by
  have h1 : n < 2 ^ n := Nat.lt_two_pow n
  have h2 : 2 ^ n ≤ 10 ^ n := Nat.pow_le_pow_left (by norm_num) n
  have h3 : 10 ^ n ≤ 10 ^ (n + 1) := Nat.pow_le_pow_right (by norm_num) (by omega)
  omega

theorem scanNumber_digits (ds : Bytes) (c : Nat) (rest : Bytes)
    (hd : ∀ x ∈ ds, 48 ≤ x ∧ x ≤ 57) (hc : c = 44 ∨ c = 125) :
    scanNumber .int (ds ++ c :: rest) = .ok (ds, c :: rest) := by
  induction ds with
  | nil => rcases hc with rfl | rfl <;> simp [scanNumber, isDigit]
  | cons x ds ih =>
    have hx := hd x (by simp)
    have := ih (fun y hy => hd y (by simp [hy]))
    simp [scanNumber, isDigit, hx.1, hx.2, this, Scan.cons]

/-- The decimal representation of an integer, followed by a comma or a closing brace, is read
by the scanner as a number with that literal. -/
theorem parseValue_formatInt (d : Nat) (b : Int) (c : Nat) (rest : Bytes)
    (hc : c = 44 ∨ c = 125) :
    parseValue d (formatInt b ++ c :: rest) = .ok (.number (formatInt b), c :: rest) := by
  obtain ⟨ds, h1, h2, h3, h4, h5, -⟩ :=
    formatDigits_spec (b.natAbs + 1) b.natAbs [] (lt_ten_pow_succ _) (by omega)
  rw [List.append_nil] at h1
  have hscalar : ∀ x tl, ¬ (x = 123 ∨ x = 91) → parseValue d (x :: tl) =
      (if isSpace x then parseValue d tl else parseScalar x tl) := by
    intro x tl hx
    have h123 : ¬ (x = 123) := fun h => hx (Or.inl h)
    have h91 : ¬ (x = 91) := fun h => hx (Or.inr h)
    cases d <;> by_cases hs : isSpace x = true <;>
      simp [parseValue, skipSpace, hs, hx, h123, h91]
  by_cases hneg : b < 0
  · have hne : b.natAbs ≠ 0 := by omega
    obtain ⟨x, tl, hds, hx⟩ := h4 hne
    have hx2 := h3 x (by simp [hds])
    have hsc := scanNumber_digits tl c rest (fun y hy => h3 y (by simp [hds, hy])) hc
    have e1 : ¬ (x = 48) := by omega
    simp only [formatInt, hneg, if_true, h1, hds, List.cons_append]
    rw [hscalar 45 _ (by decide)]
    simp [isSpace, parseScalar, scanNumber, e1, hx, hx2.2, hsc, Scan.cons]
  · simp only [formatInt, hneg, if_false, h1]
    by_cases h0 : b.natAbs = 0
    · rw [h5 h0]
      rw [List.singleton_append, hscalar 48 _ (by decide)]
      rcases hc with rfl | rfl <;> simp [isSpace, parseScalar, scanNumber]
    · obtain ⟨x, tl, hds, hx⟩ := h4 h0
      have hx2 := h3 x (by simp [hds])
      have hsc := scanNumber_digits tl c rest (fun y hy => h3 y (by simp [hds, hy])) hc
      have e1 : ¬ (x = 34) := by omega
      have e2 : ¬ (x = 45) := by omega
      have e3 : ¬ (x = 48) := by omega
      have e4 : isSpace x = false := by
        simp [isSpace]; omega
      rw [hds, List.cons_append, hscalar x _ (by omega)]
      simp [e4, parseScalar, e1, e2, e3, hx, hx2.2, hsc]

theorem parseInt64_formatInt (b : Int) (h1 : -2 ^ 63 ≤ b) (h2 : b < 2 ^ 63) :
    parseInt64 (formatInt b) = some b := by
  obtain ⟨ds, g1, g2, g3, g4, g5, g6⟩ :=
    formatDigits_spec (b.natAbs + 1) b.natAbs [] (lt_ten_pow_succ _) (by omega)
  rw [List.append_nil] at g1
  have hall : ds.all isDigit = true := by
    rw [List.all_eq_true]
    intro x hx
    have := g3 x hx
    simp [isDigit, this.1, this.2]
  have hu : parseUint ds = some b.natAbs := by
    have := g6 0
    simp only [zero_mul, zero_add] at this
    simp [parseUint, g2, hall, this]
  by_cases hneg : b < 0
  · have hle : b.natAbs ≤ 2 ^ 63 := by omega
    simp only [formatInt, hneg, if_true, g1, parseInt64, hu, hle]
    congr 1
    omega
  · obtain ⟨x, tl, hds⟩ : ∃ x tl, ds = x :: tl := by
      cases ds with
      | nil => exact absurd rfl g2
      | cons x tl => exact ⟨x, tl, rfl⟩
    have hx := g3 x (by simp [hds])
    have e1 : ¬ (x = 45) := by omega
    have e2 : ¬ (x = 43) := by omega
    have hlt : b.natAbs < 2 ^ 63 := by omega
    simp only [formatInt, hneg, if_false, g1]
    rw [hds]
    simp only [parseInt64, e1, e2, if_false]
    rw [← hds, hu]
    simp only [hlt, if_true]
    congr 1
    omega

/-! ### Text is well-formed UTF-8 -/

theorem decodeRune_encodeRune (n : Nat) (X : Bytes)
    (hv : n < 0xD800 ∨ (0xDFFF < n ∧ n < 0x110000)) :
    decodeRune (encodeRune n ++ X) = (n, (encodeRune n).length) := by
  unfold encodeRune
  by_cases h1 : n ≤ 0x7F
  · simp only [h1, if_true, List.singleton_append, List.length_singleton]
    exact decodeRune_ascii n X (by omega)
  by_cases h2 : n ≤ 0x7FF
  · simp only [h1, h2, if_true, if_false]
    have a1 : ¬ (0xC0 + n / 64 < 0x80) := by omega
    have a2 : ¬ (0xC0 + n / 64 < 0xC2) := by omega
    have a3 : 0xC0 + n / 64 < 0xE0 := by omega
    have a4 : 0x80 ≤ 0x80 + n % 64 ∧ 0x80 + n % 64 ≤ 0xBF := by omega
    have a5 : (0xC0 + n / 64) % 32 * 64 + (0x80 + n % 64) % 64 = n := by omega
    simp only [List.cons_append, List.nil_append, decodeRune, a1, a2, a3, a4, a5, if_true,
      if_false, and_self, List.length_cons, List.length_nil]
  have h3 : ¬ (0x10FFFF < n ∨ (0xD800 ≤ n ∧ n ≤ 0xDFFF)) := by omega
  by_cases h4 : n ≤ 0xFFFF
  · simp only [h1, h2, h3, h4, if_true, if_false]
    have a1 : ¬ (0xE0 + n / 4096 < 0x80) := by omega
    have a2 : ¬ (0xE0 + n / 4096 < 0xC2) := by omega
    have a3 : ¬ (0xE0 + n / 4096 < 0xE0) := by omega
    have a4 : 0xE0 + n / 4096 < 0xF0 := by omega
    have a5 : (if 0xE0 + n / 4096 = 0xE0 then 0xA0 else 0x80) ≤ 0x80 + n / 64 % 64 ∧
        0x80 + n / 64 % 64 ≤ (if 0xE0 + n / 4096 = 0xED then 0x9F else 0xBF) ∧
        0x80 ≤ 0x80 + n % 64 ∧ 0x80 + n % 64 ≤ 0xBF := by
      refine ⟨?_, ?_, by omega, by omega⟩
      · split_ifs <;> omega
      · split_ifs <;> omega
    have a6 : (0xE0 + n / 4096) % 16 * 4096 + (0x80 + n / 64 % 64) % 64 * 64
        + (0x80 + n % 64) % 64 = n := by omega
    simp only [List.cons_append, List.nil_append, decodeRune, a1, a2, a3, a4, a5, a6, if_true,
      if_false, and_self, List.length_cons, List.length_nil]
  · simp only [h1, h2, h3, h4, if_false]
    have a1 : ¬ (0xF0 + n / 262144 < 0x80) := by omega
    have a2 : ¬ (0xF0 + n / 262144 < 0xC2) := by omega
    have a3 : ¬ (0xF0 + n / 262144 < 0xE0) := by omega
    have a4 : ¬ (0xF0 + n / 262144 < 0xF0) := by omega
    have a5 : 0xF0 + n / 262144 < 0xF5 := by omega
    have a6 : (if 0xF0 + n / 262144 = 0xF0 then 0x90 else 0x80) ≤ 0x80 + n / 4096 % 64 ∧
        0x80 + n / 4096 % 64 ≤ (if 0xF0 + n / 262144 = 0xF4 then 0x8F else 0xBF) ∧
        0x80 ≤ 0x80 + n / 64 % 64 ∧ 0x80 + n / 64 % 64 ≤ 0xBF ∧
        0x80 ≤ 0x80 + n % 64 ∧ 0x80 + n % 64 ≤ 0xBF := by
      refine ⟨?_, ?_, by omega, by omega, by omega, by omega⟩
      · split_ifs <;> omega
      · split_ifs <;> omega
    have a7 : (0xF0 + n / 262144) % 8 * 262144 + (0x80 + n / 4096 % 64) % 64 * 4096
        + (0x80 + n / 64 % 64) % 64 * 64 + (0x80 + n % 64) % 64 = n := by omega
    simp only [List.cons_append, List.nil_append, decodeRune, a1, a2, a3, a4, a5, a6, a7,
      if_true, if_false, and_self, List.length_cons, List.length_nil]

theorem validFrom_encodeRune (n : Nat) (X : Bytes)
    (hv : n < 0xD800 ∨ (0xDFFF < n ∧ n < 0x110000)) :
    validFrom 0 (encodeRune n ++ X) = validFrom 0 X := by
  have hd := decodeRune_encodeRune n X hv
  obtain ⟨b, chunk, hbc⟩ : ∃ b chunk, encodeRune n = b :: chunk := by
    unfold encodeRune; split_ifs <;> exact ⟨_, _, rfl⟩
  have hne : ¬ (n = RuneError ∧ chunk.length + 1 = 1) := by
    rintro ⟨h1, h2⟩
    have hlen : (encodeRune n).length = 1 := by rw [hbc]; simpa using h2
    rw [h1] at hlen
    simp [encodeRune, RuneError] at hlen
  rw [hbc] at hd ⊢
  simp only [List.cons_append, List.length_cons] at hd ⊢
  simp only [validFrom, hd, hne, if_false, Nat.add_sub_cancel, validFrom_skip]

theorem char_valid (c : Char) : c.toNat < 0xD800 ∨ (0xDFFF < c.toNat ∧ c.toNat < 0x110000) := by
  have := c.valid
  simpa [UInt32.isValidChar, Nat.isValidChar, Char.toNat] using this

theorem validFrom_flatMap (cs : List Char) :
    validFrom 0 (cs.flatMap (fun c => encodeRune c.toNat)) = true := by
  induction cs with
  | nil => rfl
  | cons c cs ih =>
    rw [List.flatMap_cons, validFrom_encodeRune _ _ (char_valid c), ih]

/-- The bytes of a text are well-formed UTF-8. -/
theorem utf8Valid_str (s : String) : utf8Valid (str s) = true :=
  validFrom_flatMap s.toList

/-! ## The four methods -/

theorem newRequest_sms (body : Option Bytes) :
    NewRequest (str "POST") (baseURL ++ str "/sms") body
      = .ok ⟨str "POST", str "https://api.sendtext.sn/v1/sms", [], body⟩ := rfl

theorem newRequest_bulk (body : Option Bytes) :
    NewRequest (str "POST") (baseURL ++ str "/bulk_sms") body
      = .ok ⟨str "POST", str "https://api.sendtext.sn/v1/bulk_sms", [], body⟩ := rfl

theorem newRequest_balance (body : Option Bytes) :
    NewRequest (str "GET") (baseURL ++ str "/balance") body
      = .ok ⟨str "GET", str "https://api.sendtext.sn/v1/balance", [], body⟩ := rfl

theorem newRequest_history (body : Option Bytes) :
    NewRequest (str "GET") (baseURL ++ str "/history") body
      = .ok ⟨str "GET", str "https://api.sendtext.sn/v1/history", [], body⟩ := rfl

theorem setHeaders_empty (c : Client) (m u : Bytes) (body : Option Bytes) :
    setHeaders c ⟨m, u, [], body⟩
      = ⟨m, u, [(str "Snt-Api-Secret", [c.APISecret]), (str "Snt-Api-Key", [c.APIKey]),
          (str "Content-Type", [str "application/json"])], body⟩ := rfl

theorem SendSMS_eq (c : Client) (req : SMSRequest) (sent : List Request) :
    SendSMS c req sent =
      (outcome (storeStruct SMSResponse.setField) ⟨[], [], [], [], [], [], 0, 0, []⟩
        (c.httpClient.roundTrip sent
          (setHeaders c
            ⟨str "POST", str "https://api.sendtext.sn/v1/sms", [], some req.encode⟩)),
        sent ++ [setHeaders c
          ⟨str "POST", str "https://api.sendtext.sn/v1/sms", [], some req.encode⟩]) := by
  simp only [SendSMS, marshalSMSRequest, newRequest_sms, HTTPClient.Do, outcome]
  cases c.httpClient.roundTrip sent _ with
  | error e => rfl
  | ok resp => dsimp only; split <;> simp_all

theorem SendCampaign_eq (c : Client) (req : CampaignRequest) (sent : List Request) :
    SendCampaign c req sent =
      (outcome (storeStruct CampaignResponse.setField) ⟨[], [], [], 0, .nil⟩
        (c.httpClient.roundTrip sent
          (setHeaders c
            ⟨str "POST", str "https://api.sendtext.sn/v1/bulk_sms", [], some req.encode⟩)),
        sent ++ [setHeaders c
          ⟨str "POST", str "https://api.sendtext.sn/v1/bulk_sms", [], some req.encode⟩]) := by
  simp only [SendCampaign, marshalCampaignRequest, newRequest_bulk, HTTPClient.Do, outcome]
  cases c.httpClient.roundTrip sent _ with
  | error e => rfl
  | ok resp => dsimp only; split <;> simp_all

theorem CheckBalance_eq (c : Client) (sent : List Request) :
    CheckBalance c sent =
      (outcome (storeStruct BalanceResponse.setField) ⟨0, [], []⟩
        (c.httpClient.roundTrip sent
          (setHeaders c ⟨str "GET", str "https://api.sendtext.sn/v1/balance", [], none⟩)),
        sent ++ [setHeaders c
          ⟨str "GET", str "https://api.sendtext.sn/v1/balance", [], none⟩]) := by
  simp only [CheckBalance, newRequest_balance, HTTPClient.Do, outcome]
  cases c.httpClient.roundTrip sent _ with
  | error e => rfl
  | ok resp => dsimp only; split <;> simp_all

theorem GetSMSHistory_eq (c : Client) (sent : List Request) :
    GetSMSHistory c sent =
      (outcome (storeSlice (storeStruct HistoryItem.setField)
          ⟨[], [], [], 0, [], [], [], [], 0, []⟩) .nil
        (c.httpClient.roundTrip sent
          (setHeaders c ⟨str "GET", str "https://api.sendtext.sn/v1/history", [], none⟩)),
        sent ++ [setHeaders c
          ⟨str "GET", str "https://api.sendtext.sn/v1/history", [], none⟩]) := by
  simp only [GetSMSHistory, newRequest_history, HTTPClient.Do, outcome]
  cases c.httpClient.roundTrip sent _ with
  | error e => rfl
  | ok resp => dsimp only; split <;> simp_all

theorem outcome_nil_iff {α : Type} (store : Store α) (zero : α) (out : Except Error Response) :
    (outcome store zero out).1 = none ↔ (outcome store zero out).2 ≠ none := by
  unfold outcome
  cases out with
  | error e => simp
  | ok resp =>
    dsimp only
    split <;> simp

theorem outcome_mapStatus {α : Type} (store : Store α) (zero : α) (net : HTTPClient)
    (f : Nat → Nat) (sent : List Request) (r : Request) :
    outcome store zero ((net.mapStatus f).roundTrip sent r)
      = outcome store zero (net.roundTrip sent r) := by
  unfold HTTPClient.mapStatus
  dsimp only
  cases net.roundTrip sent r with
  | error e => rfl
  | ok resp => rfl

theorem outcome_ok {α : Type} (store : Store α) (zero : α) (resp : Response) (v : α)
    (h : decode store resp.Body zero = (v, none)) :
    outcome store zero (.ok resp) = (some v, none) := by
  simp [outcome, h]

theorem outcome_decodeError {α : Type} (store : Store α) (zero : α) (resp : Response)
    (e : Error) (h : (decode store resp.Body zero).2 = some e) :
    outcome store zero (.ok resp) = (none, some e) := by
  unfold outcome
  dsimp only
  split
  · rename_i x err heq
    rw [heq] at h
    simp at h
    rw [h]
  · rename_i x heq
    rw [heq] at h
    simp at h

/-! ## The claims -/

/-- C1. Every call of each of the four methods hands `httpClient` exactly one request (the list
of requests made grows by one), with the method, URL and body of its row of the table:
`SendSMS` sends POST `/v1/sms` with the JSON of the `SMSRequest`, `SendCampaign` sends POST
`/v1/bulk_sms` with the JSON of the `CampaignRequest`, `CheckBalance` and `GetSMSHistory`
send GET `/v1/balance` and GET `/v1/history` with no body. -/
theorem C1_one_request_per_row (c : Client) (sent : List Request) (sms : SMSRequest)
    (camp : CampaignRequest) :
    (∃ r body, (SendSMS c sms sent).2 = sent ++ [r] ∧ r.Method = str "POST" ∧
      r.URL = str "https://api.sendtext.sn/v1/sms" ∧
      marshalSMSRequest sms = .ok body ∧ r.Body = some body) ∧
    (∃ r body, (SendCampaign c camp sent).2 = sent ++ [r] ∧ r.Method = str "POST" ∧
      r.URL = str "https://api.sendtext.sn/v1/bulk_sms" ∧
      marshalCampaignRequest camp = .ok body ∧ r.Body = some body) ∧
    (∃ r, (CheckBalance c sent).2 = sent ++ [r] ∧ r.Method = str "GET" ∧
      r.URL = str "https://api.sendtext.sn/v1/balance" ∧ r.Body = none) ∧
    (∃ r, (GetSMSHistory c sent).2 = sent ++ [r] ∧ r.Method = str "GET" ∧
      r.URL = str "https://api.sendtext.sn/v1/history" ∧ r.Body = none) := by
  refine ⟨⟨_, sms.encode, by rw [SendSMS_eq], rfl, rfl, rfl, rfl⟩,
    ⟨_, camp.encode, by rw [SendCampaign_eq], rfl, rfl, rfl, rfl⟩,
    ⟨_, by rw [CheckBalance_eq], rfl, rfl, rfl⟩,
    ⟨_, by rw [GetSMSHistory_eq], rfl, rfl, rfl⟩⟩

/-- C2. A client built by `NewClient` with key `k` and secret `s` makes exactly one request
per call of each of the four methods, and on that request the header `SNT-API-KEY` holds
exactly `k`, the header `SNT-API-SECRET` exactly `s` and the header `Content-Type`
`application/json`, for all byte strings `k` and `s`. -/
theorem C2_credential_headers (net : HTTPClient) (k s : Bytes) (sent : List Request)
    (sms : SMSRequest) (camp : CampaignRequest) :
    (∃ r, (SendSMS (NewClient net k s) sms sent).2 = sent ++ [r] ∧
      Header.Values r.Header (str "SNT-API-KEY") = [k] ∧
      Header.Values r.Header (str "SNT-API-SECRET") = [s] ∧
      Header.Values r.Header (str "Content-Type") = [str "application/json"] ∧
      Header.Get r.Header (str "SNT-API-KEY") = k ∧
      Header.Get r.Header (str "SNT-API-SECRET") = s) ∧
    (∃ r, (SendCampaign (NewClient net k s) camp sent).2 = sent ++ [r] ∧
      Header.Values r.Header (str "SNT-API-KEY") = [k] ∧
      Header.Values r.Header (str "SNT-API-SECRET") = [s] ∧
      Header.Values r.Header (str "Content-Type") = [str "application/json"] ∧
      Header.Get r.Header (str "SNT-API-KEY") = k ∧
      Header.Get r.Header (str "SNT-API-SECRET") = s) ∧
    (∃ r, (CheckBalance (NewClient net k s) sent).2 = sent ++ [r] ∧
      Header.Values r.Header (str "SNT-API-KEY") = [k] ∧
      Header.Values r.Header (str "SNT-API-SECRET") = [s] ∧
      Header.Values r.Header (str "Content-Type") = [str "application/json"] ∧
      Header.Get r.Header (str "SNT-API-KEY") = k ∧
      Header.Get r.Header (str "SNT-API-SECRET") = s) ∧
    (∃ r, (GetSMSHistory (NewClient net k s) sent).2 = sent ++ [r] ∧
      Header.Values r.Header (str "SNT-API-KEY") = [k] ∧
      Header.Values r.Header (str "SNT-API-SECRET") = [s] ∧
      Header.Values r.Header (str "Content-Type") = [str "application/json"] ∧
      Header.Get r.Header (str "SNT-API-KEY") = k ∧
      Header.Get r.Header (str "SNT-API-SECRET") = s) := by
  refine ⟨⟨_, by rw [SendSMS_eq], ?_⟩, ⟨_, by rw [SendCampaign_eq], ?_⟩,
    ⟨_, by rw [CheckBalance_eq], ?_⟩, ⟨_, by rw [GetSMSHistory_eq], ?_⟩⟩ <;>
  · rw [setHeaders_empty]
    exact ⟨rfl, rfl, rfl, rfl, rfl⟩

/-- C7. Each of the four methods makes exactly one request, and when `httpClient` fails that
exchange with an error `e` the method returns a nil result together with exactly `e`: the
exchange is not tried again and nothing is decoded. -/
theorem C7_transport_error_verbatim (c : Client) (sent : List Request) (e : Error)
    (sms : SMSRequest) (camp : CampaignRequest) :
    (∃ r, (SendSMS c sms sent).2 = sent ++ [r] ∧
      (c.httpClient.roundTrip sent r = .error e → (SendSMS c sms sent).1 = (none, some e))) ∧
    (∃ r, (SendCampaign c camp sent).2 = sent ++ [r] ∧
      (c.httpClient.roundTrip sent r = .error e →
        (SendCampaign c camp sent).1 = (none, some e))) ∧
    (∃ r, (CheckBalance c sent).2 = sent ++ [r] ∧
      (c.httpClient.roundTrip sent r = .error e → (CheckBalance c sent).1 = (none, some e))) ∧
    (∃ r, (GetSMSHistory c sent).2 = sent ++ [r] ∧
      (c.httpClient.roundTrip sent r = .error e →
        (GetSMSHistory c sent).1 = (none, some e))) := by
  refine ⟨⟨_, by rw [SendSMS_eq], ?_⟩, ⟨_, by rw [SendCampaign_eq], ?_⟩,
    ⟨_, by rw [CheckBalance_eq], ?_⟩, ⟨_, by rw [GetSMSHistory_eq], ?_⟩⟩
  · intro h; rw [SendSMS_eq, h]; rfl
  · intro h; rw [SendCampaign_eq, h]; rfl
  · intro h; rw [CheckBalance_eq, h]; rfl
  · intro h; rw [GetSMSHistory_eq, h]; rfl

/-- Witness of C7: a client whose every exchange fails with the error `other 7`. -/
theorem C7_witness :
    (SendSMS (NewClient (HTTPClient.failing (.other 7)) (str "k") (str "s"))
      ⟨str "me", str "normal", str "+221770000000", [], str "hello"⟩ []).1
      = (none, some (.other 7)) := by
  obtain ⟨⟨r, hr, h⟩, -⟩ := C7_transport_error_verbatim
    (NewClient (HTTPClient.failing (.other 7)) (str "k") (str "s")) [] (.other 7)
    ⟨str "me", str "normal", str "+221770000000", [], str "hello"⟩ ⟨[], [], [], [], .nil⟩
  exact h rfl

/-- C8. The outcome of each of the four methods does not depend on the HTTP status code:
replacing the status codes of the responses by any others changes neither the result nor the
error (nor the requests made), and a response with any status code whose body decodes is
returned as the decoded value with a nil error. -/
theorem C8_status_code_ignored (net : HTTPClient) (f : Nat → Nat) (k s : Bytes)
    (sent : List Request) (sms : SMSRequest) (camp : CampaignRequest) :
    SendSMS (NewClient (net.mapStatus f) k s) sms sent = SendSMS (NewClient net k s) sms sent ∧
    SendCampaign (NewClient (net.mapStatus f) k s) camp sent
      = SendCampaign (NewClient net k s) camp sent ∧
    CheckBalance (NewClient (net.mapStatus f) k s) sent = CheckBalance (NewClient net k s) sent ∧
    GetSMSHistory (NewClient (net.mapStatus f) k s) sent
      = GetSMSHistory (NewClient net k s) sent ∧
    (∀ status hdr body v,
      decode (storeStruct SMSResponse.setField) body ⟨[], [], [], [], [], [], 0, 0, []⟩
        = (v, none) →
      (SendSMS (NewClient (HTTPClient.always ⟨status, hdr, body⟩) k s) sms sent).1
        = (some v, none)) ∧
    (∀ status hdr body v,
      decode (storeStruct CampaignResponse.setField) body ⟨[], [], [], 0, .nil⟩ = (v, none) →
      (SendCampaign (NewClient (HTTPClient.always ⟨status, hdr, body⟩) k s) camp sent).1
        = (some v, none)) ∧
    (∀ status hdr body v,
      decode (storeStruct BalanceResponse.setField) body ⟨0, [], []⟩ = (v, none) →
      (CheckBalance (NewClient (HTTPClient.always ⟨status, hdr, body⟩) k s) sent).1
        = (some v, none)) ∧
    (∀ status hdr body v,
      decode (storeSlice (storeStruct HistoryItem.setField)
        ⟨[], [], [], 0, [], [], [], [], 0, []⟩) body .nil = (v, none) →
      (GetSMSHistory (NewClient (HTTPClient.always ⟨status, hdr, body⟩) k s) sent).1
        = (some v, none)) := by
  refine ⟨?_, ?_, ?_, ?_, ?_, ?_, ?_, ?_⟩
  · rw [SendSMS_eq, SendSMS_eq]
    exact congrArg (fun x => (x, _)) (outcome_mapStatus _ _ net f sent _)
  · rw [SendCampaign_eq, SendCampaign_eq]
    exact congrArg (fun x => (x, _)) (outcome_mapStatus _ _ net f sent _)
  · rw [CheckBalance_eq, CheckBalance_eq]
    exact congrArg (fun x => (x, _)) (outcome_mapStatus _ _ net f sent _)
  · rw [GetSMSHistory_eq, GetSMSHistory_eq]
    exact congrArg (fun x => (x, _)) (outcome_mapStatus _ _ net f sent _)
  · intro status hdr body v h
    rw [SendSMS_eq]
    exact outcome_ok _ _ ⟨status, hdr, body⟩ v h
  · intro status hdr body v h
    rw [SendCampaign_eq]
    exact outcome_ok _ _ ⟨status, hdr, body⟩ v h
  · intro status hdr body v h
    rw [CheckBalance_eq]
    exact outcome_ok _ _ ⟨status, hdr, body⟩ v h
  · intro status hdr body v h
    rw [GetSMSHistory_eq]
    exact outcome_ok _ _ ⟨status, hdr, body⟩ v h

set_option maxRecDepth 100000 in
/-- Witness of C8: a response with status 500 whose body is a balance object is returned as
success. -/
theorem C8_witness :
    (CheckBalance (NewClient (HTTPClient.always
        ⟨500, [], ⟨str "\x7b\"balance\":7\x7d", none⟩⟩) (str "k") (str "s")) []).1
      = (some ⟨7, [], []⟩, none) :=
  (C8_status_code_ignored (HTTPClient.always ⟨500, [], ⟨[], none⟩⟩) id (str "k") (str "s") []
    ⟨[], [], [], [], []⟩ ⟨[], [], [], [], .nil⟩).2.2.2.2.2.2.1
    500 [] ⟨str "\x7b\"balance\":7\x7d", none⟩ ⟨7, [], []⟩ rfl

/-- C10. Each of the four methods returns, for every client, input and behaviour of
`httpClient`, a nil result exactly when it returns an error that is not nil. -/
theorem C10_result_xor_error (c : Client) (sent : List Request) (sms : SMSRequest)
    (camp : CampaignRequest) :
    ((SendSMS c sms sent).1.1 = none ↔ (SendSMS c sms sent).1.2 ≠ none) ∧
    ((SendCampaign c camp sent).1.1 = none ↔ (SendCampaign c camp sent).1.2 ≠ none) ∧
    ((CheckBalance c sent).1.1 = none ↔ (CheckBalance c sent).1.2 ≠ none) ∧
    ((GetSMSHistory c sent).1.1 = none ↔ (GetSMSHistory c sent).1.2 ≠ none) := by
  refine ⟨?_, ?_, ?_, ?_⟩
  · rw [SendSMS_eq]; exact outcome_nil_iff _ _ _
  · rw [SendCampaign_eq]; exact outcome_nil_iff _ _ _
  · rw [CheckBalance_eq]; exact outcome_nil_iff _ _ _
  · rw [GetSMSHistory_eq]; exact outcome_nil_iff _ _ _

theorem jsonMember_of_parse (body : Bytes) (j : JVal) (name : Bytes)
    (h : parseValue maxNestingDepth body = .ok (j, [])) :
    jsonMember body name = j.member name := by
  simp [jsonMember, h]

/-- C3 (amended). The JSON of every `SMSRequest` is an object that has a `scheduled_at` member
if and only if `ScheduledAt` is not empty; when present, its value is the `ScheduledAt` string
coerced to well-formed UTF-8 (each byte that is not part of a well-formed sequence replaced by
U+FFFD), which is the `ScheduledAt` string itself when that is well-formed UTF-8; the members
`sender_name`, `sms_type`, `phone` and `text` are present in both cases. -/
theorem C3_scheduled_at_omitted_iff_empty (r : SMSRequest) :
    ∃ body, marshalSMSRequest r = .ok body ∧
      ((jsonMember body (str "scheduled_at")).isSome = true ↔ r.ScheduledAt ≠ []) ∧
      (r.ScheduledAt ≠ [] →
        jsonMember body (str "scheduled_at") = some (.string (toValidUTF8 r.ScheduledAt))) ∧
      (utf8Valid r.ScheduledAt = true → toValidUTF8 r.ScheduledAt = r.ScheduledAt) ∧
      (jsonMember body (str "sender_name")).isSome = true ∧
      (jsonMember body (str "sms_type")).isSome = true ∧
      (jsonMember body (str "phone")).isSome = true ∧
      (jsonMember body (str "text")).isSome = true := by
  obtain ⟨body, hb, hp⟩ := parse_marshalSMSRequest r 9999 []
  rw [List.append_nil] at hp
  have hp2 : parseValue maxNestingDepth body = _ := hp
  refine ⟨body, hb, ?_⟩
  simp only [jsonMember_of_parse body _ _ hp2]
  by_cases h : r.ScheduledAt = []
  · simp only [h, if_true, List.append_nil]
    have hm : (JVal.object
        ([(str "sender_name", JVal.string (toValidUTF8 r.SenderName)),
          (str "sms_type", JVal.string (toValidUTF8 r.SMSType)),
          (str "phone", JVal.string (toValidUTF8 r.Phone))] ++
          [(str "text", JVal.string (toValidUTF8 r.Text))])).member (str "scheduled_at")
        = none := rfl
    rw [hm]
    exact ⟨by simp, fun h2 => absurd rfl h2, fun _ => rfl, rfl, rfl, rfl, rfl⟩
  · simp only [h, if_false]
    have hm : (JVal.object
        ([(str "sender_name", JVal.string (toValidUTF8 r.SenderName)),
          (str "sms_type", JVal.string (toValidUTF8 r.SMSType)),
          (str "phone", JVal.string (toValidUTF8 r.Phone))] ++
          [(str "scheduled_at", JVal.string (toValidUTF8 r.ScheduledAt))] ++
          [(str "text", JVal.string (toValidUTF8 r.Text))])).member (str "scheduled_at")
        = some (.string (toValidUTF8 r.ScheduledAt)) := rfl
    rw [hm]
    exact ⟨by simp [h], fun _ => rfl, toValidUTF8_of_valid _, rfl, rfl, rfl, rfl⟩

set_option maxRecDepth 100000 in
/-- Witness of C3: a request whose `ScheduledAt` is the well-formed string `2024-01-01`. -/
theorem C3_witness :
    ∃ body, marshalSMSRequest ⟨str "me", str "normal", str "+221", str "2024-01-01", str "hi"⟩
        = .ok body ∧
      jsonMember body (str "scheduled_at") = some (.string (str "2024-01-01")) := by
  obtain ⟨body, hb, -, h2, h3, -⟩ := C3_scheduled_at_omitted_iff_empty
    ⟨str "me", str "normal", str "+221", str "2024-01-01", str "hi"⟩
  refine ⟨body, hb, ?_⟩
  have h4 := h2 (by decide)
  have h5 := h3 (by decide)
  dsimp only at h4 h5
  rw [h4, h5]

set_option maxRecDepth 100000 in
/-- Counterexample to C3 as stated: for the `ScheduledAt` string made of the single byte 0xFF
the member `scheduled_at` is present, and its value is U+FFFD, not that string. -/
theorem C3_counterexample :
    marshalSMSRequest ⟨[], [], [], [255], []⟩
      = .ok (str "\x7b\"sender_name\":\"\",\"sms_type\":\"\",\"phone\":\"\",\"scheduled_at\":\"\\ufffd\",\"text\":\"\"\x7d") ∧
    jsonMember
      (str "\x7b\"sender_name\":\"\",\"sms_type\":\"\",\"phone\":\"\",\"scheduled_at\":\"\\ufffd\",\"text\":\"\"\x7d")
      (str "scheduled_at") = some (.string [239, 191, 189]) ∧
    JVal.string [239, 191, 189] ≠ JVal.string [255] :=
  ⟨rfl, rfl, fun h => absurd (JVal.string.inj h) (by decide)⟩

/-- C4 (amended). The JSON of every `CampaignRequest` is an object with exactly one member
named `campaign_lines`. When `CampaignLines` is a slice of `n` line pairs that is not nil, the
value of that member is a JSON array of exactly `n` entries, and entry `i` is the object of
the phone and text of line pair `i`, each coerced to well-formed UTF-8 and so unchanged when
it is well-formed: count and order are preserved. When `CampaignLines` is nil (never set),
the value is `null`. -/
theorem C4_campaign_lines_in_order (r : CampaignRequest) :
    ∃ body ms, marshalCampaignRequest r = .ok body ∧
      parseValue maxNestingDepth body = .ok (.object ms, []) ∧
      (ms.filter (fun m => m.1 = str "campaign_lines")).length = 1 ∧
      (r.CampaignLines = .nil → jsonMember body (str "campaign_lines") = some .null) ∧
      (∀ elems spare, r.CampaignLines = .mk elems spare →
        ∃ entries, jsonMember body (str "campaign_lines") = some (.array entries) ∧
          entries.length = elems.length ∧
          entries = elems.map (fun l =>
            JVal.object [(str "phone", .string (toValidUTF8 l.Phone)),
              (str "text", .string (toValidUTF8 l.Text))]) ∧
          ∀ l ∈ elems, (utf8Valid l.Phone = true → toValidUTF8 l.Phone = l.Phone) ∧
            (utf8Valid l.Text = true → toValidUTF8 l.Text = l.Text)) := by
  obtain ⟨body, hb, hp⟩ := parse_marshalCampaignRequest r 9997 []
  rw [List.append_nil] at hp
  have hp2 : parseValue maxNestingDepth body = _ := hp
  refine ⟨body, _, hb, hp2, ?_, ?_, ?_⟩
  · by_cases h : r.ScheduledAt = []
    · simp only [h, if_true, List.append_nil]; rfl
    · simp only [h, if_false]; rfl
  · intro hnil
    rw [jsonMember_of_parse body _ _ hp2, hnil]
    by_cases h : r.ScheduledAt = []
    · simp only [h, if_true, List.append_nil]; rfl
    · simp only [h, if_false]; rfl
  · intro elems spare hmk
    refine ⟨_, ?_, ?_, rfl, fun l _ => ⟨toValidUTF8_of_valid _, toValidUTF8_of_valid _⟩⟩
    · rw [jsonMember_of_parse body _ _ hp2, hmk]
      by_cases h : r.ScheduledAt = []
      · simp only [h, if_true, List.append_nil]; rfl
      · simp only [h, if_false]; rfl
    · simp

set_option maxRecDepth 100000 in
/-- Witness of C4: a campaign of three line pairs. -/
theorem C4_witness :
    ∃ body, marshalCampaignRequest ⟨str "me", str "normal", [], str "promo",
        .mk [⟨str "+221770000001", str "a"⟩, ⟨str "+221770000002", str "b"⟩,
          ⟨str "+221770000003", str "c"⟩] []⟩ = .ok body ∧
      jsonMember body (str "campaign_lines") = some (.array
        [.object [(str "phone", .string (str "+221770000001")), (str "text", .string (str "a"))],
         .object [(str "phone", .string (str "+221770000002")), (str "text", .string (str "b"))],
         .object [(str "phone", .string (str "+221770000003")), (str "text", .string (str "c"))]])
    := by
  obtain ⟨body, ms, hb, -, -, -, h⟩ := C4_campaign_lines_in_order
    ⟨str "me", str "normal", [], str "promo",
      .mk [⟨str "+221770000001", str "a"⟩, ⟨str "+221770000002", str "b"⟩,
        ⟨str "+221770000003", str "c"⟩] []⟩
  obtain ⟨entries, h1, -, h3, -⟩ := h _ _ rfl
  refine ⟨body, hb, ?_⟩
  rw [h1, h3]
  rfl

set_option maxRecDepth 100000 in
/-- Counterexample to C4 as stated: for a request whose `CampaignLines` was never set the
value under `campaign_lines` is `null`, not an array; and for a line pair whose phone is the
single byte 0xFF the entry holds U+FFFD, not that phone. -/
theorem C4_counterexample :
    marshalCampaignRequest ⟨[], [], [], [], .nil⟩
      = .ok (str "\x7b\"sender_name\":\"\",\"sms_type\":\"\",\"campaign_name\":\"\",\"campaign_lines\":null\x7d") ∧
    jsonMember
      (str "\x7b\"sender_name\":\"\",\"sms_type\":\"\",\"campaign_name\":\"\",\"campaign_lines\":null\x7d")
      (str "campaign_lines") = some .null ∧
    (∀ entries, JVal.null ≠ JVal.array entries) ∧
    marshalCampaignRequest ⟨[], [], [], [], .mk [⟨[255], []⟩] []⟩
      = .ok (str "\x7b\"sender_name\":\"\",\"sms_type\":\"\",\"campaign_name\":\"\",\"campaign_lines\":[\x7b\"phone\":\"\\ufffd\",\"text\":\"\"\x7d]\x7d") ∧
    jsonMember
      (str "\x7b\"sender_name\":\"\",\"sms_type\":\"\",\"campaign_name\":\"\",\"campaign_lines\":[\x7b\"phone\":\"\\ufffd\",\"text\":\"\"\x7d]\x7d")
      (str "campaign_lines")
      = some (.array [.object [(str "phone", .string [239, 191, 189]),
          (str "text", .string [])]]) ∧
    JVal.string [239, 191, 189] ≠ JVal.string [255] :=
  ⟨rfl, rfl, fun _ h => JVal.noConfusion h, rfl, rfl,
    fun h => absurd (JVal.string.inj h) (by decide)⟩

/-- C5 (amended). For every `SMSRequest` whose five fields are well-formed UTF-8
(`ScheduledAt` possibly empty), decoding the JSON produced by `json.Marshal` into an
`SMSRequest` by the same field tags succeeds and gives a value equal to the request in every
field. -/
theorem C5_roundtrip_valid_utf8 (r : SMSRequest) (h1 : utf8Valid r.SenderName = true)
    (h2 : utf8Valid r.SMSType = true) (h3 : utf8Valid r.Phone = true)
    (h4 : utf8Valid r.ScheduledAt = true) (h5 : utf8Valid r.Text = true) :
    ∃ body, marshalSMSRequest r = .ok body ∧
      unmarshal (storeStruct SMSRequest.setField) body ⟨[], [], [], [], []⟩ = (r, none) :=
  roundtrip_smsRequest r h1 h2 h3 h4 h5

/-- Witness of C5: a request of ASCII strings with an empty `ScheduledAt`. -/
theorem C5_witness :
    ∃ body, marshalSMSRequest ⟨str "me", str "normal", str "+221770000000", [], str "hello"⟩
        = .ok body ∧
      unmarshal (storeStruct SMSRequest.setField) body ⟨[], [], [], [], []⟩
        = (⟨str "me", str "normal", str "+221770000000", [], str "hello"⟩, none) :=
  C5_roundtrip_valid_utf8 ⟨str "me", str "normal", str "+221770000000", [], str "hello"⟩
    (by decide) (by decide) (by decide) (by decide) (by decide)

set_option maxRecDepth 100000 in
/-- Counterexample to C5 as stated: the request whose `Phone` is the single byte 0xFF is
written with `\ufffd` for the phone and read back with the three bytes of U+FFFD, a value
different from the request. -/
theorem C5_counterexample :
    marshalSMSRequest ⟨[], [], [255], [], []⟩
      = .ok (str "\x7b\"sender_name\":\"\",\"sms_type\":\"\",\"phone\":\"\\ufffd\",\"text\":\"\"\x7d") ∧
    unmarshal (storeStruct SMSRequest.setField)
      (str "\x7b\"sender_name\":\"\",\"sms_type\":\"\",\"phone\":\"\\ufffd\",\"text\":\"\"\x7d")
      ⟨[], [], [], [], []⟩ = (⟨[], [], [239, 191, 189], [], []⟩, none) ∧
    (⟨[], [], [239, 191, 189], [], []⟩ : SMSRequest) ≠ ⟨[], [], [255], [], []⟩ :=
  ⟨rfl, rfl, by decide⟩

/-! ### JSON escaping -/

theorem getu4_hex4 (a b c d : Nat) (X : Bytes) :
    getu4 (92 :: 117 :: a :: b :: c :: d :: X) = hex4 a b c d := by
  simp only [getu4, hex4]

theorem isHex_of_hexVal (c x : Nat) (h : hexVal c = some x) : isHex c = true := by
  unfold hexVal at h
  unfold isHex
  split_ifs at h with h1 h2 h3
  · simp [h1]
  · simp [h2]
  · simp [h3]

theorem hex4_isHex (a b c d n : Nat) (h : hex4 a b c d = some n) :
    isHex a = true ∧ isHex b = true ∧ isHex c = true ∧ isHex d = true := by
  unfold hex4 at h
  cases ha : hexVal a with
  | none => simp [ha] at h
  | some x =>
    cases hb : hexVal b with
    | none => simp [ha, hb] at h
    | some y =>
      cases hc : hexVal c with
      | none => simp [ha, hb, hc] at h
      | some z =>
        cases hd : hexVal d with
        | none => simp [ha, hb, hc, hd] at h
        | some w =>
          exact ⟨isHex_of_hexVal a x ha, isHex_of_hexVal b y hb, isHex_of_hexVal c z hc,
            isHex_of_hexVal d w hd⟩

theorem encodeRune_ascii (n : Nat) (h : n < 0x80) : encodeRune n = [n] := by
  have : n ≤ 0x7F := by omega
  simp [encodeRune, this]

theorem encodeRune_high (n : Nat) (hv : isScalar n) (h : 0x80 ≤ n) :
    ∃ b chunk, encodeRune n = b :: chunk ∧ 0x80 ≤ b ∧ ∀ c ∈ chunk, 0x80 ≤ c := by
  unfold isScalar at hv
  unfold encodeRune
  have h1 : ¬ (n ≤ 0x7F) := by omega
  have h3 : ¬ (0x10FFFF < n ∨ (0xD800 ≤ n ∧ n ≤ 0xDFFF)) := by omega
  by_cases h2 : n ≤ 0x7FF
  · refine ⟨_, _, by simp only [h1, h2, if_true, if_false]; rfl, by omega, ?_⟩
    intro c hc; simp at hc; omega
  by_cases h4 : n ≤ 0xFFFF
  · refine ⟨_, _, by simp only [h1, h2, h3, h4, if_true, if_false]; rfl, by omega, ?_⟩
    intro c hc; simp at hc; omega
  · refine ⟨_, _, by simp only [h1, h2, h3, h4, if_false]; rfl, by omega, ?_⟩
    intro c hc; simp at hc; omega

/-- The scanner reads an escaped string up to the closing quote. -/
theorem scanString_escaped (raw s : Bytes) (h : Escaped raw s) (X : Bytes) :
    scanString .inString (raw ++ 34 :: X) = .ok (raw, X) := by
  induction h with
  | nil => simp [scanString]
  | char n raw s hv h1 h2 h3 _ ih =>
    rw [List.append_assoc]
    refine scanString_plain _ _ _ _ ?_ ih
    intro c hc
    by_cases hn : n < 0x80
    · rw [encodeRune_ascii n hn] at hc
      simp at hc
      subst hc
      omega
    · obtain ⟨b, chunk, he, hb, hch⟩ := encodeRune_high n hv (by omega)
      rw [he] at hc
      rcases List.mem_cons.1 hc with hc | hc
      · omega
      · have := hch c hc; omega
  | short e c raw s hm _ ih =>
    simp only [shortEscapes, List.mem_cons, Prod.mk.injEq, List.mem_singleton, List.mem_nil_iff,
      or_false] at hm
    rcases hm with h | h | h | h | h | h | h | h <;> obtain ⟨rfl, rfl⟩ := h <;> simp [scanString, ih, Scan.cons]
  | unicode a b c d n raw s hn hv _ ih =>
    obtain ⟨ha, hb, hc, hd⟩ := hex4_isHex a b c d n hn
    exact scanString_u4 a b c d _ _ _ ha hb hc hd ih
  | pair a b c d a2 b2 c2 d2 hi lo raw s hhi hlo _ _ _ _ _ ih =>
    obtain ⟨ha, hb, hc, hd⟩ := hex4_isHex a b c d hi hhi
    obtain ⟨ha2, hb2, hc2, hd2⟩ := hex4_isHex a2 b2 c2 d2 lo hlo
    have h2 := scanString_u4 a2 b2 c2 d2 _ _ _ ha2 hb2 hc2 hd2 ih
    exact scanString_u4 a b c d _ _ _ ha hb hc hd h2

theorem unquoteFrom_pair (a b c d a2 b2 c2 d2 hi lo : Nat) (X : Bytes)
    (hhi : hex4 a b c d = some hi) (hlo : hex4 a2 b2 c2 d2 = some lo)
    (h1 : 0xD800 ≤ hi) (h2 : hi < 0xDC00) (h3 : 0xDC00 ≤ lo) (h4 : lo < 0xE000) :
    unquoteFrom 0 (92 :: 117 :: a :: b :: c :: d :: 92 :: 117 :: a2 :: b2 :: c2 :: d2 :: X)
      = (unquoteFrom 0 X).map
          (encodeRune (0x10000 + (hi - 0xD800) * 1024 + (lo - 0xDC00)) ++ ·) := by
  have g1 := getu4_hex4 a b c d (92 :: 117 :: a2 :: b2 :: c2 :: d2 :: X)
  have g2 := getu4_hex4 a2 b2 c2 d2 X
  rw [hhi] at g1
  rw [hlo] at g2
  have hs : 0xD800 ≤ hi ∧ hi < 0xE000 := by omega
  have hd : utf16DecodeRune hi (some lo) = 0x10000 + (hi - 0xD800) * 1024 + (lo - 0xDC00) := by
    have : 0xD800 ≤ hi ∧ hi < 0xDC00 ∧ 0xDC00 ≤ lo ∧ lo < 0xE000 := ⟨h1, h2, h3, h4⟩
    simp only [utf16DecodeRune, this, and_self, if_true]
    omega
  have hne : 0x10000 + (hi - 0xD800) * 1024 + (lo - 0xDC00) ≠ RuneError := by
    simp only [RuneError]; omega
  rw [unquoteFrom]
  simp only [if_true]
  simp only [g1, hs, and_self, if_true, List.drop, g2, hd, hne, ne_eq, not_false_eq_true]
  simp [unquoteFrom]

/-- The decoder's unquoting of an escaped string is the text it stands for. -/
theorem unquoteFrom_escaped (raw s : Bytes) (h : Escaped raw s) : unquoteFrom 0 raw = some s := by
  induction h with
  | nil => rfl
  | char n raw s hv h1 h2 h3 _ ih =>
    by_cases hn : n < 0x80
    · rw [encodeRune_ascii n hn]
      simp only [List.singleton_append]
      rw [unquoteFrom_plain n raw h1 hn h2 h3, ih]
      rfl
    · obtain ⟨b, chunk, he, hb, -⟩ := encodeRune_high n hv (by omega)
      have hd := decodeRune_encodeRune n raw hv
      rw [he] at hd
      have := unquoteFrom_rune b chunk raw n hb (by simpa using hd)
      rw [he, List.cons_append, this, ih, ← he]
      rfl
  | short e c raw s hm _ ih =>
    simp only [shortEscapes, List.mem_cons, Prod.mk.injEq, List.mem_singleton, List.mem_nil_iff,
      or_false] at hm
    rcases hm with h | h | h | h | h | h | h | h <;> obtain ⟨rfl, rfl⟩ := h <;> simp [unquoteFrom, ih]
  | unicode a b c d n raw s hn hv _ ih =>
    have hs : ¬ (0xD800 ≤ n ∧ n < 0xE000) := by unfold isScalar at hv; omega
    rw [unquoteFrom_u4 a b c d n raw (by rw [getu4_hex4]; exact hn) hs, ih]
    rfl
  | pair a b c d a2 b2 c2 d2 hi lo raw s hhi hlo h1 h2 h3 h4 _ ih =>
    rw [unquoteFrom_pair a b c d a2 b2 c2 d2 hi lo raw hhi hlo h1 h2 h3 h4, ih]
    rfl

/-- Only well-formed UTF-8 has an escaping. -/
theorem utf8Valid_of_escaped (raw s : Bytes) (h : Escaped raw s) : utf8Valid s = true := by
  unfold utf8Valid
  induction h with
  | nil => rfl
  | char n raw s hv _ _ _ _ ih => rw [validFrom_encodeRune n s hv]; exact ih
  | short e c raw s hm _ ih =>
    simp only [shortEscapes, List.mem_cons, Prod.mk.injEq, List.mem_singleton, List.mem_nil_iff,
      or_false] at hm
    have hc : c < 0x80 := by omega
    have := validFrom_encodeRune c s (Or.inl (by omega))
    rw [encodeRune_ascii c hc] at this
    rw [← ih]
    exact this
  | unicode a b c d n raw s _ hv _ ih => rw [validFrom_encodeRune n s hv]; exact ih
  | pair a b c d a2 b2 c2 d2 hi lo raw s _ _ h1 h2 h3 h4 _ ih =>
    rw [validFrom_encodeRune _ s (Or.inr (by omega))]
    exact ih

/-- A JSON string literal is read as the text it stands for, at any nesting depth and
whatever follows it. -/
theorem parseValue_escaped (d : Nat) (raw s rest : Bytes) (h : Escaped raw s) :
    parseValue d (([34] ++ raw ++ [34]) ++ rest) = .ok (.string s, rest) := by
  have h1 : ([34] ++ raw ++ [34]) ++ rest = 34 :: (raw ++ 34 :: rest) := by simp
  have h2 := scanString_escaped raw s h rest
  have h3 := unquoteFrom_escaped raw s h
  cases d <;> simp [parseValue, h1, skipSpace, isSpace, parseScalar, h2, unquote, h3]

/-- Text without the quote, the backslash, control characters and bytes past 0x7F is its own
escaping. -/
theorem escaped_of_plain (p : Bytes) (hp : ∀ c ∈ p, 0x20 ≤ c ∧ c < 0x80 ∧ c ≠ 34 ∧ c ≠ 92) :
    Escaped p p := by
  induction p with
  | nil => exact Escaped.nil
  | cons c p ih =>
    have hc := hp c (by simp)
    have := Escaped.char c p p (Or.inl (by omega)) hc.1 hc.2.2.1 hc.2.2.2
      (ih (fun d hd => hp d (by simp [hd])))
    rwa [encodeRune_ascii c hc.2.1] at this

theorem decodeRune_scalar (b : Nat) (rest : Bytes) (hb : 0x80 ≤ b)
    (hne : decodeRune (b :: rest) ≠ (RuneError, 1)) :
    isScalar (decodeRune (b :: rest)).1 ∧ 0x80 ≤ (decodeRune (b :: rest)).1 := by
  unfold isScalar
  rcases decodeRune_cons_cases b rest with h | h | h | h | h
  · omega
  · exact absurd h.2 hne
  · obtain ⟨b1, t, -, h1, h2, h3, h4, hd⟩ := h
    rw [hd]
    simp only
    omega
  · obtain ⟨b1, b2, t, -, h1, h2, h3, h4, h5, h6, hd⟩ := h
    rw [hd]
    simp only
    split_ifs at h3 h4 <;> omega
  · obtain ⟨b1, b2, b3, t, -, h1, h2, h3, h4, h5, h6, h7, h8, hd⟩ := h
    rw [hd]
    simp only
    split_ifs at h3 h4 <;> omega

theorem escaped_escapeByte (b : Nat) (raw s : Bytes) (hb : b < 0x80) (h : Escaped raw s) :
    Escaped (escapeByte b ++ raw) (b :: s) := by
  unfold escapeByte
  by_cases h1 : b = 92
  · subst h1; exact Escaped.short 92 92 raw s (by decide) h
  by_cases h1b : b = 34
  · subst h1b; exact Escaped.short 34 34 raw s (by decide) h
  by_cases h2 : b = 8
  · subst h2; exact Escaped.short 98 8 raw s (by decide) h
  by_cases h3 : b = 12
  · subst h3; exact Escaped.short 102 12 raw s (by decide) h
  by_cases h4 : b = 10
  · subst h4; exact Escaped.short 110 10 raw s (by decide) h
  by_cases h5 : b = 13
  · subst h5; exact Escaped.short 114 13 raw s (by decide) h
  by_cases h6 : b = 9
  · subst h6; exact Escaped.short 116 9 raw s (by decide) h
  have h0 : ¬ (b = 92 ∨ b = 34) := by omega
  simp only [h0, h2, h3, h4, h5, h6, if_false]
  have hg : hex4 48 48 (hexDigit (b / 16)) (hexDigit (b % 16)) = some b := by
    rw [← getu4_hex4 48 48 _ _ []]
    exact getu4_00 b [] hb
  have := Escaped.unicode 48 48 (hexDigit (b / 16)) (hexDigit (b % 16)) b raw s hg
    (Or.inl (by omega)) h
  rwa [encodeRune_ascii b hb] at this

/-- What `appendString` writes between the quotes for a well-formed UTF-8 string is an escaping
of that string: every such string has at least this JSON spelling. -/
theorem escaped_appendStringFrom (s : Bytes) :
    ∀ k, validFrom k s = true → Escaped (appendStringFrom k s) (s.drop k) := by
  induction s with
  | nil => intro k _; cases k <;> exact Escaped.nil
  | cons b rest ih =>
    intro k hv
    cases k with
    | succ k => simpa [appendStringFrom] using ih k (by simpa [validFrom] using hv)
    | zero =>
      by_cases hb : b < 0x80
      · have hd := decodeRune_ascii b rest hb
        have hne : ¬ (b = RuneError) := by simp [RuneError]; omega
        simp only [validFrom, hd, hne, false_and, if_false, Nat.sub_self] at hv
        have ih0 := ih 0 hv
        simp only [List.drop_zero] at ih0 ⊢
        simp only [appendStringFrom, hb, if_true]
        by_cases hs : htmlSafe b = true
        · have hs2 := (htmlSafe_iff b).1 hs
          simp only [hs, if_true]
          have := Escaped.char b _ _ (Or.inl (by omega)) hs2.1 hs2.2.2.1 hs2.2.2.2.1 ih0
          rwa [encodeRune_ascii b hb] at this
        · have hs3 : htmlSafe b = false := by simpa using hs
          simp only [hs3, Bool.false_eq_true, if_false]
          exact escaped_escapeByte b _ _ hb ih0
      · have hb2 : 0x80 ≤ b := by omega
        rcases rune_cases b rest hb2 with hd | ⟨chunk, t, hrest, hlen, hsize, hX, henc, -⟩
        · simp [validFrom, hd] at hv
        · have hne : ¬ ((decodeRune (b :: rest)).1 = RuneError ∧ (decodeRune (b :: rest)).2 = 1)
              := by omega
          have hne2 : decodeRune (b :: rest) ≠ (RuneError, 1) := by
            intro hc
            have := congrArg Prod.snd hc
            simp only at this
            omega
          obtain ⟨hsc, hhi⟩ := decodeRune_scalar b rest hb2 hne2
          have htake : (b :: rest).take (chunk.length + 1) = b :: chunk := by
            simp [hrest]
          simp only [validFrom, hne, if_false] at hv
          simp only [hsize, Nat.add_sub_cancel] at hv
          have ihc := ih chunk.length hv
          have hdrop : rest.drop chunk.length = t := by simp [hrest]
          rw [hdrop] at ihc
          have hgoal : (b :: rest).drop 0 = encodeRune (decodeRune (b :: rest)).1 ++ t := by
            rw [henc, hrest]
            rfl
          rw [hgoal]
          simp only [appendStringFrom, hb, hne, if_false]
          simp only [hsize, Nat.add_sub_cancel, htake]
          by_cases h2 : (decodeRune (b :: rest)).1 = 0x2028 ∨ (decodeRune (b :: rest)).1 = 0x2029
          · simp only [h2, if_true]
            refine Escaped.unicode 50 48 50 _ _ _ _ ?_ hsc ihc
            rcases h2 with h2 | h2 <;> rw [h2] <;> rfl
          · simp only [h2, if_false]
            rw [← henc]
            exact Escaped.char _ _ _ hsc (by omega) (by omega) (by omega) ihc

theorem escaped_appendString (s : Bytes) (h : utf8Valid s = true) :
    Escaped (appendStringFrom 0 s) s := by
  simpa using escaped_appendStringFrom s 0 h

/-! ### The balance object -/

theorem plain_balance : ∀ c ∈ str "balance", 0x20 ≤ c ∧ c < 0x80 ∧ c ≠ 34 ∧ c ≠ 92 := by decide
theorem plain_expires_at :
    ∀ c ∈ str "expires_at", 0x20 ≤ c ∧ c < 0x80 ∧ c ≠ 34 ∧ c ≠ 92 := by decide
theorem plain_updated_at :
    ∀ c ∈ str "updated_at", 0x20 ≤ c ∧ c < 0x80 ∧ c ≠ 34 ∧ c ≠ 92 := by decide

theorem BalanceResponse.setField_balance (v : JVal) (r : BalanceResponse) :
    BalanceResponse.setField (str "balance") v r
      = ({ r with Balance := (storeInt v r.Balance).1 }, (storeInt v r.Balance).2) := rfl
theorem BalanceResponse.setField_expires_at (v : JVal) (r : BalanceResponse) :
    BalanceResponse.setField (str "expires_at") v r
      = ({ r with ExpiresAt := (storeString v r.ExpiresAt).1 },
          (storeString v r.ExpiresAt).2) := rfl
theorem BalanceResponse.setField_updated_at (v : JVal) (r : BalanceResponse) :
    BalanceResponse.setField (str "updated_at") v r
      = ({ r with UpdatedAt := (storeString v r.UpdatedAt).1 },
          (storeString v r.UpdatedAt).2) := rfl

theorem parse_balanceBody (b : Int) (le lu e u : Bytes) (hle : Escaped le e)
    (hlu : Escaped lu u) (d : Nat) (rest : Bytes) :
    parseValue (d + 1) (balanceBody b le lu ++ rest)
      = .ok (.object [(str "balance", .number (formatInt b)),
          (str "expires_at", .string e), (str "updated_at", .string u)], rest) := by
  have key := parseValue_encodeObject d rest
    [(str "balance", formatInt b, .number (formatInt b)),
      (str "expires_at", [34] ++ le ++ [34], .string e),
      (str "updated_at", [34] ++ lu ++ [34], .string u)]
    (by
      intro m hm
      simp at hm
      rcases hm with rfl | rfl | rfl
      · exact plain_balance
      · exact plain_expires_at
      · exact plain_updated_at)
    (by
      intro m hm c X hc
      simp only [List.mem_cons, List.mem_singleton, List.mem_nil_iff, or_false] at hm
      rcases hm with rfl | rfl | rfl
      · exact parseValue_formatInt d b c X hc
      · exact parseValue_escaped d le e _ hle
      · exact parseValue_escaped d lu u _ hlu)
  simpa [balanceBody] using key

theorem overflowInt_of_range (b : Int) (hb1 : -2 ^ 63 ≤ b) (hb2 : b < 2 ^ 63) :
    overflowInt b = false := by
  simp only [overflowInt, intSize, Bool.or_eq_false_iff, decide_eq_false_iff_not]
  norm_num
  exact ⟨hb1, hb2⟩

/-- Decoding the balance object into a `BalanceResponse`. -/
theorem decode_balanceBody (b : Int) (le lu e u : Bytes) (hb1 : -2 ^ 63 ≤ b) (hb2 : b < 2 ^ 63)
    (hle : Escaped le e) (hlu : Escaped lu u) :
    decode (storeStruct BalanceResponse.setField) ⟨balanceBody b le lu, none⟩ ⟨0, [], []⟩
      = (⟨b, e, u⟩, none) := by
  have hp := parse_balanceBody b le lu e u hle hlu 9999 []
  rw [List.append_nil] at hp
  have hp2 : parseValue maxNestingDepth (balanceBody b le lu) = _ := hp
  simp [decode, readValue, hp2, JVal.isContainer, storeStruct,
    BalanceResponse.setField_balance, BalanceResponse.setField_expires_at,
    BalanceResponse.setField_updated_at, storeInt, storeString,
    parseInt64_formatInt b hb1 hb2, overflowInt_of_range b hb1 hb2]

/-- C9 (amended). For every integer `b` in the signed 64-bit range and every two strings `e`
and `u` that are well-formed UTF-8, `CheckBalance` against a transport that returns (with
whatever status code and headers) the body `{"balance":b,"expires_at":"le","updated_at":"lu"}`,
`b` written in decimal and `le`, `lu` any JSON escapings of `e` and `u`, returns a nil error
and the `BalanceResponse` with `Balance = b`, `ExpiresAt = e` and `UpdatedAt = u`. One such
escaping always exists: the one `encoding/json` itself writes. -/
theorem C9_balance_decoded (k s : Bytes) (sent : List Request) (status : Nat) (hdr : Header)
    (b : Int) (e u : Bytes) (hb1 : -2 ^ 63 ≤ b) (hb2 : b < 2 ^ 63)
    (he : utf8Valid e = true) (hu : utf8Valid u = true) :
    (Escaped (appendStringFrom 0 e) e ∧ Escaped (appendStringFrom 0 u) u) ∧
    ∀ le lu : Bytes, Escaped le e → Escaped lu u →
      (CheckBalance
        (NewClient (HTTPClient.always ⟨status, hdr, ⟨balanceBody b le lu, none⟩⟩) k s)
        sent).1 = (some ⟨b, e, u⟩, none) := by
  refine ⟨⟨escaped_appendString e he, escaped_appendString u hu⟩, ?_⟩
  intro le lu hle hlu
  rw [CheckBalance_eq]
  exact outcome_ok _ _ ⟨status, hdr, ⟨balanceBody b le lu, none⟩⟩ _
    (decode_balanceBody b le lu e u hb1 hb2 hle hlu)

set_option maxRecDepth 100000 in
/-- Witness of C9, the scenario of the specification: key `k`, secret `s`, and the body
`{"balance":100,"expires_at":"2024-01-01","updated_at":"2024-01-01"}`. -/
theorem C9_witness :
    (-2 ^ 63 ≤ (100 : Int) ∧ (100 : Int) < 2 ^ 63 ∧ utf8Valid (str "2024-01-01") = true) ∧
    CheckBalance
      (NewClient (HTTPClient.always ⟨200, [],
        ⟨str "\x7b\"balance\":100,\"expires_at\":\"2024-01-01\",\"updated_at\":\"2024-01-01\"\x7d",
          none⟩⟩) (str "k") (str "s")) []
      = ((some ⟨100, str "2024-01-01", str "2024-01-01"⟩, none),
        [⟨str "GET", str "https://api.sendtext.sn/v1/balance",
          [(str "Snt-Api-Secret", [str "s"]), (str "Snt-Api-Key", [str "k"]),
            (str "Content-Type", [str "application/json"])], none⟩]) := by
  have hplain : Escaped (str "2024-01-01") (str "2024-01-01") :=
    escaped_of_plain _ (by decide)
  have h := (C9_balance_decoded (str "k") (str "s") [] 200 [] 100 (str "2024-01-01")
    (str "2024-01-01") (by decide) (by decide) (by decide) (by decide)).2
    (str "2024-01-01") (str "2024-01-01") hplain hplain
  have hbody : balanceBody 100 (str "2024-01-01") (str "2024-01-01")
      = str "\x7b\"balance\":100,\"expires_at\":\"2024-01-01\",\"updated_at\":\"2024-01-01\"\x7d" := by
    decide
  rw [hbody] at h
  exact ⟨⟨by decide, by decide, by decide⟩, Prod.ext h rfl⟩

set_option maxRecDepth 100000 in
/-- Counterexample to C9 as stated: `b = 0`, `u` empty and `e` the one-byte Go string
`"\xff"`, which is not well-formed UTF-8. Whether the body carries that byte as it is between
the quotes, `{"balance":0,"expires_at":"\xff","updated_at":""}`, or as `encoding/json` writes
it, `{"balance":0,"expires_at":"\ufffd","updated_at":""}`, `CheckBalance` returns a nil error
and `ExpiresAt` equal to the three bytes of U+FFFD, not to `e`. -/
theorem C9_counterexample :
    (-2 ^ 63 ≤ (0 : Int) ∧ (0 : Int) < 2 ^ 63) ∧
    balanceBody 0 [255] []
      = str "\x7b\"balance\":0,\"expires_at\":\"" ++ [255] ++ str "\",\"updated_at\":\"\"\x7d" ∧
    (CheckBalance
      (NewClient (HTTPClient.always ⟨200, [], ⟨balanceBody 0 [255] [], none⟩⟩)
        (str "k") (str "s")) []).1
      = (some ⟨0, [239, 191, 189], []⟩, none) ∧
    [34] ++ appendStringFrom 0 [255] ++ [34] = appendString [255] ∧
    balanceBody 0 (appendStringFrom 0 [255]) []
      = str "\x7b\"balance\":0,\"expires_at\":\"\\ufffd\",\"updated_at\":\"\"\x7d" ∧
    (CheckBalance
      (NewClient (HTTPClient.always ⟨200, [],
        ⟨balanceBody 0 (appendStringFrom 0 [255]) [], none⟩⟩) (str "k") (str "s")) []).1
      = (some ⟨0, [239, 191, 189], []⟩, none) ∧
    ([239, 191, 189] : Bytes) ≠ [255] :=
  ⟨⟨by decide, by decide⟩, by decide, rfl, rfl, by decide, rfl, by decide⟩

/-! ## What the scanner reads depends only on what it consumes -/

theorem skipSpace_decomp (inp : Bytes) :
    ∃ sp, inp = sp ++ skipSpace inp ∧ ∀ X, skipSpace (sp ++ X) = skipSpace X := by
  induction inp with
  | nil => exact ⟨[], rfl, fun _ => rfl⟩
  | cons c cs ih =>
    by_cases h : isSpace c = true
    · obtain ⟨sp, h1, h2⟩ := ih
      refine ⟨c :: sp, ?_, ?_⟩
      · simp only [skipSpace, h, if_true, List.cons_append]
        rw [← h1]
      · intro X
        simp only [List.cons_append, skipSpace, h, if_true]
        exact h2 X
    · exact ⟨[], by simp [skipSpace, h], fun _ => rfl⟩

theorem skipSpace_head (inp : Bytes) (c : Nat) (r : Bytes) (h : skipSpace inp = c :: r) :
    isSpace c = false := by
  induction inp with
  | nil => simp [skipSpace] at h
  | cons d ds ih =>
    by_cases hd : isSpace d = true
    · simp only [skipSpace, hd, if_true] at h
      exact ih h
    · simp only [skipSpace, hd] at h
      simp at h
      rw [← h.1]
      simpa using hd

theorem skipSpace_cons_of_not_space (c : Nat) (Y : Bytes) (h : isSpace c = false) :
    skipSpace (c :: Y) = c :: Y := by
  simp [skipSpace, h]

theorem Scan.cons_eq_ok (c : Nat) (s : Scan Bytes) (raw rest : Bytes)
    (h : Scan.cons c s = .ok (raw, rest)) :
    ∃ raw2, s = .ok (raw2, rest) ∧ raw = c :: raw2 := by
  cases s with
  | error e => simp [Scan.cons] at h
  | ok p =>
    obtain ⟨a, b⟩ := p
    simp only [Scan.cons, Except.ok.injEq, Prod.mk.injEq] at h
    exact ⟨a, by rw [h.2], h.1.symm⟩

theorem scanString_local (inp : Bytes) :
    ∀ st raw rest, scanString st inp = .ok (raw, rest) →
      ∃ p, inp = p ++ rest ∧ ∀ Y, scanString st (p ++ Y) = .ok (raw, Y) := by
  induction inp with
  | nil => intro st raw rest h; cases st <;> simp [scanString] at h
  | cons c cs ih =>
    intro st raw rest h
    have step : ∀ st2 rawx, scanString st2 cs = .ok (rawx, rest) → raw = c :: rawx →
        (∀ Y, scanString st (c :: Y) = Scan.cons c (scanString st2 Y)) →
        ∃ p, c :: cs = p ++ rest ∧ ∀ Y, scanString st (p ++ Y) = .ok (raw, Y) := by
      intro st2 rawx h2 hraw hst
      obtain ⟨p, hp, hY⟩ := ih st2 rawx rest h2
      refine ⟨c :: p, by rw [hp]; rfl, ?_⟩
      intro Y
      rw [List.cons_append, hst, hY, hraw]
      rfl
    cases st with
    | inString =>
      by_cases h1 : c = 34
      · simp only [scanString, h1, if_true, Except.ok.injEq, Prod.mk.injEq] at h
        refine ⟨[c], by simp [h.2], ?_⟩
        intro Y
        simp [scanString, h1, h.1]
      by_cases h2 : c = 92
      · simp only [scanString, h1, h2, if_true, if_false] at h
        obtain ⟨rawx, g1, g2⟩ := Scan.cons_eq_ok _ _ _ _ h
        exact step _ rawx g1 (by rw [g2, h2]) (by intro Y; simp [scanString, h2])
      by_cases h3 : c < 0x20
      · simp [scanString, h1, h2, h3] at h
      · simp only [scanString, h1, h2, h3, if_false] at h
        obtain ⟨rawx, g1, g2⟩ := Scan.cons_eq_ok _ _ _ _ h
        exact step _ rawx g1 g2 (by intro Y; simp only [scanString, h1, h2, h3, if_false])
    | inStringEsc =>
      by_cases h1 : c = 98 ∨ c = 102 ∨ c = 110 ∨ c = 114 ∨ c = 116 ∨ c = 92 ∨ c = 47 ∨ c = 34
      · simp only [scanString, h1, if_true] at h
        obtain ⟨rawx, g1, g2⟩ := Scan.cons_eq_ok _ _ _ _ h
        exact step _ rawx g1 g2 (by intro Y; simp only [scanString, h1, if_true])
      by_cases h2 : c = 117
      · subst h2
        simp [scanString] at h
        obtain ⟨rawx, g1, g2⟩ := Scan.cons_eq_ok _ _ _ _ h
        exact step _ rawx g1 g2 (by intro Y; simp [scanString])
      · simp [scanString, h1, h2] at h
    | inStringEscU =>
      by_cases h1 : isHex c = true
      · simp only [scanString, h1, if_true] at h
        obtain ⟨rawx, g1, g2⟩ := Scan.cons_eq_ok _ _ _ _ h
        exact step _ rawx g1 g2 (by intro Y; simp only [scanString, h1, if_true])
      · simp [scanString, h1] at h
    | inStringEscU1 =>
      by_cases h1 : isHex c = true
      · simp only [scanString, h1, if_true] at h
        obtain ⟨rawx, g1, g2⟩ := Scan.cons_eq_ok _ _ _ _ h
        exact step _ rawx g1 g2 (by intro Y; simp only [scanString, h1, if_true])
      · simp [scanString, h1] at h
    | inStringEscU12 =>
      by_cases h1 : isHex c = true
      · simp only [scanString, h1, if_true] at h
        obtain ⟨rawx, g1, g2⟩ := Scan.cons_eq_ok _ _ _ _ h
        exact step _ rawx g1 g2 (by intro Y; simp only [scanString, h1, if_true])
      · simp [scanString, h1] at h
    | inStringEscU123 =>
      by_cases h1 : isHex c = true
      · simp only [scanString, h1, if_true] at h
        obtain ⟨rawx, g1, g2⟩ := Scan.cons_eq_ok _ _ _ _ h
        exact step _ rawx g1 g2 (by intro Y; simp only [scanString, h1, if_true])
      · simp [scanString, h1] at h

theorem scanLiteral_local (es : Bytes) :
    ∀ inp rest, scanLiteral es inp = .ok rest →
      ∃ p, inp = p ++ rest ∧ ∀ Y, scanLiteral es (p ++ Y) = .ok Y := by
  induction es with
  | nil =>
    intro inp rest h
    simp only [scanLiteral, Except.ok.injEq] at h
    exact ⟨[], by simp [h], fun Y => by simp [scanLiteral]⟩
  | cons e es ih =>
    intro inp rest h
    cases inp with
    | nil => simp [scanLiteral] at h
    | cons c cs =>
      by_cases hc : c = e
      · simp only [scanLiteral, hc, if_true] at h
        obtain ⟨p, hp, hY⟩ := ih cs rest h
        exact ⟨c :: p, by rw [hp]; rfl, fun Y => by simp [scanLiteral, hc, hY]⟩
      · simp [scanLiteral, hc] at h

theorem scanNumber_local (inp : Bytes) :
    ∀ st lit rest, scanNumber st inp = .ok (lit, rest) →
      inp = lit ++ rest ∧
      ∀ Y, (Y = [] ∨ Y.head? = rest.head?) → scanNumber st (lit ++ Y) = .ok (lit, Y) := by
  induction inp with
  | nil =>
    intro st lit rest h
    cases st <;> simp [scanNumber] at h <;>
    · obtain ⟨rfl, rfl⟩ := h
      refine ⟨rfl, ?_⟩
      intro Y hY
      have : Y = [] := by
        rcases hY with hY | hY
        · exact hY
        · cases Y with
          | nil => rfl
          | cons y ys => simp at hY
      subst this
      simp [scanNumber]
  | cons c cs ih =>
    intro st lit rest h
    have step : ∀ st2 litx, scanNumber st2 cs = .ok (litx, rest) → lit = c :: litx →
        (∀ Y, scanNumber st (c :: Y) = Scan.cons c (scanNumber st2 Y)) →
        c :: cs = lit ++ rest ∧
        ∀ Y, (Y = [] ∨ Y.head? = rest.head?) → scanNumber st (lit ++ Y) = .ok (lit, Y) := by
      intro st2 litx h2 hlit hst
      obtain ⟨hp, hY⟩ := ih st2 litx rest h2
      refine ⟨by rw [hlit, hp]; rfl, ?_⟩
      intro Y hcond
      rw [hlit, List.cons_append, hst, hY Y hcond]
      rfl
    have stop : ([] : Bytes) = lit → c :: cs = rest →
        (∀ Y, scanNumber st (c :: Y) = .ok ([], c :: Y)) → scanNumber st [] = .ok ([], []) →
        c :: cs = lit ++ rest ∧
        ∀ Y, (Y = [] ∨ Y.head? = rest.head?) → scanNumber st (lit ++ Y) = .ok (lit, Y) := by
      intro hlit hrest hst hnil
      subst hlit
      subst hrest
      refine ⟨rfl, ?_⟩
      intro Y hcond
      cases Y with
      | nil => simpa using hnil
      | cons y ys =>
        have : y = c := by
          rcases hcond with hcond | hcond
          · simp at hcond
          · simpa using hcond
        subst this
        simpa using hst ys
    cases st with
    | neg =>
      by_cases h1 : c = 48
      · subst h1
        simp [scanNumber] at h
        obtain ⟨litx, g1, g2⟩ := Scan.cons_eq_ok _ _ _ _ h
        exact step _ litx g1 g2 (by intro Y; simp [scanNumber])
      by_cases h2 : 49 ≤ c ∧ c ≤ 57
      · simp [scanNumber, h1, h2, if_true, if_false, and_self] at h
        obtain ⟨litx, g1, g2⟩ := Scan.cons_eq_ok _ _ _ _ h
        exact step _ litx g1 g2
          (by intro Y; simp [scanNumber, h1, h2, if_true, if_false, and_self])
      · simp [scanNumber, h1, h2] at h
    | int =>
      by_cases h1 : isDigit c = true
      · simp [scanNumber, h1, if_true] at h
        obtain ⟨litx, g1, g2⟩ := Scan.cons_eq_ok _ _ _ _ h
        exact step _ litx g1 g2 (by intro Y; simp [scanNumber, h1, if_true])
      by_cases h2 : c = 46
      · subst h2
        simp [scanNumber, isDigit] at h
        obtain ⟨litx, g1, g2⟩ := Scan.cons_eq_ok _ _ _ _ h
        exact step _ litx g1 g2 (by intro Y; simp [scanNumber, isDigit])
      by_cases h3 : c = 101 ∨ c = 69
      · simp [scanNumber, h1, h2, h3, if_true, if_false] at h
        obtain ⟨litx, g1, g2⟩ := Scan.cons_eq_ok _ _ _ _ h
        exact step _ litx g1 g2
          (by intro Y; simp [scanNumber, h1, h2, h3, if_true, if_false])
      · simp [scanNumber, h1, h2, h3, if_false] at h
        exact stop h.1.symm h.2 (by intro Y; simp [scanNumber, h1, h2, h3, if_false])
          (by simp [scanNumber])
    | zero =>
      by_cases h2 : c = 46
      · subst h2
        simp [scanNumber] at h
        obtain ⟨litx, g1, g2⟩ := Scan.cons_eq_ok _ _ _ _ h
        exact step _ litx g1 g2 (by intro Y; simp [scanNumber])
      by_cases h3 : c = 101 ∨ c = 69
      · simp [scanNumber, h2, h3, if_true, if_false] at h
        obtain ⟨litx, g1, g2⟩ := Scan.cons_eq_ok _ _ _ _ h
        exact step _ litx g1 g2 (by intro Y; simp [scanNumber, h2, h3, if_true, if_false])
      · simp [scanNumber, h2, h3, if_false] at h
        exact stop h.1.symm h.2 (by intro Y; simp [scanNumber, h2, h3, if_false])
          (by simp [scanNumber])
    | dot =>
      by_cases h1 : isDigit c = true
      · simp [scanNumber, h1, if_true] at h
        obtain ⟨litx, g1, g2⟩ := Scan.cons_eq_ok _ _ _ _ h
        exact step _ litx g1 g2 (by intro Y; simp [scanNumber, h1, if_true])
      · simp [scanNumber, h1] at h
    | dot0 =>
      by_cases h1 : isDigit c = true
      · simp [scanNumber, h1, if_true] at h
        obtain ⟨litx, g1, g2⟩ := Scan.cons_eq_ok _ _ _ _ h
        exact step _ litx g1 g2 (by intro Y; simp [scanNumber, h1, if_true])
      by_cases h3 : c = 101 ∨ c = 69
      · simp [scanNumber, h1, h3, if_true, if_false] at h
        obtain ⟨litx, g1, g2⟩ := Scan.cons_eq_ok _ _ _ _ h
        exact step _ litx g1 g2 (by intro Y; simp [scanNumber, h1, h3, if_true, if_false])
      · simp [scanNumber, h1, h3, if_false] at h
        exact stop h.1.symm h.2 (by intro Y; simp [scanNumber, h1, h3, if_false])
          (by simp [scanNumber])
    | exp =>
      by_cases h1 : c = 43 ∨ c = 45
      · simp [scanNumber, h1, if_true] at h
        obtain ⟨litx, g1, g2⟩ := Scan.cons_eq_ok _ _ _ _ h
        exact step _ litx g1 g2 (by intro Y; simp [scanNumber, h1, if_true])
      by_cases h2 : isDigit c = true
      · simp [scanNumber, h1, h2, if_true, if_false] at h
        obtain ⟨litx, g1, g2⟩ := Scan.cons_eq_ok _ _ _ _ h
        exact step _ litx g1 g2 (by intro Y; simp [scanNumber, h1, h2, if_true, if_false])
      · simp [scanNumber, h1, h2] at h
    | expSign =>
      by_cases h1 : isDigit c = true
      · simp [scanNumber, h1, if_true] at h
        obtain ⟨litx, g1, g2⟩ := Scan.cons_eq_ok _ _ _ _ h
        exact step _ litx g1 g2 (by intro Y; simp [scanNumber, h1, if_true])
      · simp [scanNumber, h1] at h
    | exp0 =>
      by_cases h1 : isDigit c = true
      · simp [scanNumber, h1, if_true] at h
        obtain ⟨litx, g1, g2⟩ := Scan.cons_eq_ok _ _ _ _ h
        exact step _ litx g1 g2 (by intro Y; simp [scanNumber, h1, if_true])
      · simp [scanNumber, h1, if_false] at h
        exact stop h.1.symm h.2 (by intro Y; simp [scanNumber, h1, if_false])
          (by simp [scanNumber])

theorem parseScalar_local (c : Nat) (tl : Bytes) (v : JVal) (rest : Bytes)
    (h : parseScalar c tl = .ok (v, rest)) :
    ∃ p, tl = p ++ rest ∧
      ∀ Y, (Y = [] ∨ Y.head? = rest.head?) → parseScalar c (p ++ Y) = .ok (v, Y) := by
  unfold parseScalar at h
  by_cases h1 : c = 34
  · simp only [h1, if_true] at h
    cases hs : scanString .inString tl with
    | error e => simp [hs] at h
    | ok pr =>
      obtain ⟨raw, rest2⟩ := pr
      simp only [hs] at h
      cases hu : unquote raw with
      | none => simp [hu] at h
      | some s =>
        simp only [hu, Except.ok.injEq, Prod.mk.injEq] at h
        obtain ⟨p, hp, hY⟩ := scanString_local tl _ _ _ hs
        refine ⟨p, by rw [hp, h.2], ?_⟩
        intro Y _
        simp [parseScalar, h1, hY, hu, h.1]
  by_cases h2 : c = 45
  · cases hs : scanNumber .neg tl with
    | error e => simp [h1, h2, hs] at h
    | ok pr =>
      obtain ⟨lit, rest2⟩ := pr
      simp [h1, h2, hs] at h
      obtain ⟨hp, hY⟩ := scanNumber_local tl _ _ _ hs
      refine ⟨lit, by rw [hp, h.2], ?_⟩
      intro Y hcond
      rw [← h.2] at hcond
      simp [parseScalar, h1, h2, hY Y hcond, h.1]
  by_cases h3 : c = 48
  · cases hs : scanNumber .zero tl with
    | error e => simp [h1, h2, h3, hs] at h
    | ok pr =>
      obtain ⟨lit, rest2⟩ := pr
      simp [h1, h2, h3, hs] at h
      obtain ⟨hp, hY⟩ := scanNumber_local tl _ _ _ hs
      refine ⟨lit, by rw [hp, h.2], ?_⟩
      intro Y hcond
      rw [← h.2] at hcond
      simp [parseScalar, h1, h2, h3, hY Y hcond, h.1]
  by_cases h4 : 49 ≤ c ∧ c ≤ 57
  · cases hs : scanNumber .int tl with
    | error e => simp [h1, h2, h3, h4, hs] at h
    | ok pr =>
      obtain ⟨lit, rest2⟩ := pr
      simp [h1, h2, h3, h4, hs] at h
      obtain ⟨hp, hY⟩ := scanNumber_local tl _ _ _ hs
      refine ⟨lit, by rw [hp, h.2], ?_⟩
      intro Y hcond
      rw [← h.2] at hcond
      simp [parseScalar, h1, h2, h3, h4, hY Y hcond, h.1]
  by_cases h5 : c = 116
  · cases hs : scanLiteral [114, 117, 101] tl with
    | error e => simp [h1, h2, h3, h4, h5, hs] at h
    | ok rest2 =>
      simp [h1, h2, h3, h4, h5, hs] at h
      obtain ⟨p, hp, hY⟩ := scanLiteral_local _ tl _ hs
      refine ⟨p, by rw [hp, h.2], ?_⟩
      intro Y _
      simp [parseScalar, h1, h2, h3, h4, h5, hY Y, h.1]
  by_cases h6 : c = 102
  · cases hs : scanLiteral [97, 108, 115, 101] tl with
    | error e => simp [h1, h2, h3, h4, h5, h6, hs] at h
    | ok rest2 =>
      simp [h1, h2, h3, h4, h5, h6, hs] at h
      obtain ⟨p, hp, hY⟩ := scanLiteral_local _ tl _ hs
      refine ⟨p, by rw [hp, h.2], ?_⟩
      intro Y _
      simp [parseScalar, h1, h2, h3, h4, h5, h6, hY Y, h.1]
  by_cases h7 : c = 110
  · cases hs : scanLiteral [117, 108, 108] tl with
    | error e => simp [h1, h2, h3, h4, h5, h6, h7, hs] at h
    | ok rest2 =>
      simp [h1, h2, h3, h4, h5, h6, h7, hs] at h
      obtain ⟨p, hp, hY⟩ := scanLiteral_local _ tl _ hs
      refine ⟨p, by rw [hp, h.2], ?_⟩
      intro Y _
      simp [parseScalar, h1, h2, h3, h4, h5, h6, h7, hY Y, h.1]
  · simp [h1, h2, h3, h4, h5, h6, h7] at h

theorem head_append_cons (sp : Bytes) (c : Nat) (A B : Bytes) :
    (sp ++ c :: A).head? = (sp ++ c :: B).head? := by
  cases sp <;> rfl

/-- After a value: white space, then the byte `c`. -/
theorem after_value (rest1 : Bytes) (c : Nat) (rest2 : Bytes)
    (hsk : skipSpace rest1 = c :: rest2) :
    ∃ sp, rest1 = sp ++ c :: rest2 ∧ ∀ X, skipSpace (sp ++ c :: X) = c :: X := by
  obtain ⟨sp, h1, h2⟩ := skipSpace_decomp rest1
  rw [hsk] at h1
  refine ⟨sp, h1, ?_⟩
  intro X
  rw [h2, skipSpace_cons_of_not_space c X (skipSpace_head rest1 c rest2 hsk)]

theorem parseElements_local (pv : Bytes → Scan JVal)
    (hloc : ∀ inp v rest, pv inp = .ok (v, rest) → ∃ p, inp = p ++ rest ∧
      ∀ Y, (Y = [] ∨ Y.head? = rest.head?) → pv (p ++ Y) = .ok (v, Y)) :
    ∀ fuel inp vs rest, parseElements pv fuel inp = .ok (vs, rest) →
      ∃ p, inp = p ++ rest ∧ 1 ≤ p.length ∧
        ∀ Y fuel2, p.length ≤ fuel2 → parseElements pv fuel2 (p ++ Y) = .ok (vs, Y) := by
  intro fuel
  induction fuel with
  | zero => intro inp vs rest h; simp [parseElements] at h
  | succ fuel ih =>
    intro inp vs rest h
    unfold parseElements at h
    cases hpv : pv inp with
    | error e => simp [hpv] at h
    | ok pr =>
      obtain ⟨v, rest1⟩ := pr
      simp only [hpv] at h
      cases hsk : skipSpace rest1 with
      | nil => simp [hsk] at h
      | cons c rest2 =>
        simp only [hsk] at h
        obtain ⟨p1, hp1, hY1⟩ := hloc inp v rest1 hpv
        obtain ⟨sp, hsp, hskip⟩ := after_value rest1 c rest2 hsk
        by_cases hc : c = 44
        · subst hc
          simp only [if_true] at h
          cases hrec : parseElements pv fuel rest2 with
          | error e => simp [hrec] at h
          | ok pr2 =>
            obtain ⟨vs2, rest3⟩ := pr2
            simp only [hrec, Except.ok.injEq, Prod.mk.injEq] at h
            obtain ⟨p2, hp2, -, hY2⟩ := ih rest2 vs2 rest3 hrec
            refine ⟨p1 ++ (sp ++ 44 :: p2), ?_, by simp; omega, ?_⟩
            · rw [hp1, hsp, hp2, h.2]; simp
            · intro Y fuel2 hfuel
              cases fuel2 with
              | zero => simp at hfuel
              | succ fuel2 =>
                have e1 : p1 ++ (sp ++ 44 :: p2) ++ Y = p1 ++ (sp ++ 44 :: (p2 ++ Y)) := by
                  simp
                have e2 := hY1 (sp ++ 44 :: (p2 ++ Y)) (Or.inr (by
                  rw [hsp]; exact head_append_cons sp 44 _ _))
                have e3 := hY2 Y fuel2 (by simp at hfuel; omega)
                rw [e1]
                unfold parseElements
                simp only [e2, hskip, if_true, e3]
                rw [← h.1]
        · by_cases hc2 : c = 93
          · subst hc2
            simp at h
            refine ⟨p1 ++ (sp ++ [93]), ?_, by simp; omega, ?_⟩
            · rw [hp1, hsp, h.2]; simp
            · intro Y fuel2 hfuel
              cases fuel2 with
              | zero => simp at hfuel
              | succ fuel2 =>
                have e1 : p1 ++ (sp ++ [93]) ++ Y = p1 ++ (sp ++ 93 :: Y) := by simp
                have e2 := hY1 (sp ++ 93 :: Y) (Or.inr (by
                  rw [hsp]; exact head_append_cons sp 93 _ _))
                rw [e1]
                unfold parseElements
                simp [e2, hskip, h.1]
          · simp [hc, hc2] at h

theorem parseMembers_local (pv : Bytes → Scan JVal)
    (hloc : ∀ inp v rest, pv inp = .ok (v, rest) → ∃ p, inp = p ++ rest ∧
      ∀ Y, (Y = [] ∨ Y.head? = rest.head?) → pv (p ++ Y) = .ok (v, Y)) :
    ∀ fuel inp ms rest, parseMembers pv fuel inp = .ok (ms, rest) →
      ∃ p, inp = p ++ rest ∧ 1 ≤ p.length ∧
        ∀ Y fuel2, p.length ≤ fuel2 → parseMembers pv fuel2 (p ++ Y) = .ok (ms, Y) := by
  intro fuel
  induction fuel with
  | zero => intro inp ms rest h; simp [parseMembers] at h
  | succ fuel ih =>
    intro inp ms rest h
    unfold parseMembers at h
    cases hsk0 : skipSpace inp with
    | nil => simp [hsk0] at h
    | cons q afterQuote =>
      simp only [hsk0] at h
      by_cases hq : q = 34
      swap
      · simp [hq] at h
      subst hq
      simp only [if_true] at h
      obtain ⟨sp0, hsp0, hskip0⟩ := after_value inp 34 afterQuote hsk0
      cases hstr : scanString .inString afterQuote with
      | error e => simp [hstr] at h
      | ok pr =>
        obtain ⟨raw, rest1⟩ := pr
        simp only [hstr] at h
        obtain ⟨ps, hps, hYs⟩ := scanString_local afterQuote _ _ _ hstr
        cases hu : unquote raw with
        | none => simp [hu] at h
        | some key =>
          simp only [hu] at h
          cases hsk1 : skipSpace rest1 with
          | nil => simp [hsk1] at h
          | cons colon rest2 =>
            simp only [hsk1] at h
            by_cases hcol : colon = 58
            swap
            · simp [hcol] at h
            subst hcol
            simp only [if_true] at h
            obtain ⟨sp1, hsp1, hskip1⟩ := after_value rest1 58 rest2 hsk1
            cases hpv : pv rest2 with
            | error e => simp [hpv] at h
            | ok pr2 =>
              obtain ⟨v, rest3⟩ := pr2
              simp only [hpv] at h
              obtain ⟨pvp, hpvp, hYv⟩ := hloc rest2 v rest3 hpv
              cases hsk2 : skipSpace rest3 with
              | nil => simp [hsk2] at h
              | cons c rest4 =>
                simp only [hsk2] at h
                obtain ⟨sp2, hsp2, hskip2⟩ := after_value rest3 c rest4 hsk2
                by_cases hc : c = 44
                · subst hc
                  simp only [if_true] at h
                  cases hrec : parseMembers pv fuel rest4 with
                  | error e => simp [hrec] at h
                  | ok pr3 =>
                    obtain ⟨ms2, rest5⟩ := pr3
                    simp only [hrec, Except.ok.injEq, Prod.mk.injEq] at h
                    obtain ⟨p2, hp2, -, hY2⟩ := ih rest4 ms2 rest5 hrec
                    refine ⟨sp0 ++ 34 :: (ps ++ (sp1 ++ 58 :: (pvp ++ (sp2 ++ 44 :: p2)))), ?_,
                      by simp; omega, ?_⟩
                    · rw [hsp0, hps, hsp1, hpvp, hsp2, hp2, h.2]; simp
                    · intro Y fuel2 hfuel
                      cases fuel2 with
                      | zero => simp at hfuel
                      | succ fuel2 =>
                        have e1 : sp0 ++ 34 :: (ps ++ (sp1 ++ 58 :: (pvp ++ (sp2 ++ 44 :: p2))))
                            ++ Y = sp0 ++ 34 :: (ps ++ (sp1 ++ 58 ::
                              (pvp ++ (sp2 ++ 44 :: (p2 ++ Y))))) := by simp
                        have e2 := hYv (sp2 ++ 44 :: (p2 ++ Y)) (Or.inr (by
                          rw [hsp2]; exact head_append_cons sp2 44 _ _))
                        have e3 := hY2 Y fuel2 (by simp at hfuel; omega)
                        rw [e1]
                        unfold parseMembers
                        simp only [hskip0, if_true, hYs, hu, hskip1, e2, hskip2, e3]
                        rw [← h.1]
                · by_cases hc2 : c = 125
                  · subst hc2
                    simp at h
                    refine ⟨sp0 ++ 34 :: (ps ++ (sp1 ++ 58 :: (pvp ++ (sp2 ++ [125])))), ?_,
                      by simp; omega, ?_⟩
                    · rw [hsp0, hps, hsp1, hpvp, hsp2, h.2]; simp
                    · intro Y fuel2 hfuel
                      cases fuel2 with
                      | zero => simp at hfuel
                      | succ fuel2 =>
                        have e1 : sp0 ++ 34 :: (ps ++ (sp1 ++ 58 :: (pvp ++ (sp2 ++ [125]))))
                            ++ Y = sp0 ++ 34 :: (ps ++ (sp1 ++ 58 ::
                              (pvp ++ (sp2 ++ 125 :: Y)))) := by simp
                        have e2 := hYv (sp2 ++ 125 :: Y) (Or.inr (by
                          rw [hsp2]; exact head_append_cons sp2 125 _ _))
                        rw [e1]
                        unfold parseMembers
                        simp [hskip0, hYs, hu, hskip1, e2, hskip2, h.1]
                  · simp [hc, hc2] at h

theorem parseArray_local (pv : Bytes → Scan JVal)
    (hloc : ∀ inp v rest, pv inp = .ok (v, rest) → ∃ p, inp = p ++ rest ∧
      ∀ Y, (Y = [] ∨ Y.head? = rest.head?) → pv (p ++ Y) = .ok (v, Y))
    (tl : Bytes) (v : JVal) (rest : Bytes) (h : parseArray pv tl = .ok (v, rest)) :
    ∃ p, tl = p ++ rest ∧ ∀ Y, parseArray pv (p ++ Y) = .ok (v, Y) := by
  unfold parseArray at h
  cases hsk : skipSpace tl with
  | nil => simp [hsk] at h
  | cons c rest2 =>
    simp only [hsk] at h
    obtain ⟨sp, hsp, hskip⟩ := after_value tl c rest2 hsk
    by_cases hc : c = 93
    · subst hc
      simp at h
      refine ⟨sp ++ [93], by rw [hsp, h.2]; simp, ?_⟩
      intro Y
      have e1 : sp ++ [93] ++ Y = sp ++ 93 :: Y := by simp
      rw [e1]
      unfold parseArray
      simp [hskip, h.1]
    · simp only [hc, if_false] at h
      cases hel : parseElements pv tl.length (c :: rest2) with
      | error e => simp [hel] at h
      | ok pr =>
        obtain ⟨vs, rest3⟩ := pr
        simp only [hel, Except.ok.injEq, Prod.mk.injEq] at h
        obtain ⟨pe, hpe, hlen, hY⟩ := parseElements_local pv hloc _ _ _ _ hel
        obtain ⟨pe2, hpe2⟩ : ∃ pe2, pe = c :: pe2 := by
          cases pe with
          | nil => simp at hlen
          | cons x xs =>
            simp at hpe
            exact ⟨xs, by rw [hpe.1]⟩
        refine ⟨sp ++ pe, by rw [hsp, hpe, h.2]; simp, ?_⟩
        intro Y
        have e1 : sp ++ pe ++ Y = sp ++ c :: (pe2 ++ Y) := by simp [hpe2]
        have e2 := hY Y (sp ++ c :: (pe2 ++ Y)).length (by simp [hpe2]; omega)
        rw [hpe2, List.cons_append] at e2
        rw [e1]
        unfold parseArray
        simp only [hskip, hc, if_false, e2]
        rw [← h.1]

theorem parseObject_local (pv : Bytes → Scan JVal)
    (hloc : ∀ inp v rest, pv inp = .ok (v, rest) → ∃ p, inp = p ++ rest ∧
      ∀ Y, (Y = [] ∨ Y.head? = rest.head?) → pv (p ++ Y) = .ok (v, Y))
    (tl : Bytes) (v : JVal) (rest : Bytes) (h : parseObject pv tl = .ok (v, rest)) :
    ∃ p, tl = p ++ rest ∧ ∀ Y, parseObject pv (p ++ Y) = .ok (v, Y) := by
  unfold parseObject at h
  cases hsk : skipSpace tl with
  | nil => simp [hsk] at h
  | cons c rest2 =>
    simp only [hsk] at h
    obtain ⟨sp, hsp, hskip⟩ := after_value tl c rest2 hsk
    by_cases hc : c = 125
    · subst hc
      simp at h
      refine ⟨sp ++ [125], by rw [hsp, h.2]; simp, ?_⟩
      intro Y
      have e1 : sp ++ [125] ++ Y = sp ++ 125 :: Y := by simp
      rw [e1]
      unfold parseObject
      simp [hskip, h.1]
    · simp only [hc, if_false] at h
      cases hel : parseMembers pv tl.length (c :: rest2) with
      | error e => simp [hel] at h
      | ok pr =>
        obtain ⟨ms, rest3⟩ := pr
        simp only [hel, Except.ok.injEq, Prod.mk.injEq] at h
        obtain ⟨pe, hpe, hlen, hY⟩ := parseMembers_local pv hloc _ _ _ _ hel
        obtain ⟨pe2, hpe2⟩ : ∃ pe2, pe = c :: pe2 := by
          cases pe with
          | nil => simp at hlen
          | cons x xs =>
            simp at hpe
            exact ⟨xs, by rw [hpe.1]⟩
        refine ⟨sp ++ pe, by rw [hsp, hpe, h.2]; simp, ?_⟩
        intro Y
        have e1 : sp ++ pe ++ Y = sp ++ c :: (pe2 ++ Y) := by simp [hpe2]
        have e2 := hY Y (sp ++ c :: (pe2 ++ Y)).length (by simp [hpe2]; omega)
        rw [hpe2, List.cons_append] at e2
        rw [e1]
        unfold parseObject
        simp only [hskip, hc, if_false, e2]
        rw [← h.1]

/-- What `parseValue` reads depends only on the bytes it consumes and on the first byte
after them. -/
theorem parseValue_local (d : Nat) :
    ∀ inp v rest, parseValue d inp = .ok (v, rest) → ∃ p, inp = p ++ rest ∧
      ∀ Y, (Y = [] ∨ Y.head? = rest.head?) → parseValue d (p ++ Y) = .ok (v, Y) := by
  induction d with
  | zero =>
    intro inp v rest h
    unfold parseValue at h
    cases hsk : skipSpace inp with
    | nil => simp [hsk] at h
    | cons c rest0 =>
      simp only [hsk] at h
      obtain ⟨sp, hsp, hskip⟩ := after_value inp c rest0 hsk
      by_cases hc : c = 123 ∨ c = 91
      · simp [hc] at h
      · simp only [hc, if_false] at h
        obtain ⟨p, hp, hY⟩ := parseScalar_local c rest0 v rest h
        refine ⟨sp ++ c :: p, by rw [hsp, hp]; simp, ?_⟩
        intro Y hcond
        have e1 : sp ++ c :: p ++ Y = sp ++ c :: (p ++ Y) := by simp
        rw [e1]
        unfold parseValue
        simp only [hskip, hc, if_false, hY Y hcond]
  | succ d ih =>
    intro inp v rest h
    unfold parseValue at h
    cases hsk : skipSpace inp with
    | nil => simp [hsk] at h
    | cons c rest0 =>
      simp only [hsk] at h
      obtain ⟨sp, hsp, hskip⟩ := after_value inp c rest0 hsk
      by_cases hc : c = 123
      · subst hc
        simp only [if_true] at h
        obtain ⟨p, hp, hY⟩ := parseObject_local (parseValue d) ih rest0 v rest h
        refine ⟨sp ++ 123 :: p, by rw [hsp, hp]; simp, ?_⟩
        intro Y _
        have e1 : sp ++ 123 :: p ++ Y = sp ++ 123 :: (p ++ Y) := by simp
        rw [e1]
        unfold parseValue
        simp only [hskip, if_true, hY Y]
      by_cases hc2 : c = 91
      · subst hc2
        simp at h
        obtain ⟨p, hp, hY⟩ := parseArray_local (parseValue d) ih rest0 v rest h
        refine ⟨sp ++ 91 :: p, by rw [hsp, hp]; simp, ?_⟩
        intro Y _
        have e1 : sp ++ 91 :: p ++ Y = sp ++ 91 :: (p ++ Y) := by simp
        rw [e1]
        unfold parseValue
        simp [hskip, hY Y]
      · simp only [hc, hc2, if_false] at h
        obtain ⟨p, hp, hY⟩ := parseScalar_local c rest0 v rest h
        refine ⟨sp ++ c :: p, by rw [hsp, hp]; simp, ?_⟩
        intro Y hcond
        have e1 : sp ++ c :: p ++ Y = sp ++ c :: (p ++ Y) := by simp
        rw [e1]
        unfold parseValue
        simp only [hskip, hc, hc2, if_false, hY Y hcond]

/-- When the scanner reads a value from the head of a text, the bytes it consumed are by
themselves a valid JSON text. -/
theorem jsonValid_take_of_parse (data : Bytes) (v : JVal) (rest : Bytes)
    (h : parseValue maxNestingDepth data = .ok (v, rest)) :
    ∃ n, jsonValid (data.take n) = true := by
  obtain ⟨p, hp, hY⟩ := parseValue_local maxNestingDepth data v rest h
  refine ⟨p.length, ?_⟩
  have := hY [] (Or.inl rfl)
  rw [List.append_nil] at this
  rw [hp, List.take_left' rfl]
  simp [jsonValid, this]

theorem readValue_error_of_no_valid_head (body : Body)
    (h : ∀ n, jsonValid (body.data.take n) = false) : ∃ e, readValue body = .error e := by
  unfold readValue
  cases hp : parseValue maxNestingDepth body.data with
  | ok pr =>
    obtain ⟨v, rest⟩ := pr
    obtain ⟨n, hn⟩ := jsonValid_take_of_parse body.data v rest hp
    rw [h n] at hn
    exact absurd hn (by decide)
  | error f =>
    cases f with
    | invalid => exact ⟨_, rfl⟩
    | eof =>
      dsimp only
      cases body.failure with
      | some e => exact ⟨_, rfl⟩
      | none =>
        dsimp only
        split_ifs
        · exact ⟨_, rfl⟩
        · exact ⟨_, rfl⟩

theorem outcome_of_no_valid_head {α : Type} (store : Store α) (zero : α) (resp : Response)
    (h : ∀ n, jsonValid (resp.Body.data.take n) = false) :
    ∃ e, outcome store zero (.ok resp) = (none, some e) := by
  obtain ⟨e, he⟩ := readValue_error_of_no_valid_head resp.Body h
  exact ⟨e, outcome_decodeError store zero resp e (by simp [decode, he])⟩

/-- C6 (amended). Each of the four methods makes exactly one request, and when the response
to it has a body no initial part of which, the whole body included, is valid JSON (for
instance an empty body or plain text), the method returns an error that is not nil and a nil
result. -/
theorem C6_no_json_value_is_an_error (c : Client) (sent : List Request) (sms : SMSRequest)
    (camp : CampaignRequest) (resp : Response)
    (hbody : ∀ n, jsonValid (resp.Body.data.take n) = false) :
    (∃ r, (SendSMS c sms sent).2 = sent ++ [r] ∧
      (c.httpClient.roundTrip sent r = .ok resp →
        ∃ e, (SendSMS c sms sent).1 = (none, some e))) ∧
    (∃ r, (SendCampaign c camp sent).2 = sent ++ [r] ∧
      (c.httpClient.roundTrip sent r = .ok resp →
        ∃ e, (SendCampaign c camp sent).1 = (none, some e))) ∧
    (∃ r, (CheckBalance c sent).2 = sent ++ [r] ∧
      (c.httpClient.roundTrip sent r = .ok resp →
        ∃ e, (CheckBalance c sent).1 = (none, some e))) ∧
    (∃ r, (GetSMSHistory c sent).2 = sent ++ [r] ∧
      (c.httpClient.roundTrip sent r = .ok resp →
        ∃ e, (GetSMSHistory c sent).1 = (none, some e))) := by
  refine ⟨⟨_, by rw [SendSMS_eq], ?_⟩, ⟨_, by rw [SendCampaign_eq], ?_⟩,
    ⟨_, by rw [CheckBalance_eq], ?_⟩, ⟨_, by rw [GetSMSHistory_eq], ?_⟩⟩
  · intro h; rw [SendSMS_eq, h]; exact outcome_of_no_valid_head _ _ resp hbody
  · intro h; rw [SendCampaign_eq, h]; exact outcome_of_no_valid_head _ _ resp hbody
  · intro h; rw [CheckBalance_eq, h]; exact outcome_of_no_valid_head _ _ resp hbody
  · intro h; rw [GetSMSHistory_eq, h]; exact outcome_of_no_valid_head _ _ resp hbody

set_option maxRecDepth 100000 in
/-- Witness of C6: the plain text `hello` as body, and the empty body; `CheckBalance` returns
a nil result and an error for both. -/
theorem C6_witness :
    ((∀ n, jsonValid ((str "hello").take n) = false) ∧
      ∃ e, (CheckBalance (NewClient (HTTPClient.always ⟨200, [], ⟨str "hello", none⟩⟩)
        (str "k") (str "s")) []).1 = (none, some e)) ∧
    ((∀ n, jsonValid (([] : Bytes).take n) = false) ∧
      ∃ e, (CheckBalance (NewClient (HTTPClient.always ⟨200, [], ⟨[], none⟩⟩)
        (str "k") (str "s")) []).1 = (none, some e)) := by
  have hb : ∀ n, jsonValid ((str "hello").take n) = false := by
    intro n
    rcases n with _ | _ | _ | _ | _ | _ | n <;> rfl
  have hb2 : ∀ n, jsonValid (([] : Bytes).take n) = false := by
    intro n
    cases n <;> rfl
  obtain ⟨-, -, ⟨r, -, h⟩, -⟩ := C6_no_json_value_is_an_error
    (NewClient (HTTPClient.always ⟨200, [], ⟨str "hello", none⟩⟩) (str "k") (str "s")) []
    ⟨[], [], [], [], []⟩ ⟨[], [], [], [], .nil⟩ ⟨200, [], ⟨str "hello", none⟩⟩ hb
  obtain ⟨-, -, ⟨r2, -, h2⟩, -⟩ := C6_no_json_value_is_an_error
    (NewClient (HTTPClient.always ⟨200, [], ⟨[], none⟩⟩) (str "k") (str "s")) []
    ⟨[], [], [], [], []⟩ ⟨[], [], [], [], .nil⟩ ⟨200, [], ⟨[], none⟩⟩ hb2
  exact ⟨⟨hb, h rfl⟩, ⟨hb2, h2 rfl⟩⟩

set_option maxRecDepth 100000 in
/-- Counterexample to C6 as stated: the body `{"balance":100}xyz`, a valid JSON value
followed by characters that are not JSON, is not valid JSON, yet `CheckBalance` returns the
decoded balance and a nil error; likewise `GetSMSHistory` for the body `[]]`. -/
theorem C6_counterexample :
    jsonValid (str "\x7b\"balance\":100\x7dxyz") = false ∧
    (CheckBalance (NewClient (HTTPClient.always
        ⟨200, [], ⟨str "\x7b\"balance\":100\x7dxyz", none⟩⟩) (str "k") (str "s")) []).1
      = (some ⟨100, [], []⟩, none) ∧
    jsonValid (str "[]]") = false ∧
    (GetSMSHistory (NewClient (HTTPClient.always ⟨200, [], ⟨str "[]]", none⟩⟩)
        (str "k") (str "s")) []).1 = (some (.mk [] []), none) :=
  ⟨rfl, rfl, rfl, rfl⟩

/-! ## The bound on the loops of the scanner is never what stops them -/

theorem skipSpace_length_le (inp : Bytes) : (skipSpace inp).length ≤ inp.length := by
  induction inp with
  | nil => simp [skipSpace]
  | cons c cs ih =>
    by_cases h : isSpace c = true
    · simp only [skipSpace, h, if_true, List.length_cons]; omega
    · simp [skipSpace, h]

theorem scanString_length (inp : Bytes) (st : StrStep) (raw rest : Bytes)
    (h : scanString st inp = .ok (raw, rest)) : rest.length < inp.length := by
  obtain ⟨p, hp, hY⟩ := scanString_local inp st raw rest h
  cases p with
  | nil =>
    have := hY []
    cases st <;> simp [scanString] at this
  | cons x xs => rw [hp]; simp; omega

/-- A successful `parseValue` consumes at least one byte. -/
theorem parseValue_length (d : Nat) (inp : Bytes) (v : JVal) (rest : Bytes)
    (h : parseValue d inp = .ok (v, rest)) : rest.length < inp.length := by
  obtain ⟨p, hp, hY⟩ := parseValue_local d inp v rest h
  cases p with
  | nil =>
    have := hY [] (Or.inl rfl)
    cases d <;> simp [parseValue, skipSpace] at this
  | cons x xs => rw [hp]; simp; omega

theorem parseValue_nil (d : Nat) : parseValue d [] = .error .eof := by
  cases d <;> simp [parseValue, skipSpace]

/-- With a bound of at least the length of the input, `parseElements` does not depend on the
bound: the bound does not run out before the input does. -/
theorem parseElements_fuel (pv : Bytes → Scan JVal) (hnil : pv [] = .error .eof)
    (hlen : ∀ inp v rest, pv inp = .ok (v, rest) → rest.length < inp.length) :
    ∀ fuel fuel2 inp, inp.length ≤ fuel → inp.length ≤ fuel2 →
      parseElements pv fuel inp = parseElements pv fuel2 inp := by
  have base : ∀ fuel2, parseElements pv fuel2 [] = .error .eof := by
    intro fuel2
    cases fuel2 <;> simp [parseElements, hnil]
  intro fuel
  induction fuel with
  | zero =>
    intro fuel2 inp h1 _
    have : inp = [] := by simpa using h1
    subst this
    rw [base, base]
  | succ fuel ih =>
    intro fuel2 inp h1 h2
    cases fuel2 with
    | zero =>
      have : inp = [] := by simpa using h2
      subst this
      rw [base, base]
    | succ fuel2 =>
      unfold parseElements
      cases hpv : pv inp with
      | error e => rfl
      | ok pr =>
        obtain ⟨v, rest⟩ := pr
        dsimp only
        cases hsk : skipSpace rest with
        | nil => rfl
        | cons c rest2 =>
          dsimp only
          have h3 := hlen inp v rest hpv
          have h4 := skipSpace_length_le rest
          rw [hsk] at h4
          simp only [List.length_cons] at h4
          rw [ih fuel2 rest2 (by omega) (by omega)]

/-- With a bound of at least the length of the input, `parseMembers` does not depend on the
bound. -/
theorem parseMembers_fuel (pv : Bytes → Scan JVal)
    (hlen : ∀ inp v rest, pv inp = .ok (v, rest) → rest.length < inp.length) :
    ∀ fuel fuel2 inp, inp.length ≤ fuel → inp.length ≤ fuel2 →
      parseMembers pv fuel inp = parseMembers pv fuel2 inp := by
  have base : ∀ fuel2, parseMembers pv fuel2 [] = .error .eof := by
    intro fuel2
    cases fuel2 <;> simp [parseMembers, skipSpace]
  intro fuel
  induction fuel with
  | zero =>
    intro fuel2 inp h1 _
    have : inp = [] := by simpa using h1
    subst this
    rw [base, base]
  | succ fuel ih =>
    intro fuel2 inp h1 h2
    cases fuel2 with
    | zero =>
      have : inp = [] := by simpa using h2
      subst this
      rw [base, base]
    | succ fuel2 =>
      unfold parseMembers
      cases hsk0 : skipSpace inp with
      | nil => rfl
      | cons q afterQuote =>
        dsimp only
        have g0 := skipSpace_length_le inp
        rw [hsk0] at g0
        simp only [List.length_cons] at g0
        by_cases hq : q = 34
        swap
        · simp only [hq, if_false]
        simp only [hq, if_true]
        cases hstr : scanString .inString afterQuote with
        | error e => rfl
        | ok pr =>
          obtain ⟨raw, rest1⟩ := pr
          dsimp only
          have g1 := scanString_length afterQuote _ raw rest1 hstr
          cases unquote raw with
          | none => rfl
          | some key =>
            dsimp only
            cases hsk1 : skipSpace rest1 with
            | nil => rfl
            | cons colon rest2 =>
              dsimp only
              have g2 := skipSpace_length_le rest1
              rw [hsk1] at g2
              simp only [List.length_cons] at g2
              by_cases hcol : colon = 58
              swap
              · simp only [hcol, if_false]
              simp only [hcol, if_true]
              cases hpv : pv rest2 with
              | error e => rfl
              | ok pr2 =>
                obtain ⟨v, rest3⟩ := pr2
                dsimp only
                have g3 := hlen rest2 v rest3 hpv
                cases hsk2 : skipSpace rest3 with
                | nil => rfl
                | cons c rest4 =>
                  dsimp only
                  have g4 := skipSpace_length_le rest3
                  rw [hsk2] at g4
                  simp only [List.length_cons] at g4
                  rw [ih fuel2 rest4 (by omega) (by omega)]

/-- The loops of `parseValue` do not depend on their bound, once it is at least the length
of their input, as it is where `parseArray` and `parseObject` call them. -/
theorem parseValue_loops_fuel (d fuel fuel2 : Nat) (inp : Bytes) (h1 : inp.length ≤ fuel)
    (h2 : inp.length ≤ fuel2) :
    parseElements (parseValue d) fuel inp = parseElements (parseValue d) fuel2 inp ∧
    parseMembers (parseValue d) fuel inp = parseMembers (parseValue d) fuel2 inp :=
  ⟨parseElements_fuel _ (parseValue_nil d) (parseValue_length d) fuel fuel2 inp h1 h2,
    parseMembers_fuel _ (parseValue_length d) fuel fuel2 inp h1 h2⟩

end Sendtext
